import Mathlib

/-! BinaryOps: tokenizer and one-pass recursive-descent evaluator.

A shallow embedding of `src/BinaryOps.go`.

* A Go `string` is a byte sequence indexed by `s[i]`; here a line is a `String`
  whose characters stand for those bytes (`s.data` is the sequence that the
  index `i` walks over).
* Go `int` values are modelled as `Int`.  The only operations the program applies
  to them are `|`, `^`, `&` and unary `^`, which never overflow, so two's
  complement words and unbounded integers agree; the word size only matters in
  `strconv.Atoi`.
* `panic` is modelled as an explicit outcome carrying the panic payload and, in
  the parser, the parser state at the moment of the panic (the map is mutated in
  place, so this is the state an observer would find).
* Loops and recursion that are not structurally bounded take a fuel argument;
  running out of fuel is the separate outcome `timeout`, and the entry points
  supply a fuel that is shown to be sufficient.
-/

namespace BinaryOps

/-! ## Data model -/

/-- Go `type Token struct { Kind string; Value string }`. -/
structure Token where
  Kind : String
  Value : String
  deriving DecidableEq, Repr

/-- Go `map[string]int`: a finite map looked up by name; `none` is an absent key. -/
abbrev Env := String → Option Int

/-- The map produced by `make(map[string]int)`. -/
def Env.empty : Env := fun _ => none

/-- The map after `variables[k] = v`. -/
def Env.set (m : Env) (k : String) (v : Int) : Env :=
  fun x => if x = k then some v else m x

/-- Go `type Parser struct { tokens []Token; pos int; variables map[string]int }`
(the field `variables` is spelled `vars`, the longer word being reserved). -/
structure Parser where
  tokens : List Token
  pos : Nat
  vars : Env

/-- The error returned by `strconv.Atoi` (`*NumError` with `Err` one of
`ErrSyntax`, `ErrRange`). -/
inductive AtoiErr where
  | errSyntax
  | errRange
  deriving DecidableEq, Repr

/-- The payloads of the program's `panic` calls. -/
inductive Panic where
  /-- The payload `fmt.Sprintf("Invalid character %c", s[i])` (tokenize). -/
  | invalidCharacter (c : Char)
  /-- The payload `fmt.Sprintf("Expected %s", kind)` (expect). -/
  | expected (kind : String)
  /-- The payload `fmt.Sprintf("Undefined variable %s", variable)` (parseUnary). -/
  | undefinedVariable (name : String)
  /-- The payload `err` of `panic(err)` after a failed `strconv.Atoi` (parseUnary). -/
  | numError (num : String) (err : AtoiErr)
  /-- The payload `"Syntax error"` (parseUnary). -/
  | syntaxError
  deriving DecidableEq, Repr

/-- Outcome of a parser method: normal return with the new parser state, a panic
with the parser state at that moment, or fuel exhausted. -/
inductive Res (α : Type) where
  | ok (a : α) (p : Parser)
  | panic (e : Panic) (p : Parser)
  | timeout

/-- Sequencing of parser methods: a panic or a timeout ends the run. -/
def Res.bind {α β : Type} (r : Res α) (f : α → Parser → Res β) : Res β :=
  match r with
  | .ok a p => f a p
  | .panic e p => .panic e p
  | .timeout => .timeout

/-- Outcome of `tokenize`. -/
inductive TokRes where
  | ok (tokens : List Token)
  | panic (e : Panic)
  | timeout
  deriving DecidableEq, Repr

/-! ## Character classes -/

/-- Go `isDigit`. -/
def isDigit (c : Char) : Bool := decide ('0' ≤ c) && decide (c ≤ '9')

/-- Go `isLowerCase`. -/
def isLowerCase (c : Char) : Bool := decide ('a' ≤ c) && decide (c ≤ 'z')

/-- Go `isUpperCase`. -/
def isUpperCase (c : Char) : Bool := decide ('A' ≤ c) && decide (c ≤ 'Z')

/-- Go `isLetter`. -/
def isLetter (c : Char) : Bool := isLowerCase c || isUpperCase c

/-- Go `isLetterOrDigit`. -/
def isLetterOrDigit (c : Char) : Bool := isDigit c || isLetter c

/-- The loop condition `s[i] == ' ' || s[i] == '\t'` of the whitespace skip. -/
def isBlank (c : Char) : Bool := c == ' ' || c == '\t'

/-! ## Tokenizer -/

/-- The `switch s[i]` of `tokenize`: the operator token for a character, or the
`default` panic. -/
def operatorToken (c : Char) : Except Panic Token :=
  if c = '=' then .ok ⟨"=", "="⟩
  else if c = '|' then .ok ⟨"|", "|"⟩
  else if c = '^' then .ok ⟨"^", "^"⟩
  else if c = '&' then .ok ⟨"&", "&"⟩
  else if c = '~' then .ok ⟨"~", "~"⟩
  else if c = '(' then .ok ⟨"(", "("⟩
  else if c = ')' then .ok ⟨")", ")"⟩
  else .error (.invalidCharacter c)

/-- Prepending the token just scanned to the tokens of the rest of the line
(`tokens = append(tokens, token)` followed by the remaining iterations). -/
def TokRes.cons (t : Token) : TokRes → TokRes
  | .ok ts => .ok (t :: ts)
  | .panic e => .panic e
  | .timeout => .timeout

/-- The outer `for i < len(s)` loop of `tokenize`, on the part of the line from
index `i` on; each iteration spends one unit of fuel. -/
def tokenizeLoop : Nat → List Char → TokRes
  | _, [] => .ok []
  | 0, _ :: _ => .timeout
  | fuel + 1, c0 :: cs0 =>
    match (c0 :: cs0).dropWhile isBlank with
    | [] => .ok []
    | c :: cs =>
      if isLetter c then
        (tokenizeLoop fuel (cs.dropWhile isLetterOrDigit)).cons
          ⟨"var", String.mk (c :: cs.takeWhile isLetterOrDigit)⟩
      else if isDigit c then
        (tokenizeLoop fuel (cs.dropWhile isDigit)).cons
          ⟨"const", String.mk (c :: cs.takeWhile isDigit)⟩
      else
        match operatorToken c with
        | .ok t => (tokenizeLoop fuel cs).cons t
        | .error e => .panic e

/-- Go `tokenize`.  Every iteration of the outer loop advances `i`, so
`len(s)` iterations always suffice. -/
def tokenize (s : String) : TokRes := tokenizeLoop s.data.length s.data

/-! ## strconv.Atoi -/

/-- Go `strconv.IntSize` on the 64-bit platforms the program is built for. -/
def intSize : Nat := 64

/-- The value of a run of decimal digits, most significant first. -/
def decimalValue (ds : List Char) : Nat :=
  ds.foldl (fun acc c => 10 * acc + (c.toNat - '0'.toNat)) 0

/-- Modelled from the spec: `strconv.Atoi` is Go library code, not part of the
repository.  The spec says a Constant "parses its literal text as a signed
integer" and fails "on malformed or overflowing literal text": an optional sign
followed by one or more decimal digits, whose value must fit a signed integer
of `intSize` bits.  Text that is malformed is reported as `errSyntax` whatever
its length; `tokenize` only ever produces runs of digits, for which the two
errors cannot both apply. -/
def Atoi (s : String) : Except AtoiErr Int :=
  let body (neg : Bool) (ds : List Char) : Except AtoiErr Int :=
    if ds = [] then .error .errSyntax
    else if ds.all isDigit then
      if neg then
        if decimalValue ds ≤ 2 ^ (intSize - 1) then .ok (-(decimalValue ds : Int))
        else .error .errRange
      else
        if decimalValue ds < 2 ^ (intSize - 1) then .ok (decimalValue ds : Int)
        else .error .errRange
    else .error .errSyntax
  match s.data with
  | [] => .error .errSyntax
  | c :: cs =>
    if c = '-' then body true cs
    else if c = '+' then body false cs
    else body false (c :: cs)

/-! ## Parser -/

/-- Go `NewParser`. -/
def NewParser (tokens : List Token) (vars : Env) : Parser :=
  { tokens := tokens, pos := 0, vars := vars }

/-- The test `p.pos < len(p.tokens) && p.tokens[p.pos].Kind == kind` shared by
`accept` and `expect`. -/
def Parser.atKind (p : Parser) (kind : String) : Bool :=
  match p.tokens[p.pos]? with
  | some t => t.Kind == kind
  | none => false

/-- The parser after `p.pos++`. -/
def Parser.advance (p : Parser) : Parser := { p with pos := p.pos + 1 }

/-- The value `p.tokens[p.pos-1].Value` read after a successful `accept`. -/
def Parser.lastValue (p : Parser) : String :=
  match p.tokens[p.pos - 1]? with
  | some t => t.Value
  | none => ""

/-- Go `Parser.accept`. -/
def Parser.accept (p : Parser) (kind : String) : Bool × Parser :=
  if p.atKind kind then (true, p.advance) else (false, p)

/-- Go `Parser.expect`. -/
def Parser.expect (p : Parser) (kind : String) : Res Token :=
  match p.tokens[p.pos]? with
  | some t => if t.Kind == kind then .ok t p.advance else .panic (.expected kind) p
  | none => .panic (.expected kind) p

mutual
/-- Go `Parser.parseUnary`. -/
def parseUnary : Nat → Parser → Res Int
  | 0, _ => .timeout
  | fuel + 1, p =>
    if p.atKind "~" then
      (parseUnary fuel p.advance).bind fun v q => .ok (Int.not v) q
    else if p.atKind "var" then
      match p.advance.vars p.advance.lastValue with
      | some value => .ok value p.advance
      | none => .panic (.undefinedVariable p.advance.lastValue) p.advance
    else if p.atKind "const" then
      match Atoi p.advance.lastValue with
      | .ok value => .ok value p.advance
      | .error err => .panic (.numError p.advance.lastValue err) p.advance
    else if p.atKind "(" then
      (parseExpression fuel p.advance).bind fun value q =>
        (q.expect ")").bind fun _ q1 => .ok value q1
    else
      .panic .syntaxError p
/-- The loop `for p.accept("&") { value &= p.parseUnary() }` of `parseFactor`. -/
def factorLoop : Nat → Int → Parser → Res Int
  | 0, _, _ => .timeout
  | fuel + 1, value, p =>
    if p.atKind "&" then
      (parseUnary fuel p.advance).bind fun u q => factorLoop fuel (Int.land value u) q
    else .ok value p
/-- Go `Parser.parseFactor`. -/
def parseFactor : Nat → Parser → Res Int
  | 0, _ => .timeout
  | fuel + 1, p => (parseUnary fuel p).bind fun value q => factorLoop fuel value q
/-- The loop `for p.accept("^") { value ^= p.parseFactor() }` of `parseTerm`. -/
def termLoop : Nat → Int → Parser → Res Int
  | 0, _, _ => .timeout
  | fuel + 1, value, p =>
    if p.atKind "^" then
      (parseFactor fuel p.advance).bind fun u q => termLoop fuel (Int.xor value u) q
    else .ok value p
/-- Go `Parser.parseTerm`. -/
def parseTerm : Nat → Parser → Res Int
  | 0, _ => .timeout
  | fuel + 1, p => (parseFactor fuel p).bind fun value q => termLoop fuel value q
/-- The loop `for p.accept("|") { value |= p.parseTerm() }` of `parseExpression`. -/
def expressionLoop : Nat → Int → Parser → Res Int
  | 0, _, _ => .timeout
  | fuel + 1, value, p =>
    if p.atKind "|" then
      (parseTerm fuel p.advance).bind fun u q => expressionLoop fuel (Int.lor value u) q
    else .ok value p
/-- Go `Parser.parseExpression`. -/
def parseExpression : Nat → Parser → Res Int
  | 0, _ => .timeout
  | fuel + 1, p => (parseTerm fuel p).bind fun value q => expressionLoop fuel value q
end

/-- Go `Parser.parseAssignment`; `fuel` bounds the expression it parses. -/
def parseAssignment (fuel : Nat) (p : Parser) : Res String :=
  (p.expect "var").bind fun t p1 =>
    (p1.expect "=").bind fun _ p2 =>
      (parseExpression fuel p2).bind fun value p3 =>
        .ok t.Value { p3 with vars := p3.vars.set t.Value value }

/-- The loop `for p.pos < len(p.tokens) { result = p.parseAssignment() }` of
`Parse`. -/
def parseLoop : Nat → String → Parser → Res String
  | 0, _, _ => .timeout
  | fuel + 1, result, p =>
    if p.pos < p.tokens.length then
      (parseAssignment fuel p).bind fun r q => parseLoop fuel r q
    else .ok result p

/-- The statements of `Parse` up to the final `if shouldPrint`: the name left in
`result`, with the parser state. -/
def parseAll (fuel : Nat) (p : Parser) : Res String :=
  (parseAssignment fuel p).bind fun result q => parseLoop fuel result q

/-- A fuel that suffices for `parseAll` on a parser: every procedure call and
every loop test spends one unit, and at most four of them separate two token
reads. -/
def Parser.fuel (p : Parser) : Nat := 4 * p.tokens.length + 4

/-- What the program writes to standard output, one item per `Println`. -/
inductive Output where
  /-- A line of text written by `fmt.Println(string)`. -/
  | text (s : String)
  /-- An integer written by `fmt.Println(int)`. -/
  | value (n : Int)
  deriving DecidableEq, Repr

/-- Go `Parser.Parse`: the value printed (if any) together with the outcome.
`p.variables[result]` on a map yields 0 for an absent key. -/
def Parser.Parse (p : Parser) (shouldPrint : Bool) : Res (List Output) :=
  (parseAll p.fuel p).bind fun result q =>
    if shouldPrint then .ok [.value ((q.vars result).getD 0)] q else .ok [] q

/-- How a session ends: normal return of `CalcAllAndPrint`, a panic, or fuel
exhausted. -/
inductive Status where
  | finished
  | panicked (e : Panic)
  | timeout
  deriving DecidableEq, Repr

/-- The observable result of a session: what was printed, the final contents of
the `variables` map, and how the session ended. -/
structure Session where
  out : List Output
  vars : Env
  status : Status

/-- Prefixing output already written to the result of the rest of a session. -/
def Session.after (pre : List Output) (s : Session) : Session :=
  { s with out := pre ++ s.out }

/-- The `for i, line := range exprs` loop of `CalcAllAndPrint` on the remaining
lines; `i == len(exprs)-1` holds exactly on the last of them. -/
def calcLoop (vars : Env) : List String → Session
  | [] => { out := [], vars := vars, status := .finished }
  | line :: rest =>
    match tokenize line with
    | .panic e => { out := [.text line], vars := vars, status := .panicked e }
    | .timeout => { out := [.text line], vars := vars, status := .timeout }
    | .ok tokens =>
      match (NewParser tokens vars).Parse (decide (rest = [])) with
      | .panic e q => { out := [.text line], vars := q.vars, status := .panicked e }
      | .timeout => { out := [.text line], vars := vars, status := .timeout }
      | .ok printed q => (calcLoop q.vars rest).after (.text line :: printed)

/-- Go `CalcAllAndPrint`. -/
def CalcAllAndPrint (exprs : List String) : Session :=
  (calcLoop Env.empty exprs).after [.text "The read expressions are:"]

/-! ## Vocabulary for stating the claims -/

/-- A Constant's text: a non-empty run of decimal digits. -/
def isConstantText (s : String) : Bool :=
  match s.data with
  | [] => false
  | c :: cs => isDigit c && cs.all isDigit

/-- A Variable's text: a letter followed by letters and digits. -/
def isVariableText (s : String) : Bool :=
  match s.data with
  | [] => false
  | c :: cs => isLetter c && cs.all isLetterOrDigit

/-- The largest value of a Go `int`. -/
def maxInt : Nat := 2 ^ (intSize - 1) - 1

/-- A Constant's text fits the integer width. -/
def fitsInt (s : String) : Bool := decide (decimalValue s.data ≤ maxInt)

/-- The characters `tokenize` accepts: letters, digits, space, tab and the seven
operator characters. -/
def isValidChar (c : Char) : Bool :=
  isLetter c || isDigit c || isBlank c ||
    c == '=' || c == '|' || c == '^' || c == '&' || c == '~' || c == '(' || c == ')'

/-- A constant that fits the integer width: a non-empty run of decimal digits
whose value is at most the largest `int`. -/
def isIntLiteral (s : String) : Bool := isConstantText s && fitsInt s

/-- The decimal value of a Constant's text. -/
def constantValue (s : String) : Int := (decimalValue s.data : Int)

/-- The parser state in which a run ended, if it ended. -/
def Res.state {α : Type} : Res α → Option Parser
  | .ok _ q => some q
  | .panic _ q => some q
  | .timeout => none

/-- A run started in `p` left the token sequence and the Environment as they
were and did not move the cursor backwards. -/
def Res.Frames {α : Type} (r : Res α) (p : Parser) : Prop :=
  ∀ q, r.state = some q → q.tokens = p.tokens ∧ q.vars = p.vars ∧ p.pos ≤ q.pos

/-- The leftmost character of a line that `tokenize` does not accept. -/
def firstInvalid (l : List Char) : Option Char := l.find? (fun c => !isValidChar c)

/-! ## The grammar of the spec -/

/-- The nonterminals of the grammar; a `Tail` is the repetition `{ op unit }*`
that follows the first unit of its level. -/
inductive Nonterminal where
  | unary
  | factorTail
  | factor
  | termTail
  | term
  | expressionTail
  | expression
  deriving DecidableEq, Repr

/-- Modelled from the spec: the grammar of section 4.2, on token sequences.
`unary := '~' unary | Variable | Constant | '(' expression ')'`,
`factor := unary { '&' unary }*`, `term := factor { '^' factor }*`,
`expression := term { '|' term }*`.  A terminal is any token of the required
kind. -/
inductive Derives : Nonterminal → List Token → Prop where
  | not (o : Token) (u : List Token) :
      o.Kind = "~" → Derives .unary u → Derives .unary (o :: u)
  | var (t : Token) : t.Kind = "var" → Derives .unary [t]
  | const (t : Token) : t.Kind = "const" → Derives .unary [t]
  | paren (l r : Token) (e : List Token) :
      l.Kind = "(" → r.Kind = ")" → Derives .expression e → Derives .unary (l :: (e ++ [r]))
  | factorNil : Derives .factorTail []
  | factorCons (o : Token) (u t : List Token) :
      o.Kind = "&" → Derives .unary u → Derives .factorTail t →
      Derives .factorTail (o :: (u ++ t))
  | factor (u t : List Token) :
      Derives .unary u → Derives .factorTail t → Derives .factor (u ++ t)
  | termNil : Derives .termTail []
  | termCons (o : Token) (f t : List Token) :
      o.Kind = "^" → Derives .factor f → Derives .termTail t →
      Derives .termTail (o :: (f ++ t))
  | term (f t : List Token) :
      Derives .factor f → Derives .termTail t → Derives .term (f ++ t)
  | expressionNil : Derives .expressionTail []
  | expressionCons (o : Token) (f t : List Token) :
      o.Kind = "|" → Derives .term f → Derives .expressionTail t →
      Derives .expressionTail (o :: (f ++ t))
  | expression (f t : List Token) :
      Derives .term f → Derives .expressionTail t → Derives .expression (f ++ t)

/-- The procedure of the parser that recognises a nonterminal; the loops take
the running value `v`, the other procedures ignore it. -/
def Nonterminal.run : Nonterminal → Nat → Int → Parser → Res Int
  | .unary, n, _, p => parseUnary n p
  | .factorTail, n, v, p => factorLoop n v p
  | .factor, n, _, p => parseFactor n p
  | .termTail, n, v, p => termLoop n v p
  | .term, n, _, p => parseTerm n p
  | .expressionTail, n, v, p => expressionLoop n v p
  | .expression, n, _, p => parseExpression n p

/-- Fuel that the procedure of a nonterminal needs beyond four units per token. -/
def Nonterminal.slack : Nonterminal → Nat
  | .unary => 0
  | .factorTail => 1
  | .factor => 2
  | .termTail => 1
  | .term => 3
  | .expressionTail => 1
  | .expression => 4

/-- The operator kinds that, right after a phrase of the nonterminal, would make
its procedure read on. -/
def Nonterminal.follow : Nonterminal → List String
  | .unary => []
  | .factorTail => ["&"]
  | .factor => ["&"]
  | .termTail => ["&", "^"]
  | .term => ["&", "^"]
  | .expressionTail => ["&", "^", "|"]
  | .expression => ["&", "^", "|"]

/-- A Variable token whose name has no binding in the Environment. -/
def isUndefinedRef (vars : Env) (t : Token) : Bool :=
  t.Kind == "var" && (vars t.Value).isNone

/-- The leftmost reference to an unbound variable in a token sequence. -/
def firstUndefined (vars : Env) (e : List Token) : Option Token :=
  e.find? (isUndefinedRef vars)

/-- What a run over a phrase must be: a normal return in `fin` when every
variable of the phrase is bound, and otherwise the panic for the leftmost
unbound variable. -/
def Outcome (r : Res Int) (bad : Option Token) (fin : Parser) : Prop :=
  match bad with
  | none => ∃ v, r = .ok v fin
  | some x => ∃ q, r = .panic (.undefinedVariable x.Value) q

/-- The tokens `tokenize` can produce: a `var` holding a Variable's text, a
`const` holding a Constant's text, or an operator token whose text is its kind. -/
def Token.wellFormed (t : Token) : Bool :=
  (t.Kind == "var" && isVariableText t.Value) ||
  (t.Kind == "const" && isConstantText t.Value) ||
  (t.Kind == t.Value && ["=", "|", "^", "&", "~", "(", ")"].contains t.Kind)

/-- The number of tokens from the cursor to the end of the sequence. -/
def Parser.remaining (p : Parser) : Nat := p.tokens.length - p.pos

/-! ## Vocabulary for sessions -/

/-- The loop body of `CalcAllAndPrint` on one line without its printing:
`tokenize`, then the statements of `Parse` before the final `if`.  The result is
the name left in `result` with the parser state; a panic of `tokenize` happens
before any parser exists and leaves the map as it was. -/
def lineResult (vars : Env) (line : String) : Res String :=
  match tokenize line with
  | .panic e => .panic e (NewParser [] vars)
  | .timeout => .timeout
  | .ok tokens => parseAll (NewParser tokens vars).fuel (NewParser tokens vars)

/-- The Environment after the lines `pre`, when each of them is processed
successfully. -/
def envAfter (vars : Env) : List String → Option Env
  | [] => some vars
  | line :: rest =>
    match lineResult vars line with
    | .ok _ q => envAfter q.vars rest
    | .panic _ _ => none
    | .timeout => none

/-- Modelled from the spec: "the concatenation of the token sequences of all the
lines" of a session, the one continuous token stream of section 4.2; `none` when
some line has no token sequence. -/
def sessionTokens : List String → Option (List Token)
  | [] => some []
  | line :: rest =>
    match tokenize line with
    | .ok ts => (sessionTokens rest).map fun more => ts ++ more
    | .panic _ => none
    | .timeout => none

/-- The parser state `big` is the state `small` seen inside a longer token
sequence: the tokens of `small` are preceded by `pre` and followed by `ex`, the
cursor is shifted by the length of `pre`, and the Environment is the same. -/
def Embeds (pre ex : List Token) (small big : Parser) : Prop :=
  big.tokens = pre ++ (small.tokens ++ ex) ∧ big.pos = pre.length + small.pos ∧
    big.vars = small.vars ∧ small.pos ≤ small.tokens.length

/-! ## Expression trees -/

/-- Modelled from the spec: the "explicit tree" of section 4.2, built from
constants, variables, NOT, AND, XOR and OR. -/
inductive Expr where
  | const (text : String)
  | var (name : String)
  | not (e : Expr)
  | and (a b : Expr)
  | xor (a b : Expr)
  | or (a b : Expr)
  deriving DecidableEq, Repr

/-- The fully parenthesised rendering of a tree as tokens: every binary
operation is enclosed in parentheses; `~` is written before the rendering of its
operand, and that application is itself enclosed in parentheses when `wrapNot`
is set. -/
def Expr.render (wrapNot : Bool) : Expr → List Token
  | .const text => [⟨"const", text⟩]
  | .var name => [⟨"var", name⟩]
  | .not e =>
    if wrapNot then ⟨"(", "("⟩ :: ⟨"~", "~"⟩ :: (e.render wrapNot ++ [⟨")", ")"⟩])
    else ⟨"~", "~"⟩ :: e.render wrapNot
  | .and a b =>
    ⟨"(", "("⟩ :: (a.render wrapNot ++ ⟨"&", "&"⟩ :: (b.render wrapNot ++ [⟨")", ")"⟩]))
  | .xor a b =>
    ⟨"(", "("⟩ :: (a.render wrapNot ++ ⟨"^", "^"⟩ :: (b.render wrapNot ++ [⟨")", ")"⟩]))
  | .or a b =>
    ⟨"(", "("⟩ :: (a.render wrapNot ++ ⟨"|", "|"⟩ :: (b.render wrapNot ++ [⟨")", ")"⟩]))

/-- The value of a tree, bottom-up, in an Environment; `none` when a constant
does not fit the integer width or a variable is not bound. -/
def Expr.eval (vars : Env) : Expr → Option Int
  | .const text => if isIntLiteral text then some (constantValue text) else none
  | .var name => vars name
  | .not e => (e.eval vars).map Int.not
  | .and a b => (a.eval vars).bind fun x => (b.eval vars).map fun y => Int.land x y
  | .xor a b => (a.eval vars).bind fun x => (b.eval vars).map fun y => Int.xor x y
  | .or a b => (a.eval vars).bind fun x => (b.eval vars).map fun y => Int.lor x y

/-! ## Tokenizer lemmas -/

theorem length_dropWhile_le (f : Char → Bool) (l : List Char) :
    (l.dropWhile f).length ≤ l.length := by
  induction l with
  | nil => simp
  | cons a l ih =>
    rw [List.dropWhile_cons]
    split
    · exact Nat.le_succ_of_le ih
    · exact Nat.le_refl _

theorem tokenizeLoop_nil (f : Nat) : tokenizeLoop f [] = .ok [] := by
  cases f <;> rfl

/-- Any two fuels that are at least the length of the rest of the line give the
same tokens. -/
theorem tokenizeLoop_fuel : ∀ (f : Nat) (s : List Char) (g : Nat),
    s.length ≤ f → s.length ≤ g → tokenizeLoop f s = tokenizeLoop g s := by
  intro f
  induction f with
  | zero =>
    intro s g hf _
    have : s = [] := List.length_eq_zero.mp (Nat.le_zero.mp hf)
    subst this
    rw [tokenizeLoop_nil, tokenizeLoop_nil]
  | succ f ih =>
    intro s g hf hg
    cases s with
    | nil => rw [tokenizeLoop_nil, tokenizeLoop_nil]
    | cons c0 cs0 =>
      cases g with
      | zero => simp at hg
      | succ g =>
        simp only [List.length_cons, Nat.add_le_add_iff_right] at hf hg
        simp only [tokenizeLoop]
        have hd := length_dropWhile_le isBlank (c0 :: cs0)
        cases hdw : (c0 :: cs0).dropWhile isBlank with
        | nil => rfl
        | cons c cs =>
          rw [hdw] at hd
          simp only [List.length_cons, Nat.add_le_add_iff_right] at hd
          have h1 := length_dropWhile_le isLetterOrDigit cs
          have h2 := length_dropWhile_le isDigit cs
          simp only []
          rw [ih (cs.dropWhile isLetterOrDigit) g (by omega) (by omega),
            ih (cs.dropWhile isDigit) g (by omega) (by omega),
            ih cs g (by omega) (by omega)]

theorem isBlank_not_letter {c : Char} (h : isBlank c = true) : isLetter c = false := by
  simp only [isBlank, Bool.or_eq_true, beq_iff_eq] at h
  rcases h with h | h <;> subst h <;> decide

theorem isBlank_not_digit {c : Char} (h : isBlank c = true) : isDigit c = false := by
  simp only [isBlank, Bool.or_eq_true, beq_iff_eq] at h
  rcases h with h | h <;> subst h <;> decide

/-- One iteration of the outer loop of `tokenize`, by the first character. -/
theorem tokenize_cons (c : Char) (cs : List Char) :
    tokenize ⟨c :: cs⟩ =
      if isBlank c then tokenize ⟨cs⟩
      else if isLetter c then
        (tokenize ⟨cs.dropWhile isLetterOrDigit⟩).cons
          ⟨"var", String.mk (c :: cs.takeWhile isLetterOrDigit)⟩
      else if isDigit c then
        (tokenize ⟨cs.dropWhile isDigit⟩).cons
          ⟨"const", String.mk (c :: cs.takeWhile isDigit)⟩
      else
        match operatorToken c with
        | .ok t => (tokenize ⟨cs⟩).cons t
        | .error e => .panic e := by
  simp only [tokenize, List.length_cons, tokenizeLoop]
  have h1 := length_dropWhile_le isLetterOrDigit cs
  have h2 := length_dropWhile_le isDigit cs
  by_cases hb : isBlank c = true
  · rw [if_pos hb, List.dropWhile_cons_of_pos hb]
    cases cs with
    | nil => rfl
    | cons c1 cs1 =>
      simp only [List.length_cons, tokenizeLoop]
      have hd := length_dropWhile_le isBlank (c1 :: cs1)
      cases hdw : (c1 :: cs1).dropWhile isBlank with
      | nil => rfl
      | cons d ds =>
        rw [hdw] at hd
        simp only [List.length_cons, Nat.add_le_add_iff_right] at hd
        have h3 := length_dropWhile_le isLetterOrDigit ds
        have h4 := length_dropWhile_le isDigit ds
        simp only []
        rw [tokenizeLoop_fuel (cs1.length + 1) (ds.dropWhile isLetterOrDigit) cs1.length
            (by omega) (by omega),
          tokenizeLoop_fuel (cs1.length + 1) (ds.dropWhile isDigit) cs1.length
            (by omega) (by omega),
          tokenizeLoop_fuel (cs1.length + 1) ds cs1.length (by omega) (by omega)]
  · rw [if_neg hb, List.dropWhile_cons_of_neg hb]
    simp only []
    rw [tokenizeLoop_fuel cs.length (cs.dropWhile isLetterOrDigit) _ h1 (Nat.le_refl _),
      tokenizeLoop_fuel cs.length (cs.dropWhile isDigit) _ h2 (Nat.le_refl _)]

theorem tokenize_nil : tokenize ⟨[]⟩ = .ok [] := rfl

theorem char_le_iff (a b : Char) : a ≤ b ↔ a.toNat ≤ b.toNat := by
  show a.val ≤ b.val ↔ _
  rw [UInt32.le_def]
  rfl

theorem isDigit_iff (c : Char) : isDigit c = true ↔ 48 ≤ c.toNat ∧ c.toNat ≤ 57 := by
  simp only [isDigit, Bool.and_eq_true, decide_eq_true_eq, char_le_iff]
  rfl

theorem isLetter_iff (c : Char) :
    isLetter c = true ↔ (97 ≤ c.toNat ∧ c.toNat ≤ 122) ∨ (65 ≤ c.toNat ∧ c.toNat ≤ 90) := by
  simp only [isLetter, isLowerCase, isUpperCase, Bool.or_eq_true, Bool.and_eq_true,
    decide_eq_true_eq, char_le_iff]
  rfl

theorem isDigit_not_letter {c : Char} (h : isDigit c = true) : isLetter c = false := by
  rw [isDigit_iff] at h
  cases hl : isLetter c with
  | false => rfl
  | true =>
    rw [isLetter_iff] at hl
    omega

theorem isDigit_not_blank {c : Char} (h : isDigit c = true) : isBlank c = false := by
  cases hb : isBlank c with
  | false => rfl
  | true => rw [isBlank_not_digit hb] at h; cases h

theorem isLetter_not_blank {c : Char} (h : isLetter c = true) : isBlank c = false := by
  cases hb : isBlank c with
  | false => rfl
  | true => rw [isBlank_not_letter hb] at h; cases h

theorem takeWhile_run (f : Char → Bool) (run rest : List Char)
    (hrun : run.all f = true) (hrest : ∀ c ∈ rest.head?, f c = false) :
    (run ++ rest).takeWhile f = run := by
  rw [List.takeWhile_append_of_pos (by simpa using hrun)]
  cases rest with
  | nil => simp
  | cons r rs =>
    have : f r = false := hrest r (by simp)
    simp [List.takeWhile_cons, this]

theorem dropWhile_run (f : Char → Bool) (run rest : List Char)
    (hrun : run.all f = true) (hrest : ∀ c ∈ rest.head?, f c = false) :
    (run ++ rest).dropWhile f = rest := by
  rw [List.dropWhile_append_of_pos (by simpa using hrun)]
  cases rest with
  | nil => simp
  | cons r rs =>
    have : f r = false := hrest r (by simp)
    simp [List.dropWhile_cons, this]

/-- A maximal run of digits becomes one `const` token holding the run. -/
theorem tokenize_constant (d : String) (rest : List Char)
    (hd : isConstantText d = true) (hrest : ∀ c ∈ rest.head?, isDigit c = false) :
    tokenize ⟨d.data ++ rest⟩ = (tokenize ⟨rest⟩).cons ⟨"const", d⟩ := by
  obtain ⟨ds⟩ := d
  cases ds with
  | nil => simp [isConstantText] at hd
  | cons c cs =>
    simp only [isConstantText, Bool.and_eq_true] at hd
    simp only [List.cons_append]
    rw [tokenize_cons, if_neg (by simp [isDigit_not_blank hd.1]),
      if_neg (by simp [isDigit_not_letter hd.1]), if_pos hd.1,
      takeWhile_run isDigit cs rest hd.2 hrest, dropWhile_run isDigit cs rest hd.2 hrest]

/-- A maximal run of letters and digits that starts with a letter becomes one
`var` token holding the run. -/
theorem tokenize_variable (w : String) (rest : List Char)
    (hw : isVariableText w = true) (hrest : ∀ c ∈ rest.head?, isLetterOrDigit c = false) :
    tokenize ⟨w.data ++ rest⟩ = (tokenize ⟨rest⟩).cons ⟨"var", w⟩ := by
  obtain ⟨ws⟩ := w
  cases ws with
  | nil => simp [isVariableText] at hw
  | cons c cs =>
    simp only [isVariableText, Bool.and_eq_true] at hw
    simp only [List.cons_append]
    rw [tokenize_cons, if_neg (by simp [isLetter_not_blank hw.1]), if_pos hw.1,
      takeWhile_run isLetterOrDigit cs rest hw.2 hrest,
      dropWhile_run isLetterOrDigit cs rest hw.2 hrest]

/-- An operator character becomes the operator token of that kind. -/
theorem tokenize_operator (c : Char) (t : Token) (rest : List Char)
    (ht : operatorToken c = .ok t) (hb : isBlank c = false) (hl : isLetter c = false)
    (hd : isDigit c = false) :
    tokenize ⟨c :: rest⟩ = (tokenize ⟨rest⟩).cons t := by
  rw [tokenize_cons, if_neg (by simp [hb]), if_neg (by simp [hl]), if_neg (by simp [hd]), ht]

theorem Atoi_constant (d : String) (hd : isConstantText d = true)
    (hfit : fitsInt d = true) : Atoi d = .ok (decimalValue d.data : Int) := by
  obtain ⟨ds⟩ := d
  cases ds with
  | nil => simp [isConstantText] at hd
  | cons c cs =>
    simp only [isConstantText, Bool.and_eq_true] at hd
    have hc1 : c ≠ '-' := by
      intro h; subst h; exact absurd hd.1 (by decide)
    have hc2 : c ≠ '+' := by
      intro h; subst h; exact absurd hd.1 (by decide)
    have hall : (c :: cs).all isDigit = true := by
      simp only [List.all_cons, Bool.and_eq_true]; exact hd
    have hlt : decimalValue (c :: cs) < 2 ^ (intSize - 1) := by
      simp only [fitsInt, maxInt, decide_eq_true_eq] at hfit
      have : 0 < 2 ^ (intSize - 1) := Nat.pow_pos (by decide)
      omega
    simp only [Atoi, if_neg hc1, if_neg hc2, hall, if_true, if_pos hlt]
    simp

theorem Atoi_overflow (d : String) (hd : isConstantText d = true)
    (hfit : fitsInt d = false) : Atoi d = .error .errRange := by
  obtain ⟨ds⟩ := d
  cases ds with
  | nil => simp [isConstantText] at hd
  | cons c cs =>
    simp only [isConstantText, Bool.and_eq_true] at hd
    have hc1 : c ≠ '-' := by
      intro h; subst h; exact absurd hd.1 (by decide)
    have hc2 : c ≠ '+' := by
      intro h; subst h; exact absurd hd.1 (by decide)
    have hall : (c :: cs).all isDigit = true := by
      simp only [List.all_cons, Bool.and_eq_true]; exact hd
    have hlt : ¬ decimalValue (c :: cs) < 2 ^ (intSize - 1) := by
      simp only [fitsInt, maxInt, decide_eq_false_iff_not] at hfit
      omega
    simp only [Atoi, if_neg hc1, if_neg hc2, hall, if_true, if_neg hlt]
    simp

theorem Atoi_literal (d : String) (hd : isIntLiteral d = true) :
    Atoi d = .ok (constantValue d) := by
  simp only [isIntLiteral, Bool.and_eq_true] at hd
  exact Atoi_constant d hd.1 hd.2

theorem tokenize_data (s : String) (l : List Char) (h : s.data = l) :
    tokenize s = tokenize ⟨l⟩ := by
  subst h; rfl

theorem tokenize_literal_then (d : String) (c : Char) (rest : List Char)
    (hd : isIntLiteral d = true) (hc : isDigit c = false) :
    tokenize ⟨d.data ++ c :: rest⟩ = (tokenize ⟨c :: rest⟩).cons ⟨"const", d⟩ := by
  simp only [isIntLiteral, Bool.and_eq_true] at hd
  exact tokenize_constant d (c :: rest) hd.1 (by simpa using hc)

theorem tokenize_literal_end (d : String) (hd : isIntLiteral d = true) :
    tokenize ⟨d.data⟩ = .ok [⟨"const", d⟩] := by
  simp only [isIntLiteral, Bool.and_eq_true] at hd
  have h := tokenize_constant d [] hd.1 (by simp)
  rw [List.append_nil] at h
  rw [h]; rfl

@[simp] theorem Env.set_same (m : Env) (k : String) (v : Int) : (m.set k v) k = some v := by
  simp [Env.set]

theorem Env.set_other (m : Env) (k x : String) (v : Int) (h : x ≠ k) :
    (m.set k v) x = m x := by
  simp [Env.set, h]

/-- A session of one line whose tokens parse: the line is echoed, the value of
the last assigned variable is printed, and the map is the parser's. -/
theorem calcLoop_single (vars : Env) (line : String) (tokens : List Token) (name : String)
    (q : Parser) (htok : tokenize line = .ok tokens)
    (hp : parseAll (4 * tokens.length + 4) ⟨tokens, 0, vars⟩ = .ok name q) :
    calcLoop vars [line] =
      { out := [.text line, .value ((q.vars name).getD 0)], vars := q.vars,
        status := .finished } := by
  simp [calcLoop, htok, Parser.Parse, Parser.fuel, NewParser, hp, Res.bind, Session.after]

/-! ## Precedence, parentheses and unary NOT (C1 to C4) -/

/-- C1: for constants `x`, `y`, `z`, `w` that fit the integer width, processing
the single line `a=x|y^z&w` in any Environment succeeds, reports and assigns to
`a` the value `x OR (y XOR (z AND w))`. -/
theorem or_xor_and_precedence (vars : Env) (x y z w : String)
    (hx : isIntLiteral x = true) (hy : isIntLiteral y = true)
    (hz : isIntLiteral z = true) (hw : isIntLiteral w = true) :
    calcLoop vars ["a=" ++ x ++ "|" ++ y ++ "^" ++ z ++ "&" ++ w] =
      { out := [.text ("a=" ++ x ++ "|" ++ y ++ "^" ++ z ++ "&" ++ w),
          .value (Int.lor (constantValue x)
            (Int.xor (constantValue y) (Int.land (constantValue z) (constantValue w))))],
        vars := vars.set "a" (Int.lor (constantValue x)
            (Int.xor (constantValue y) (Int.land (constantValue z) (constantValue w)))),
        status := .finished } := by
  have htok : tokenize ("a=" ++ x ++ "|" ++ y ++ "^" ++ z ++ "&" ++ w) =
      .ok [⟨"var", "a"⟩, ⟨"=", "="⟩, ⟨"const", x⟩, ⟨"|", "|"⟩, ⟨"const", y⟩,
        ⟨"^", "^"⟩, ⟨"const", z⟩, ⟨"&", "&"⟩, ⟨"const", w⟩] := by
    rw [tokenize_data _
      ('a' :: '=' :: (x.data ++ '|' :: (y.data ++ '^' :: (z.data ++ '&' :: w.data))))
      (by simp [String.data_append])]
    simp +decide [tokenize_cons, tokenize_literal_then x '|' _ hx (by decide),
      tokenize_literal_then y '^' _ hy (by decide),
      tokenize_literal_then z '&' _ hz (by decide),
      tokenize_literal_end w hw, TokRes.cons, operatorToken]
  have hp : parseAll 40 ⟨[⟨"var", "a"⟩, ⟨"=", "="⟩, ⟨"const", x⟩, ⟨"|", "|"⟩, ⟨"const", y⟩,
        ⟨"^", "^"⟩, ⟨"const", z⟩, ⟨"&", "&"⟩, ⟨"const", w⟩], 0, vars⟩ =
      .ok "a" ⟨[⟨"var", "a"⟩, ⟨"=", "="⟩, ⟨"const", x⟩, ⟨"|", "|"⟩, ⟨"const", y⟩,
        ⟨"^", "^"⟩, ⟨"const", z⟩, ⟨"&", "&"⟩, ⟨"const", w⟩], 9,
        vars.set "a" (Int.lor (constantValue x)
            (Int.xor (constantValue y) (Int.land (constantValue z) (constantValue w))))⟩ := by
    simp [parseAll, parseAssignment, Parser.expect, Res.bind, parseExpression, parseTerm,
      parseFactor, parseUnary, factorLoop, termLoop, expressionLoop, parseLoop, Parser.atKind,
      Parser.advance, Parser.lastValue, Atoi_literal x hx, Atoi_literal y hy, Atoi_literal z hz,
      Atoi_literal w hw]
  have h := calcLoop_single vars _ _ _ _ htok hp
  simpa using h

theorem or_xor_and_precedence_witness :
    calcLoop Env.empty ["a=1|2^3&4"] =
      { out := [.text "a=1|2^3&4", .value 3], vars := Env.empty.set "a" 3,
        status := .finished } :=
  or_xor_and_precedence Env.empty "1" "2" "3" "4" (by decide) (by decide) (by decide) (by decide)

/-- C2: for constants `x`, `y`, `z` that fit the integer width, processing the
single line `a=x|y&z` succeeds, reports and assigns to `a` the value
`x OR (y AND z)`: AND is evaluated before OR. -/
theorem and_before_or (vars : Env) (x y z : String)
    (hx : isIntLiteral x = true) (hy : isIntLiteral y = true) (hz : isIntLiteral z = true) :
    calcLoop vars ["a=" ++ x ++ "|" ++ y ++ "&" ++ z] =
      { out := [.text ("a=" ++ x ++ "|" ++ y ++ "&" ++ z),
          .value (Int.lor (constantValue x) (Int.land (constantValue y) (constantValue z)))],
        vars := vars.set "a"
          (Int.lor (constantValue x) (Int.land (constantValue y) (constantValue z))),
        status := .finished } := by
  have htok : tokenize ("a=" ++ x ++ "|" ++ y ++ "&" ++ z) =
      .ok [⟨"var", "a"⟩, ⟨"=", "="⟩, ⟨"const", x⟩, ⟨"|", "|"⟩, ⟨"const", y⟩,
        ⟨"&", "&"⟩, ⟨"const", z⟩] := by
    rw [tokenize_data _ ('a' :: '=' :: (x.data ++ '|' :: (y.data ++ '&' :: z.data)))
      (by simp [String.data_append])]
    simp +decide [tokenize_cons, tokenize_literal_then x '|' _ hx (by decide),
      tokenize_literal_then y '&' _ hy (by decide),
      tokenize_literal_end z hz, TokRes.cons, operatorToken]
  have hp : parseAll 32 ⟨[⟨"var", "a"⟩, ⟨"=", "="⟩, ⟨"const", x⟩, ⟨"|", "|"⟩, ⟨"const", y⟩,
        ⟨"&", "&"⟩, ⟨"const", z⟩], 0, vars⟩ =
      .ok "a" ⟨[⟨"var", "a"⟩, ⟨"=", "="⟩, ⟨"const", x⟩, ⟨"|", "|"⟩, ⟨"const", y⟩,
        ⟨"&", "&"⟩, ⟨"const", z⟩], 7,
        vars.set "a"
          (Int.lor (constantValue x) (Int.land (constantValue y) (constantValue z)))⟩ := by
    simp [parseAll, parseAssignment, Parser.expect, Res.bind, parseExpression, parseTerm,
      parseFactor, parseUnary, factorLoop, termLoop, expressionLoop, parseLoop, Parser.atKind,
      Parser.advance, Parser.lastValue, Atoi_literal x hx, Atoi_literal y hy, Atoi_literal z hz]
  have h := calcLoop_single vars _ _ _ _ htok hp
  simpa using h

theorem and_before_or_witness :
    calcLoop Env.empty ["a=1|2&3"] =
      { out := [.text "a=1|2&3", .value 3], vars := Env.empty.set "a" 3,
        status := .finished } :=
  and_before_or Env.empty "1" "2" "3" (by decide) (by decide) (by decide)

/-- C3: for constants `x`, `y`, `z` that fit the integer width, processing the
single line `a=(x|y)&z` succeeds, reports and assigns to `a` the value
`(x OR y) AND z`: the parenthesised sub-expression is evaluated as a unit before
the surrounding AND is applied. -/
theorem parentheses_override (vars : Env) (x y z : String)
    (hx : isIntLiteral x = true) (hy : isIntLiteral y = true) (hz : isIntLiteral z = true) :
    calcLoop vars ["a=(" ++ x ++ "|" ++ y ++ ")&" ++ z] =
      { out := [.text ("a=(" ++ x ++ "|" ++ y ++ ")&" ++ z),
          .value (Int.land (Int.lor (constantValue x) (constantValue y)) (constantValue z))],
        vars := vars.set "a"
          (Int.land (Int.lor (constantValue x) (constantValue y)) (constantValue z)),
        status := .finished } := by
  have htok : tokenize ("a=(" ++ x ++ "|" ++ y ++ ")&" ++ z) =
      .ok [⟨"var", "a"⟩, ⟨"=", "="⟩, ⟨"(", "("⟩, ⟨"const", x⟩, ⟨"|", "|"⟩, ⟨"const", y⟩,
        ⟨")", ")"⟩, ⟨"&", "&"⟩, ⟨"const", z⟩] := by
    rw [tokenize_data _
      ('a' :: '=' :: '(' :: (x.data ++ '|' :: (y.data ++ ')' :: '&' :: z.data)))
      (by simp [String.data_append])]
    simp +decide [tokenize_cons, tokenize_literal_then x '|' _ hx (by decide),
      tokenize_literal_then y ')' _ hy (by decide),
      tokenize_literal_end z hz, TokRes.cons, operatorToken]
  have hp : parseAll 40 ⟨[⟨"var", "a"⟩, ⟨"=", "="⟩, ⟨"(", "("⟩, ⟨"const", x⟩, ⟨"|", "|"⟩,
        ⟨"const", y⟩, ⟨")", ")"⟩, ⟨"&", "&"⟩, ⟨"const", z⟩], 0, vars⟩ =
      .ok "a" ⟨[⟨"var", "a"⟩, ⟨"=", "="⟩, ⟨"(", "("⟩, ⟨"const", x⟩, ⟨"|", "|"⟩,
        ⟨"const", y⟩, ⟨")", ")"⟩, ⟨"&", "&"⟩, ⟨"const", z⟩], 9,
        vars.set "a"
          (Int.land (Int.lor (constantValue x) (constantValue y)) (constantValue z))⟩ := by
    simp [parseAll, parseAssignment, Parser.expect, Res.bind, parseExpression, parseTerm,
      parseFactor, parseUnary, factorLoop, termLoop, expressionLoop, parseLoop, Parser.atKind,
      Parser.advance, Parser.lastValue, Atoi_literal x hx, Atoi_literal y hy, Atoi_literal z hz]
  have h := calcLoop_single vars _ _ _ _ htok hp
  simpa using h

theorem parentheses_override_witness :
    calcLoop Env.empty ["a=(1|2)&3"] =
      { out := [.text "a=(1|2)&3", .value 3], vars := Env.empty.set "a" 3,
        status := .finished } :=
  parentheses_override Env.empty "1" "2" "3" (by decide) (by decide) (by decide)

/-! ### Chains of `~` -/

theorem atKind_of_get (p : Parser) (t : Token) (kind : String)
    (h : p.tokens[p.pos]? = some t) : p.atKind kind = (t.Kind == kind) := by
  simp [Parser.atKind, h]

theorem atKind_at_end (p : Parser) (kind : String) (h : p.tokens.length ≤ p.pos) :
    p.atKind kind = false := by
  simp [Parser.atKind, List.getElem?_eq_none h]

/-- A constant operand: `parseUnary` reads it with `strconv.Atoi`. -/
theorem parseUnary_const (fuel : Nat) (p : Parser) (d : String) (v : Int)
    (h : p.tokens[p.pos]? = some ⟨"const", d⟩) (hv : Atoi d = .ok v) :
    parseUnary (fuel + 1) p = .ok v p.advance := by
  simp +decide [parseUnary, atKind_of_get p _ _ h, Parser.lastValue, Parser.advance, h, hv]

/-- An expression that is a single unary operand followed by no operator. -/
theorem parseExpression_of_unary (fuel : Nat) (p q : Parser) (v : Int)
    (hu : parseUnary (fuel + 1) p = .ok v q) (h1 : q.atKind "&" = false)
    (h2 : q.atKind "^" = false) (h3 : q.atKind "|" = false) :
    parseExpression (fuel + 4) p = .ok v q := by
  simp [parseExpression, parseTerm, parseFactor, hu, Res.bind, factorLoop, termLoop,
    expressionLoop, h1, h2, h3]

/-- A token sequence that is one assignment: `Parse` stores the value of the
expression and leaves the loop at once. -/
theorem parseAll_one (fuel : Nat) (toks : List Token) (vars : Env) (name : String)
    (rest : List Token) (v : Int) (q : Parser)
    (htoks : toks = ⟨"var", name⟩ :: ⟨"=", "="⟩ :: rest)
    (he : parseExpression (fuel + 1) ⟨toks, 2, vars⟩ = .ok v q)
    (hend : q.tokens.length ≤ q.pos) :
    parseAll (fuel + 1) ⟨toks, 0, vars⟩ = .ok name { q with vars := q.vars.set name v } := by
  subst htoks
  have hlt : ¬ q.pos < q.tokens.length := Nat.not_lt.mpr hend
  simp +decide [parseAll, parseAssignment, Parser.expect, Parser.advance, Res.bind, he,
    parseLoop, hlt]

theorem parseUnary_nots (toks : List Token) (vars : Env) (c : String) (v : Int)
    (hv : Atoi c = .ok v) : ∀ (n pos fuel : Nat),
    (∀ i, i < n → toks[pos + i]? = some ⟨"~", "~"⟩) →
    toks[pos + n]? = some ⟨"const", c⟩ →
    parseUnary (fuel + n + 1) ⟨toks, pos, vars⟩ = .ok (Int.not^[n] v) ⟨toks, pos + n + 1, vars⟩ := by
  intro n
  induction n with
  | zero =>
    intro pos fuel _ hc
    exact parseUnary_const fuel ⟨toks, pos, vars⟩ c v hc hv
  | succ n ih =>
    intro pos fuel hn hc
    have h0 : toks[pos]? = some ⟨"~", "~"⟩ := hn 0 (Nat.succ_pos n)
    have ih1 := ih (pos + 1) fuel
      (fun i hi => by have := hn (i + 1) (Nat.succ_lt_succ hi); rwa [Nat.add_assoc, Nat.add_comm 1 i])
      (by rwa [Nat.add_assoc, Nat.add_comm 1 n])
    rw [show fuel + (n + 1) + 1 = (fuel + n + 1) + 1 by omega]
    rw [parseUnary]
    rw [atKind_of_get ⟨toks, pos, vars⟩ ⟨"~", "~"⟩ "~" h0]
    simp only [beq_self_eq_true, if_true, Parser.advance, ih1, Res.bind]
    rw [Function.iterate_succ_apply']
    rw [show pos + 1 + n + 1 = pos + (n + 1) + 1 by omega]

theorem Int.not_iterate (v : Int) (n : Nat) :
    Int.not^[n] v = if n % 2 = 0 then v else -v - 1 := by
  induction n with
  | zero => rfl
  | succ n ih =>
    rw [Function.iterate_succ_apply', ih]
    have hnot : ∀ w : Int, Int.not w = -w - 1 := by
      intro w
      cases w with
      | ofNat k => simp only [Int.not, Int.negSucc_eq, Int.ofNat_eq_coe]; omega
      | negSucc k => simp only [Int.not, Int.negSucc_eq, Int.ofNat_eq_coe]; omega
    rcases Nat.mod_two_eq_zero_or_one n with h | h
    · have h2 : (n + 1) % 2 = 1 := by omega
      simp [h, h2, hnot]
    · have h2 : (n + 1) % 2 = 0 := by omega
      simp [h, h2, hnot]

theorem tokenize_nots (c : String) (hc : isIntLiteral c = true) (n : Nat) :
    tokenize ⟨List.replicate n '~' ++ c.data⟩ =
      .ok (List.replicate n ⟨"~", "~"⟩ ++ [⟨"const", c⟩]) := by
  induction n with
  | zero => simpa using tokenize_literal_end c hc
  | succ n ih =>
    rw [List.replicate_succ, List.cons_append,
      tokenize_operator '~' ⟨"~", "~"⟩ _ rfl (by decide) (by decide) (by decide), ih]
    rfl

/-- C4: for every `n` and every constant `c` that fits the integer width, the
line made of `a=`, then `n` characters `~`, then `c` is processed successfully
and reports and assigns to `a` the value `c` when `n` is even and `-c-1` (the
bitwise complement of `c`) when `n` is odd. -/
theorem not_chain (vars : Env) (n : Nat) (c : String) (hc : isIntLiteral c = true) :
    calcLoop vars ["a=" ++ String.mk (List.replicate n '~') ++ c] =
      { out := [.text ("a=" ++ String.mk (List.replicate n '~') ++ c),
          .value (if n % 2 = 0 then constantValue c else -constantValue c - 1)],
        vars := vars.set "a" (if n % 2 = 0 then constantValue c else -constantValue c - 1),
        status := .finished } := by
  have htok : tokenize ("a=" ++ String.mk (List.replicate n '~') ++ c) =
      .ok (⟨"var", "a"⟩ :: ⟨"=", "="⟩ :: (List.replicate n ⟨"~", "~"⟩ ++ [⟨"const", c⟩])) := by
    rw [tokenize_data _ ('a' :: '=' :: (List.replicate n '~' ++ c.data))
      (by simp [String.data_append])]
    simp +decide [tokenize_cons, tokenize_nots c hc n, TokRes.cons, operatorToken]
  have hu := parseUnary_nots
    (⟨"var", "a"⟩ :: ⟨"=", "="⟩ :: (List.replicate n ⟨"~", "~"⟩ ++ [⟨"const", c⟩])) vars c
    (constantValue c) (Atoi_literal c hc) n 2 (3 * n + 12)
    (fun i hi => by
      rw [Nat.add_comm 2 i]
      simp [List.getElem?_append, hi])
    (by
      rw [Nat.add_comm 2 n]
      simp [List.getElem?_append])
  have hlen : (⟨"var", "a"⟩ :: ⟨"=", "="⟩ ::
      (List.replicate n (⟨"~", "~"⟩ : Token) ++ [⟨"const", c⟩])).length = 2 + n + 1 := by
    simp; omega
  have he := parseExpression_of_unary (3 * n + 12 + n) _ _ _ hu
    (atKind_at_end _ _ (Nat.le_of_eq hlen)) (atKind_at_end _ _ (Nat.le_of_eq hlen))
    (atKind_at_end _ _ (Nat.le_of_eq hlen))
  have hp := parseAll_one (3 * n + 12 + n + 3) _ vars "a" _ _ _ rfl he (Nat.le_of_eq hlen)
  have hfuel : 4 * (⟨"var", "a"⟩ :: ⟨"=", "="⟩ ::
      (List.replicate n (⟨"~", "~"⟩ : Token) ++ [⟨"const", c⟩])).length + 4
      = 3 * n + 12 + n + 3 + 1 := by
    rw [hlen]; omega
  rw [← hfuel] at hp
  have h := calcLoop_single vars _ _ _ _ htok hp
  simpa [Int.not_iterate] using h

theorem not_chain_witness :
    calcLoop Env.empty ["a=~~5"] =
      { out := [.text "a=~~5", .value 5], vars := Env.empty.set "a" 5,
        status := .finished } :=
  not_chain Env.empty 2 "5" (by decide)

/-! ## Sessions of several lines (C5) -/

/-- A line that is not the last one and whose tokens parse: the line is echoed,
nothing else is printed, and the session goes on with the parser's map. -/
theorem calcLoop_cons (vars : Env) (line next : String) (rest : List String)
    (tokens : List Token) (name : String) (q : Parser) (htok : tokenize line = .ok tokens)
    (hp : parseAll (4 * tokens.length + 4) ⟨tokens, 0, vars⟩ = .ok name q) :
    calcLoop vars (line :: next :: rest) = (calcLoop q.vars (next :: rest)).after [.text line] := by
  rw [calcLoop]
  simp [htok, Parser.Parse, Parser.fuel, NewParser, hp, Res.bind]

theorem tokenize_variable_then (w : String) (c : Char) (rest : List Char)
    (hw : isVariableText w = true) (hc : isLetterOrDigit c = false) :
    tokenize ⟨w.data ++ c :: rest⟩ = (tokenize ⟨c :: rest⟩).cons ⟨"var", w⟩ :=
  tokenize_variable w (c :: rest) hw (by simpa using hc)

/-- C5: variables persist across the lines of a session.  For distinct variable
names `a`, `b` and constants `x`, `y` that fit the integer width, the session
`a=x`, `b=a&y` started from the empty Environment ends normally, reports
`x AND y`, and leaves `a` bound to `x` and `b` bound to `x AND y`. -/
theorem variable_chaining (a b x y : String) (ha : isVariableText a = true)
    (hb : isVariableText b = true) (hab : a ≠ b) (hx : isIntLiteral x = true)
    (hy : isIntLiteral y = true) :
    CalcAllAndPrint [a ++ "=" ++ x, b ++ "=" ++ a ++ "&" ++ y] =
      { out := [.text "The read expressions are:", .text (a ++ "=" ++ x),
          .text (b ++ "=" ++ a ++ "&" ++ y),
          .value (Int.land (constantValue x) (constantValue y))],
        vars := (Env.empty.set a (constantValue x)).set b
          (Int.land (constantValue x) (constantValue y)),
        status := .finished } ∧
    (CalcAllAndPrint [a ++ "=" ++ x, b ++ "=" ++ a ++ "&" ++ y]).vars a =
      some (constantValue x) ∧
    (CalcAllAndPrint [a ++ "=" ++ x, b ++ "=" ++ a ++ "&" ++ y]).vars b =
      some (Int.land (constantValue x) (constantValue y)) := by
  have htok1 : tokenize (a ++ "=" ++ x) = .ok [⟨"var", a⟩, ⟨"=", "="⟩, ⟨"const", x⟩] := by
    rw [tokenize_data _ (a.data ++ '=' :: x.data) (by simp [String.data_append])]
    rw [tokenize_variable_then a '=' _ ha (by decide)]
    simp +decide [tokenize_cons, tokenize_literal_end x hx, TokRes.cons, operatorToken]
  have htok2 : tokenize (b ++ "=" ++ a ++ "&" ++ y) =
      .ok [⟨"var", b⟩, ⟨"=", "="⟩, ⟨"var", a⟩, ⟨"&", "&"⟩, ⟨"const", y⟩] := by
    rw [tokenize_data _ (b.data ++ '=' :: (a.data ++ '&' :: y.data))
      (by simp [String.data_append])]
    rw [tokenize_variable_then b '=' _ hb (by decide)]
    simp +decide [tokenize_cons, tokenize_variable_then a '&' _ ha (by decide),
      tokenize_literal_end y hy, TokRes.cons, operatorToken]
  have hp1 : parseAll 16 ⟨[⟨"var", a⟩, ⟨"=", "="⟩, ⟨"const", x⟩], 0, Env.empty⟩ =
      .ok a ⟨[⟨"var", a⟩, ⟨"=", "="⟩, ⟨"const", x⟩], 3, Env.empty.set a (constantValue x)⟩ := by
    simp [parseAll, parseAssignment, Parser.expect, Res.bind, parseExpression, parseTerm,
      parseFactor, parseUnary, factorLoop, termLoop, expressionLoop, parseLoop, Parser.atKind,
      Parser.advance, Parser.lastValue, Atoi_literal x hx]
  have hp2 : parseAll 24 ⟨[⟨"var", b⟩, ⟨"=", "="⟩, ⟨"var", a⟩, ⟨"&", "&"⟩, ⟨"const", y⟩], 0,
        Env.empty.set a (constantValue x)⟩ =
      .ok b ⟨[⟨"var", b⟩, ⟨"=", "="⟩, ⟨"var", a⟩, ⟨"&", "&"⟩, ⟨"const", y⟩], 5,
        (Env.empty.set a (constantValue x)).set b
          (Int.land (constantValue x) (constantValue y))⟩ := by
    simp [parseAll, parseAssignment, Parser.expect, Res.bind, parseExpression, parseTerm,
      parseFactor, parseUnary, factorLoop, termLoop, expressionLoop, parseLoop, Parser.atKind,
      Parser.advance, Parser.lastValue, Atoi_literal y hy]
  have h1 := calcLoop_cons Env.empty _ (b ++ "=" ++ a ++ "&" ++ y) [] _ _ _ htok1 hp1
  have h2 := calcLoop_single (Env.empty.set a (constantValue x)) _ _ _ _ htok2 hp2
  have hall : CalcAllAndPrint [a ++ "=" ++ x, b ++ "=" ++ a ++ "&" ++ y] =
      { out := [.text "The read expressions are:", .text (a ++ "=" ++ x),
          .text (b ++ "=" ++ a ++ "&" ++ y),
          .value (Int.land (constantValue x) (constantValue y))],
        vars := (Env.empty.set a (constantValue x)).set b
          (Int.land (constantValue x) (constantValue y)),
        status := .finished } := by
    rw [CalcAllAndPrint, h1, h2]
    simp [Session.after]
  rw [hall]
  refine ⟨rfl, ?_, ?_⟩
  · simp [Env.set, hab]
  · simp

theorem variable_chaining_witness :
    (CalcAllAndPrint ["a=5", "b=a&3"]).out =
      [.text "The read expressions are:", .text "a=5", .text "b=a&3", .value 1] ∧
    (CalcAllAndPrint ["a=5", "b=a&3"]).vars "a" = some 5 ∧
    (CalcAllAndPrint ["a=5", "b=a&3"]).vars "b" = some 1 :=
  have h := variable_chaining "a" "b" "5" "3" (by decide) (by decide) (by decide) (by decide)
    (by decide)
  ⟨congrArg Session.out h.1, h.2.1, h.2.2⟩

/-! ## The expression parser does not touch the Environment -/

theorem Frames_ok {α : Type} (a : α) (p q : Parser) (h1 : q.tokens = p.tokens)
    (h2 : q.vars = p.vars) (h3 : p.pos ≤ q.pos) : (Res.ok a q).Frames p := by
  intro q1 hq
  simp only [Res.state, Option.some.injEq] at hq
  subst hq
  exact ⟨h1, h2, h3⟩

theorem Frames_panic {α : Type} (e : Panic) (p q : Parser) (h1 : q.tokens = p.tokens)
    (h2 : q.vars = p.vars) (h3 : p.pos ≤ q.pos) : (Res.panic e q : Res α).Frames p := by
  intro q1 hq
  simp only [Res.state, Option.some.injEq] at hq
  subst hq
  exact ⟨h1, h2, h3⟩

theorem Frames_timeout {α : Type} (p : Parser) : (Res.timeout : Res α).Frames p := by
  intro q hq
  simp [Res.state] at hq

theorem Frames_bind {α β : Type} (r : Res α) (f : α → Parser → Res β) (p : Parser)
    (hr : r.Frames p) (hf : ∀ a q, (f a q).Frames q) : (r.bind f).Frames p := by
  cases r with
  | ok a q =>
    obtain ⟨h1, h2, h3⟩ := hr q rfl
    intro q1 hq1
    obtain ⟨g1, g2, g3⟩ := hf a q q1 hq1
    exact ⟨g1.trans h1, g2.trans h2, Nat.le_trans h3 g3⟩
  | panic e q =>
    obtain ⟨h1, h2, h3⟩ := hr q rfl
    exact Frames_panic e p q h1 h2 h3
  | timeout => exact Frames_timeout p

theorem Frames_advance {α : Type} (r : Res α) (p : Parser) (h : r.Frames p.advance) :
    r.Frames p := by
  intro q hq
  obtain ⟨h1, h2, h3⟩ := h q hq
  exact ⟨h1, h2, Nat.le_trans (Nat.le_succ _) h3⟩

theorem Frames_expect (p : Parser) (kind : String) : (p.expect kind).Frames p := by
  unfold Parser.expect
  split
  · split
    · exact Frames_ok _ _ _ rfl rfl (Nat.le_succ _)
    · exact Frames_panic _ _ _ rfl rfl (Nat.le_refl _)
  · exact Frames_panic _ _ _ rfl rfl (Nat.le_refl _)

/-- Every procedure of the expression grammar leaves the tokens and the
Environment as they were, whether it returns or panics. -/
theorem parse_frames : ∀ fuel : Nat,
    (∀ p, (parseUnary fuel p).Frames p) ∧
    (∀ v p, (factorLoop fuel v p).Frames p) ∧
    (∀ p, (parseFactor fuel p).Frames p) ∧
    (∀ v p, (termLoop fuel v p).Frames p) ∧
    (∀ p, (parseTerm fuel p).Frames p) ∧
    (∀ v p, (expressionLoop fuel v p).Frames p) ∧
    (∀ p, (parseExpression fuel p).Frames p) := by
  intro fuel
  induction fuel with
  | zero =>
    refine ⟨?_, ?_, ?_, ?_, ?_, ?_, ?_⟩ <;> intros <;>
      simp only [parseUnary, factorLoop, parseFactor, termLoop, parseTerm, expressionLoop,
        parseExpression] <;> exact Frames_timeout _
  | succ n ih =>
    obtain ⟨iU, iFL, iF, iTL, iT, iEL, iE⟩ := ih
    refine ⟨?_, ?_, ?_, ?_, ?_, ?_, ?_⟩
    · intro p
      rw [parseUnary]
      split
      · exact Frames_advance _ _ (Frames_bind _ _ _ (iU _)
          (fun a q => Frames_ok _ _ _ rfl rfl (Nat.le_refl _)))
      · split
        · split
          · exact Frames_ok _ _ _ rfl rfl (Nat.le_succ _)
          · exact Frames_panic _ _ _ rfl rfl (Nat.le_succ _)
        · split
          · split
            · exact Frames_ok _ _ _ rfl rfl (Nat.le_succ _)
            · exact Frames_panic _ _ _ rfl rfl (Nat.le_succ _)
          · split
            · exact Frames_advance _ _ (Frames_bind _ _ _ (iE _)
                (fun a q => Frames_bind _ _ _ (Frames_expect q ")")
                  (fun _ q1 => Frames_ok _ _ _ rfl rfl (Nat.le_refl _))))
            · exact Frames_panic _ _ _ rfl rfl (Nat.le_refl _)
    · intro v p
      rw [factorLoop]
      split
      · exact Frames_advance _ _ (Frames_bind _ _ _ (iU _) (fun a q => iFL _ q))
      · exact Frames_ok _ _ _ rfl rfl (Nat.le_refl _)
    · intro p
      rw [parseFactor]
      exact Frames_bind _ _ _ (iU _) (fun a q => iFL _ q)
    · intro v p
      rw [termLoop]
      split
      · exact Frames_advance _ _ (Frames_bind _ _ _ (iF _) (fun a q => iTL _ q))
      · exact Frames_ok _ _ _ rfl rfl (Nat.le_refl _)
    · intro p
      rw [parseTerm]
      exact Frames_bind _ _ _ (iF _) (fun a q => iTL _ q)
    · intro v p
      rw [expressionLoop]
      split
      · exact Frames_advance _ _ (Frames_bind _ _ _ (iT _) (fun a q => iEL _ q))
      · exact Frames_ok _ _ _ rfl rfl (Nat.le_refl _)
    · intro p
      rw [parseExpression]
      exact Frames_bind _ _ _ (iT _) (fun a q => iEL _ q)

/-! ## Constants (C8) and assignments (C9, C10) -/

/-- C8: a Constant token (a non-empty run of decimal digits, leading zeros
allowed) read as a unary operand yields its decimal value when that value is at
most `2^63 - 1`, and panics with the range error of `strconv.Atoi` when it is
larger; and the session of the single line `a=0` ends normally and reports 0. -/
theorem constant_operand (fuel : Nat) (p : Parser) (d : String)
    (hd : isConstantText d = true) (h : p.tokens[p.pos]? = some ⟨"const", d⟩) :
    parseUnary (fuel + 1) p =
      (if decimalValue d.data ≤ 2 ^ 63 - 1 then .ok (decimalValue d.data : Int) p.advance
       else .panic (.numError d .errRange) p.advance) ∧
    (CalcAllAndPrint ["a=0"]).out =
      [.text "The read expressions are:", .text "a=0", .value 0] ∧
    (CalcAllAndPrint ["a=0"]).status = .finished := by
  refine ⟨?_, by decide, by decide⟩
  by_cases hfit : decimalValue d.data ≤ 2 ^ 63 - 1
  · rw [if_pos hfit]
    exact parseUnary_const fuel p d _ h
      (Atoi_constant d hd (by simpa [fitsInt, maxInt, intSize] using hfit))
  · rw [if_neg hfit]
    have hA := Atoi_overflow d hd (by simpa [fitsInt, maxInt, intSize] using hfit)
    simp +decide [parseUnary, atKind_of_get p _ _ h, Parser.lastValue, Parser.advance, h, hA]

theorem constant_operand_witness :
    parseUnary 1 ⟨[⟨"const", "9223372036854775807"⟩], 0, Env.empty⟩ =
      .ok 9223372036854775807 ⟨[⟨"const", "9223372036854775807"⟩], 1, Env.empty⟩ ∧
    parseUnary 1 ⟨[⟨"const", "9223372036854775808"⟩], 0, Env.empty⟩ =
      .panic (.numError "9223372036854775808" .errRange)
        ⟨[⟨"const", "9223372036854775808"⟩], 1, Env.empty⟩ :=
  ⟨(constant_operand 0 ⟨[⟨"const", "9223372036854775807"⟩], 0, Env.empty⟩
      "9223372036854775807" (by decide) rfl).1,
   (constant_operand 0 ⟨[⟨"const", "9223372036854775808"⟩], 0, Env.empty⟩
      "9223372036854775808" (by decide) rfl).1⟩

/-- C9: whenever `parseAssignment` returns, the cursor was at a Variable token
`v` followed by `=`, the name returned is `v`, the Environment binds `v` to the
value that `parseExpression` computes from the token after `=` in the Environment
as it was before the call, and every other variable is bound as before. -/
theorem parseAssignment_stores (fuel : Nat) (p : Parser) (name : String) (p1 : Parser)
    (h : parseAssignment fuel p = .ok name p1) :
    ∃ (tv teq : Token) (value : Int) (q : Parser),
      p.tokens[p.pos]? = some tv ∧ tv.Kind = "var" ∧
      p.tokens[p.pos + 1]? = some teq ∧ teq.Kind = "=" ∧
      name = tv.Value ∧
      parseExpression fuel ⟨p.tokens, p.pos + 2, p.vars⟩ = .ok value q ∧
      p1.vars name = some value ∧
      (∀ w, w ≠ name → p1.vars w = p.vars w) ∧
      p1.tokens = p.tokens ∧ p1.pos = q.pos := by
  unfold parseAssignment at h
  cases h0 : p.tokens[p.pos]? with
  | none => simp [Parser.expect, h0, Res.bind] at h
  | some tv =>
    by_cases hk : tv.Kind = "var"
    · cases h1 : p.tokens[p.pos + 1]? with
      | none => simp [Parser.expect, h0, hk, Res.bind, Parser.advance, h1] at h
      | some teq =>
        by_cases hk1 : teq.Kind = "="
        · simp only [Parser.expect, h0, hk, beq_self_eq_true, if_true, Res.bind,
            Parser.advance, h1, hk1] at h
          cases he : parseExpression fuel ⟨p.tokens, p.pos + 1 + 1, p.vars⟩ with
          | timeout => rw [he] at h; simp at h
          | panic e q => rw [he] at h; simp at h
          | ok value q =>
            rw [he] at h
            simp only [Res.ok.injEq] at h
            obtain ⟨hn, hp1⟩ := h
            have hfr := (parse_frames fuel).2.2.2.2.2.2 ⟨p.tokens, p.pos + 1 + 1, p.vars⟩
            rw [he] at hfr
            obtain ⟨g1, g2, _⟩ := hfr q rfl
            simp only at g1 g2
            refine ⟨tv, teq, value, q, rfl, hk, rfl, hk1, hn.symm, rfl, ?_, ?_, ?_, ?_⟩
            · rw [← hp1, ← hn]; simp
            · intro w hw
              rw [← hp1]
              simp only
              rw [Env.set_other _ _ _ _ (by rw [hn]; exact hw), g2]
            · rw [← hp1]; exact g1
            · rw [← hp1]
        · simp [Parser.expect, h0, hk, Res.bind, Parser.advance, h1, hk1] at h
    · simp [Parser.expect, h0, hk, Res.bind] at h

theorem parseAssignment_stores_witness :
    ∃ (tv teq : Token) (value : Int) (q : Parser),
      [(⟨"var", "b"⟩ : Token), ⟨"=", "="⟩, ⟨"var", "a"⟩, ⟨"&", "&"⟩, ⟨"const", "3"⟩][0]? = some tv ∧
      tv.Kind = "var" ∧
      [(⟨"var", "b"⟩ : Token), ⟨"=", "="⟩, ⟨"var", "a"⟩, ⟨"&", "&"⟩, ⟨"const", "3"⟩][0 + 1]? =
        some teq ∧
      teq.Kind = "=" ∧ "b" = tv.Value ∧
      parseExpression 8
        ⟨[⟨"var", "b"⟩, ⟨"=", "="⟩, ⟨"var", "a"⟩, ⟨"&", "&"⟩, ⟨"const", "3"⟩], 0 + 2,
          Env.empty.set "a" 5⟩ = .ok value q ∧
      ((Env.empty.set "a" 5).set "b" 1) "b" = some value ∧
      (∀ w, w ≠ "b" → ((Env.empty.set "a" 5).set "b" 1) w = (Env.empty.set "a" 5) w) ∧
      [(⟨"var", "b"⟩ : Token), ⟨"=", "="⟩, ⟨"var", "a"⟩, ⟨"&", "&"⟩, ⟨"const", "3"⟩] =
        [(⟨"var", "b"⟩ : Token), ⟨"=", "="⟩, ⟨"var", "a"⟩, ⟨"&", "&"⟩, ⟨"const", "3"⟩] ∧
      5 = q.pos :=
  parseAssignment_stores 8
    ⟨[⟨"var", "b"⟩, ⟨"=", "="⟩, ⟨"var", "a"⟩, ⟨"&", "&"⟩, ⟨"const", "3"⟩], 0, Env.empty.set "a" 5⟩
    "b"
    ⟨[⟨"var", "b"⟩, ⟨"=", "="⟩, ⟨"var", "a"⟩, ⟨"&", "&"⟩, ⟨"const", "3"⟩], 5,
      (Env.empty.set "a" 5).set "b" 1⟩
    rfl

/-- C10: for every token sequence and cursor, `parseAssignment` panics with
`Expected var` when the token at the cursor is missing or is not a Variable, and
panics with `Expected =` when the token at the cursor is a Variable and the next
token is missing or is not `=`. -/
theorem parseAssignment_expected (fuel : Nat) (p : Parser) :
    ((∀ t, p.tokens[p.pos]? = some t → t.Kind ≠ "var") →
      parseAssignment fuel p = .panic (.expected "var") p) ∧
    (∀ tv, p.tokens[p.pos]? = some tv → tv.Kind = "var" →
      (∀ t, p.tokens[p.pos + 1]? = some t → t.Kind ≠ "=") →
      parseAssignment fuel p = .panic (.expected "=") p.advance) := by
  constructor
  · intro h
    cases h0 : p.tokens[p.pos]? with
    | none => simp [parseAssignment, Parser.expect, h0, Res.bind]
    | some t => simp [parseAssignment, Parser.expect, h0, Res.bind, h t h0]
  · intro tv h0 hk h
    cases h1 : p.tokens[p.pos + 1]? with
    | none => simp [parseAssignment, Parser.expect, h0, hk, Res.bind, Parser.advance, h1]
    | some t =>
      simp [parseAssignment, Parser.expect, h0, hk, Res.bind, Parser.advance, h1, h t h1]

theorem parseAssignment_expected_witness :
    parseAssignment 0 ⟨[], 0, Env.empty⟩ = .panic (.expected "var") ⟨[], 0, Env.empty⟩ ∧
    parseAssignment 0 ⟨[⟨"const", "1"⟩, ⟨"=", "="⟩], 0, Env.empty⟩ =
      .panic (.expected "var") ⟨[⟨"const", "1"⟩, ⟨"=", "="⟩], 0, Env.empty⟩ ∧
    parseAssignment 0 ⟨[⟨"var", "a"⟩], 0, Env.empty⟩ =
      .panic (.expected "=") ⟨[⟨"var", "a"⟩], 1, Env.empty⟩ ∧
    parseAssignment 0 ⟨[⟨"var", "a"⟩, ⟨"const", "1"⟩], 0, Env.empty⟩ =
      .panic (.expected "=") ⟨[⟨"var", "a"⟩, ⟨"const", "1"⟩], 1, Env.empty⟩ :=
  ⟨(parseAssignment_expected 0 ⟨[], 0, Env.empty⟩).1 (by simp),
   (parseAssignment_expected 0 ⟨[⟨"const", "1"⟩, ⟨"=", "="⟩], 0, Env.empty⟩).1
     (by intro t ht; simp at ht; subst ht; decide),
   (parseAssignment_expected 0 ⟨[⟨"var", "a"⟩], 0, Env.empty⟩).2 ⟨"var", "a"⟩ rfl rfl (by simp),
   (parseAssignment_expected 0 ⟨[⟨"var", "a"⟩, ⟨"const", "1"⟩], 0, Env.empty⟩).2 ⟨"var", "a"⟩
     rfl rfl (by intro t ht; simp at ht; subst ht; decide)⟩

/-! ## Invalid characters (C7) -/

theorem find_dropWhile (f g : Char → Bool) (l : List Char)
    (h : ∀ c, g c = true → f c = false) : (l.dropWhile g).find? f = l.find? f := by
  induction l with
  | nil => rfl
  | cons a l ih =>
    by_cases hg : g a = true
    · rw [List.dropWhile_cons_of_pos hg, ih, List.find?_cons, h a hg]
    · rw [List.dropWhile_cons_of_neg hg]

theorem isValidChar_of_letterOrDigit (c : Char) (h : isLetterOrDigit c = true) :
    (!isValidChar c) = false := by
  simp only [isLetterOrDigit, Bool.or_eq_true] at h
  rcases h with h | h <;> simp [isValidChar, h]

theorem isValidChar_of_digit (c : Char) (h : isDigit c = true) : (!isValidChar c) = false := by
  simp [isValidChar, h]

theorem operatorToken_valid (c : Char) (hb : isBlank c = false) (hl : isLetter c = false)
    (hd : isDigit c = false) :
    (isValidChar c = true → ∃ t, operatorToken c = .ok t) ∧
    (isValidChar c = false → operatorToken c = .error (.invalidCharacter c)) := by
  simp only [isValidChar, hb, hl, hd, Bool.false_or, Bool.or_eq_true, beq_iff_eq,
    Bool.or_eq_false_iff, beq_eq_false_iff_ne, operatorToken]
  constructor
  · intro h
    rcases h with (((((h | h) | h) | h) | h) | h) | h <;> subst h <;> exact ⟨_, rfl⟩
  · intro h
    obtain ⟨⟨⟨⟨⟨⟨h1, h2⟩, h3⟩, h4⟩, h5⟩, h6⟩, h7⟩ := h
    simp [h1, h2, h3, h4, h5, h6, h7]

/-- The outcome of `tokenize` is decided by the leftmost unaccepted character:
with none the line has tokens, otherwise the panic carries that character. -/
theorem tokenize_outcome : ∀ (n : Nat) (l : List Char), l.length ≤ n →
    (firstInvalid l = none → ∃ ts, tokenize ⟨l⟩ = .ok ts) ∧
    (∀ c, firstInvalid l = some c → tokenize ⟨l⟩ = .panic (.invalidCharacter c)) := by
  intro n
  induction n with
  | zero =>
    intro l hl
    have : l = [] := List.length_eq_zero.mp (Nat.le_zero.mp hl)
    subst this
    exact ⟨fun _ => ⟨[], rfl⟩, fun c hc => by simp [firstInvalid] at hc⟩
  | succ n ih =>
    intro l hl
    cases l with
    | nil => exact ⟨fun _ => ⟨[], rfl⟩, fun c hc => by simp [firstInvalid] at hc⟩
    | cons c cs =>
      simp only [List.length_cons, Nat.add_le_add_iff_right] at hl
      rw [tokenize_cons]
      by_cases hb : isBlank c = true
      · have hv : (!isValidChar c) = false := by simp [isValidChar, hb]
        have hf : firstInvalid (c :: cs) = firstInvalid cs := by
          simp [firstInvalid, List.find?_cons, hv]
        rw [if_pos hb, hf]
        exact ih cs hl
      · rw [if_neg hb]
        by_cases hlet : isLetter c = true
        · have hv : (!isValidChar c) = false := by simp [isValidChar, hlet]
          have hf : firstInvalid (c :: cs) = firstInvalid (cs.dropWhile isLetterOrDigit) := by
            simp only [firstInvalid, List.find?_cons, hv]
            exact (find_dropWhile _ _ cs isValidChar_of_letterOrDigit).symm
          rw [if_pos hlet, hf]
          obtain ⟨i1, i2⟩ := ih (cs.dropWhile isLetterOrDigit)
            (Nat.le_trans (length_dropWhile_le _ cs) hl)
          constructor
          · intro h0
            obtain ⟨ts, hts⟩ := i1 h0
            exact ⟨_, by rw [hts]; rfl⟩
          · intro d hd
            rw [i2 d hd]; rfl
        · rw [if_neg hlet]
          by_cases hdig : isDigit c = true
          · have hv : (!isValidChar c) = false := by simp [isValidChar, hdig]
            have hf : firstInvalid (c :: cs) = firstInvalid (cs.dropWhile isDigit) := by
              simp only [firstInvalid, List.find?_cons, hv]
              exact (find_dropWhile _ _ cs isValidChar_of_digit).symm
            rw [if_pos hdig, hf]
            obtain ⟨i1, i2⟩ := ih (cs.dropWhile isDigit)
              (Nat.le_trans (length_dropWhile_le _ cs) hl)
            constructor
            · intro h0
              obtain ⟨ts, hts⟩ := i1 h0
              exact ⟨_, by rw [hts]; rfl⟩
            · intro d hd
              rw [i2 d hd]; rfl
          · rw [if_neg hdig]
            obtain ⟨o1, o2⟩ := operatorToken_valid c (by simpa using hb) (by simpa using hlet)
              (by simpa using hdig)
            by_cases hv : isValidChar c = true
            · obtain ⟨t, ht⟩ := o1 hv
              have hf : firstInvalid (c :: cs) = firstInvalid cs := by
                simp [firstInvalid, List.find?_cons, hv]
              rw [ht, hf]
              obtain ⟨i1, i2⟩ := ih cs hl
              constructor
              · intro h0
                obtain ⟨ts, hts⟩ := i1 h0
                exact ⟨_, by simp only [hts]; rfl⟩
              · intro d hd
                simp only [i2 d hd]; rfl
            · have hv1 : isValidChar c = false := by simpa using hv
              have hf : firstInvalid (c :: cs) = some c := by
                simp [firstInvalid, List.find?_cons, hv1]
              rw [o2 hv1, hf]
              constructor
              · intro h0; cases h0
              · intro d hd
                simp only [Option.some.injEq] at hd
                subst hd; rfl

/-- C7: `tokenize` panics if and only if the line contains a character that is
not a letter, a digit, a space, a tab or one of `= | ^ & ~ ( )`; the panic then
carries the leftmost such character; so a line that contains `$` after accepted
characters only panics with `$`, whatever follows. -/
theorem tokenize_invalid_character (s : String) :
    ((∃ e, tokenize s = .panic e) ↔ ∃ c ∈ s.data, isValidChar c = false) ∧
    (∀ e, tokenize s = .panic e →
      ∃ c, firstInvalid s.data = some c ∧ e = .invalidCharacter c) ∧
    (∀ pre rest : List Char, s.data = pre ++ '$' :: rest →
      (∀ c ∈ pre, isValidChar c = true) → tokenize s = .panic (.invalidCharacter '$')) := by
  obtain ⟨l⟩ := s
  obtain ⟨h1, h2⟩ := tokenize_outcome l.length l (Nat.le_refl _)
  have hpanic : ∀ e, tokenize ⟨l⟩ = .panic e →
      ∃ c, firstInvalid l = some c ∧ e = .invalidCharacter c := by
    intro e he
    cases hf : firstInvalid l with
    | none =>
      obtain ⟨ts, hts⟩ := h1 hf
      rw [hts] at he; cases he
    | some c =>
      rw [h2 c hf] at he
      simp only [TokRes.panic.injEq] at he
      exact ⟨c, rfl, he.symm⟩
  refine ⟨⟨?_, ?_⟩, hpanic, ?_⟩
  · rintro ⟨e, he⟩
    obtain ⟨c, hc, _⟩ := hpanic e he
    have hmem := List.mem_of_find?_eq_some hc
    have hp := List.find?_some hc
    exact ⟨c, hmem, by simpa using hp⟩
  · rintro ⟨c, hc, hv⟩
    cases hf : firstInvalid l with
    | none =>
      simp only [firstInvalid, List.find?_eq_none] at hf
      have := hf c hc
      simp [hv] at this
    | some d => exact ⟨_, h2 d hf⟩
  · intro pre rest hl hpre
    simp only at hl
    apply h2
    rw [hl, firstInvalid, List.find?_append]
    have : pre.find? (fun c => !isValidChar c) = none := by
      rw [List.find?_eq_none]
      intro c hc
      simp [hpre c hc]
    rw [this]
    simp +decide [List.find?_cons]

theorem tokenize_invalid_character_witness :
    tokenize "a = 1 $ b # 2" = .panic (.invalidCharacter '$') :=
  (tokenize_invalid_character "a = 1 $ b # 2").2.2 "a = 1 ".data " b # 2".data rfl (by decide)

/-! ## The parser accepts the grammar (C6) -/

theorem Outcome_bind (r : Res Int) (f : Int → Parser → Res Int) (bad1 bad2 : Option Token)
    (mid fin : Parser) (h1 : Outcome r bad1 mid) (h2 : ∀ v, Outcome (f v mid) bad2 fin) :
    Outcome (r.bind f) (bad1.or bad2) fin := by
  cases bad1 with
  | none =>
    obtain ⟨v, hv⟩ := h1
    rw [hv]
    simpa [Res.bind] using h2 v
  | some x =>
    obtain ⟨q, hq⟩ := h1
    rw [hq]
    exact ⟨q, rfl⟩

theorem Outcome_end (r : Res Int) (bad : Option Token) (toks : List Token) (vars : Env)
    (a b : Nat) (h : Outcome r bad ⟨toks, a, vars⟩) (hab : a = b) :
    Outcome r bad ⟨toks, b, vars⟩ := by
  subst hab; exact h

theorem getElem_at_length (pre rest : List Token) (t : Token) :
    (pre ++ t :: rest)[pre.length]? = some t := by
  rw [List.getElem?_append_right (Nat.le_refl _)]
  simp

theorem atKind_here (pre rest : List Token) (t : Token) (vars : Env) (kind : String) :
    Parser.atKind ⟨pre ++ t :: rest, pre.length, vars⟩ kind = (t.Kind == kind) := by
  simp only [Parser.atKind, getElem_at_length]

theorem atKind_follow (pre suf : List Token) (vars : Env) (kind : String)
    (h : ∀ t ∈ suf.head?, t.Kind ≠ kind) :
    Parser.atKind ⟨pre ++ suf, pre.length, vars⟩ kind = false := by
  cases suf with
  | nil => simp [Parser.atKind]
  | cons x xs =>
    rw [atKind_here]
    simpa using h x (by simp)

theorem firstUndefined_append (vars : Env) (a b : List Token) :
    firstUndefined vars (a ++ b) = (firstUndefined vars a).or (firstUndefined vars b) := by
  simp [firstUndefined, List.find?_append]

theorem firstUndefined_cons_other (vars : Env) (t : Token) (e : List Token)
    (h : t.Kind ≠ "var") : firstUndefined vars (t :: e) = firstUndefined vars e := by
  simp [firstUndefined, List.find?_cons, isUndefinedRef, h]

theorem firstUndefined_nil (vars : Env) : firstUndefined vars [] = none := rfl

theorem termTail_head (t : List Token) (h : Derives .termTail t) :
    ∀ x ∈ t.head?, x.Kind = "^" := by
  cases h with
  | termNil => simp
  | termCons o f t1 ho _ _ => simpa using ho

theorem expressionTail_head (t : List Token) (h : Derives .expressionTail t) :
    ∀ x ∈ t.head?, x.Kind = "|" := by
  cases h with
  | expressionNil => simp
  | expressionCons o f t1 ho _ _ => simpa using ho

theorem factorTail_head (t : List Token) (h : Derives .factorTail t) :
    ∀ x ∈ t.head?, x.Kind = "&" := by
  cases h with
  | factorNil => simp
  | factorCons o f t1 ho _ _ => simpa using ho

/-- The head of `t ++ suf` is the head of `t`, or that of `suf` when `t` is
empty. -/
theorem head_append_kind (t suf : List Token) (op : String) (bad : List String)
    (ht : ∀ x ∈ t.head?, x.Kind = op) (hop : op ∉ bad)
    (hs : ∀ x ∈ suf.head?, x.Kind ∉ bad) : ∀ x ∈ (t ++ suf).head?, x.Kind ∉ bad := by
  cases t with
  | nil => simpa using hs
  | cons y ys =>
    intro x hx
    simp only [List.cons_append, List.head?_cons, Option.mem_def, Option.some.injEq] at hx
    subst hx
    rw [ht y (by simp)]
    exact hop

theorem atKind_at (toks pre rest : List Token) (t : Token) (pos : Nat) (vars : Env)
    (kind : String) (htoks : toks = pre ++ t :: rest) (hpos : pos = pre.length) :
    Parser.atKind ⟨toks, pos, vars⟩ kind = (t.Kind == kind) := by
  subst htoks hpos
  exact atKind_here pre rest t vars kind

theorem atKind_end (toks pre suf : List Token) (pos : Nat) (vars : Env) (kind : String)
    (htoks : toks = pre ++ suf) (hpos : pos = pre.length)
    (h : ∀ t ∈ suf.head?, t.Kind ≠ kind) : Parser.atKind ⟨toks, pos, vars⟩ kind = false := by
  subst htoks hpos
  exact atKind_follow pre suf vars kind h

theorem expect_at (toks pre rest : List Token) (t : Token) (pos : Nat) (vars : Env)
    (kind : String) (htoks : toks = pre ++ t :: rest) (hpos : pos = pre.length)
    (hk : t.Kind = kind) :
    Parser.expect ⟨toks, pos, vars⟩ kind = .ok t ⟨toks, pos + 1, vars⟩ := by
  subst htoks hpos
  simp only [Parser.expect, getElem_at_length, hk, Parser.advance, beq_self_eq_true, if_true]

theorem lastValue_at (toks pre rest : List Token) (t : Token) (pos : Nat) (vars : Env)
    (htoks : toks = pre ++ t :: rest) (hpos : pos = pre.length) :
    Parser.lastValue ⟨toks, pos + 1, vars⟩ = t.Value := by
  subst htoks hpos
  simp only [Parser.lastValue, Nat.add_sub_cancel, getElem_at_length]

/-- The parser accepts every phrase of the grammar: run on a phrase `e` that
sits in the token sequence after `pre` and before `suf`, with four units of fuel
per token and the slack of the nonterminal, the procedure of the nonterminal
returns with the cursor just past `e` when all variables of `e` are bound, and
panics for the leftmost unbound one otherwise. -/
theorem derives_outcome {nt : Nonterminal} {e : List Token} (h : Derives nt e) :
    ∀ (toks pre suf : List Token) (vars : Env) (n : Nat) (v : Int) (pos fin : Nat),
      toks = pre ++ (e ++ suf) → pos = pre.length → fin = pos + e.length →
      (∀ t ∈ suf.head?, t.Kind ∉ nt.follow) →
      (∀ t ∈ e, t.Kind = "const" → ∃ w, Atoi t.Value = .ok w) →
      4 * e.length + nt.slack ≤ n →
      Outcome (nt.run n v ⟨toks, pos, vars⟩) (firstUndefined vars e) ⟨toks, fin, vars⟩ := by
  induction h with
  | not o u ho _ ih =>
    intro toks pre suf vars n v pos fin htoks hpos hfin hf hc hn
    obtain ⟨m, rfl⟩ : ∃ m, n = m + 1 := ⟨n - 1, by simp at hn; omega⟩
    have hi := ih toks (pre ++ [o]) suf vars m v (pos + 1) fin (by simp [htoks])
      (by simp [hpos]) (by simp at hfin; omega) hf
      (fun t ht => hc t (List.mem_cons_of_mem _ ht))
      (by simp [Nonterminal.slack] at hn ⊢; omega)
    simp only [Nonterminal.run] at hi ⊢
    rw [parseUnary, atKind_at toks pre (u ++ suf) o pos vars _ (by simp [htoks]) hpos, ho]
    simp only [beq_self_eq_true, if_true, Parser.advance]
    rw [firstUndefined_cons_other vars o u (by rw [ho]; decide)]
    have hb := Outcome_bind _ (fun v q => Res.ok (Int.not v) q) _ none _ _ hi
      (fun v => ⟨_, rfl⟩)
    rw [Option.or_none] at hb
    exact hb
  | var t ht =>
    intro toks pre suf vars n v pos fin htoks hpos hfin hf hc hn
    obtain ⟨m, rfl⟩ : ∃ m, n = m + 1 := ⟨n - 1, by simp at hn; omega⟩
    have hA := fun kind => atKind_at toks pre suf t pos vars kind (by simp [htoks]) hpos
    have hL := lastValue_at toks pre suf t pos vars (by simp [htoks]) hpos
    simp only [Nonterminal.run]
    rw [parseUnary, hA, hA, ht]
    simp only [Parser.advance, hL]
    simp only [List.length_singleton] at hfin
    subst hfin
    cases hv : vars t.Value with
    | none =>
      have : firstUndefined vars [t] = some t := by
        simp [firstUndefined, isUndefinedRef, ht, hv]
      rw [this]
      exact ⟨⟨toks, pos + 1, vars⟩, by simp +decide⟩
    | some w =>
      have : firstUndefined vars [t] = none := by
        simp [firstUndefined, isUndefinedRef, ht, hv]
      rw [this]
      exact ⟨w, by simp +decide⟩
  | const t ht =>
    intro toks pre suf vars n v pos fin htoks hpos hfin hf hc hn
    obtain ⟨m, rfl⟩ : ∃ m, n = m + 1 := ⟨n - 1, by simp at hn; omega⟩
    obtain ⟨w, hw⟩ := hc t (by simp) ht
    simp only [List.length_singleton] at hfin
    subst hfin
    have hg : toks[pos]? = some ⟨"const", t.Value⟩ := by
      subst htoks hpos
      simp only [List.cons_append, List.nil_append, getElem_at_length]
      rw [← ht]
    simp only [Nonterminal.run]
    rw [parseUnary_const m _ t.Value w hg hw]
    rw [firstUndefined_cons_other vars t [] (by rw [ht]; decide)]
    exact ⟨w, rfl⟩
  | paren l r e hl hr _ ih =>
    intro toks pre suf vars n v pos fin htoks hpos hfin hf hc hn
    obtain ⟨m, rfl⟩ : ∃ m, n = m + 1 := ⟨n - 1, by simp at hn; omega⟩
    have hi := ih toks (pre ++ [l]) (r :: suf) vars m v (pos + 1) (fin - 1)
      (by simp [htoks]) (by simp [hpos]) (by simp at hfin; omega)
      (by
        intro t ht
        simp only [List.head?_cons, Option.mem_def, Option.some.injEq] at ht
        subst ht
        rw [hr]; decide)
      (fun t ht => hc t (by simp [ht]))
      (by simp [Nonterminal.slack] at hn ⊢; omega)
    have hA := fun kind =>
      atKind_at toks pre (e ++ r :: suf) l pos vars kind (by simp [htoks]) hpos
    have hE := expect_at toks (pre ++ l :: e) suf r (fin - 1) vars ")" (by simp [htoks])
      (by simp at hfin ⊢; omega) hr
    have hfin1 : fin - 1 + 1 = fin := by simp at hfin; omega
    rw [hfin1] at hE
    simp only [Nonterminal.run] at hi ⊢
    rw [parseUnary, hA, hA, hA, hA, hl]
    simp only [Parser.advance]
    have hfu : firstUndefined vars (l :: (e ++ [r])) = firstUndefined vars e := by
      rw [firstUndefined_cons_other vars l _ (by rw [hl]; decide), firstUndefined_append,
        firstUndefined_cons_other vars r [] (by rw [hr]; decide), firstUndefined_nil,
        Option.or_none]
    rw [hfu]
    have hb := Outcome_bind _
      (fun value q => (q.expect ")").bind fun _ q1 => Res.ok value q1) _ none _
      ⟨toks, fin, vars⟩ hi (fun v => ⟨v, by simp only [hE, Res.bind]⟩)
    rw [Option.or_none] at hb
    simpa +decide using hb
  | factorNil =>
    intro toks pre suf vars n v pos fin htoks hpos hfin hf hc hn
    obtain ⟨m, rfl⟩ : ∃ m, n = m + 1 := ⟨n - 1, by simp [Nonterminal.slack] at hn; omega⟩
    simp only [List.length_nil, Nat.add_zero] at hfin
    rw [hfin]
    simp only [Nonterminal.run]
    rw [factorLoop, atKind_end toks pre suf pos vars "&" (by simp [htoks]) hpos
      (fun t ht => by have := hf t ht; simpa [Nonterminal.follow] using this)]
    exact ⟨v, by simp⟩
  | factorCons o u t ho _ _ ihu iht =>
    intro toks pre suf vars n v pos fin htoks hpos hfin hf hc hn
    obtain ⟨m, rfl⟩ : ∃ m, n = m + 1 := ⟨n - 1, by simp at hn; omega⟩
    have hu := ihu toks (pre ++ [o]) (t ++ suf) vars m v (pos + 1) (pos + 1 + u.length)
      (by simp [htoks]) (by simp [hpos]) rfl (by simp [Nonterminal.follow])
      (fun x hx => hc x (by simp [hx]))
      (by simp [Nonterminal.slack] at hn ⊢; omega)
    have ht := fun w => iht toks (pre ++ o :: u) suf vars m w (pos + 1 + u.length) fin
      (by simp [htoks]) (by simp [hpos]; omega) (by simp at hfin ⊢; omega) hf
      (fun x hx => hc x (by simp [hx]))
      (by simp [Nonterminal.slack] at hn ⊢; omega)
    simp only [Nonterminal.run] at hu ht ⊢
    rw [factorLoop, atKind_at toks pre (u ++ (t ++ suf)) o pos vars _ (by simp [htoks]) hpos, ho]
    simp only [beq_self_eq_true, if_true, Parser.advance]
    rw [firstUndefined_cons_other vars o _ (by rw [ho]; decide), firstUndefined_append]
    exact Outcome_bind _ (fun w q => factorLoop m (Int.land v w) q) _ _ _ _ hu
      (fun w => ht (Int.land v w))
  | factor u t _ _ ihu iht =>
    intro toks pre suf vars n v pos fin htoks hpos hfin hf hc hn
    obtain ⟨m, rfl⟩ : ∃ m, n = m + 1 := ⟨n - 1, by simp [Nonterminal.slack] at hn; omega⟩
    have hu := ihu toks pre (t ++ suf) vars m v pos (pos + u.length)
      (by simp [htoks]) hpos rfl (by simp [Nonterminal.follow])
      (fun x hx => hc x (by simp [hx]))
      (by simp [Nonterminal.slack] at hn ⊢; omega)
    have ht := fun w => iht toks (pre ++ u) suf vars m w (pos + u.length) fin
      (by simp [htoks]) (by simp [hpos]) (by simp at hfin ⊢; omega) hf
      (fun x hx => hc x (by simp [hx]))
      (by simp [Nonterminal.slack] at hn ⊢; omega)
    simp only [Nonterminal.run] at hu ht ⊢
    rw [parseFactor, firstUndefined_append]
    exact Outcome_bind _ (fun w q => factorLoop m w q) _ _ _ _ hu (fun w => ht w)
  | termNil =>
    intro toks pre suf vars n v pos fin htoks hpos hfin hf hc hn
    obtain ⟨m, rfl⟩ : ∃ m, n = m + 1 := ⟨n - 1, by simp [Nonterminal.slack] at hn; omega⟩
    simp only [List.length_nil, Nat.add_zero] at hfin
    rw [hfin]
    simp only [Nonterminal.run]
    rw [termLoop, atKind_end toks pre suf pos vars "^" (by simp [htoks]) hpos
      (fun t ht => by have := hf t ht; simp [Nonterminal.follow] at this; simp [this])]
    exact ⟨v, by simp⟩
  | termCons o u t ho _ hdt ihu iht =>
    intro toks pre suf vars n v pos fin htoks hpos hfin hf hc hn
    obtain ⟨m, rfl⟩ : ∃ m, n = m + 1 := ⟨n - 1, by simp at hn; omega⟩
    have hu := ihu toks (pre ++ [o]) (t ++ suf) vars m v (pos + 1) (pos + 1 + u.length)
      (by simp [htoks]) (by simp [hpos]) rfl
      (head_append_kind t suf "^" _ (termTail_head t hdt) (by decide)
        (fun x hx => by have := hf x hx; simp [Nonterminal.follow] at this ⊢; simp [this]))
      (fun x hx => hc x (by simp [hx]))
      (by simp [Nonterminal.slack] at hn ⊢; omega)
    have ht := fun w => iht toks (pre ++ o :: u) suf vars m w (pos + 1 + u.length) fin
      (by simp [htoks]) (by simp [hpos]; omega) (by simp at hfin ⊢; omega) hf
      (fun x hx => hc x (by simp [hx]))
      (by simp [Nonterminal.slack] at hn ⊢; omega)
    simp only [Nonterminal.run] at hu ht ⊢
    rw [termLoop, atKind_at toks pre (u ++ (t ++ suf)) o pos vars _ (by simp [htoks]) hpos, ho]
    simp only [beq_self_eq_true, if_true, Parser.advance]
    rw [firstUndefined_cons_other vars o _ (by rw [ho]; decide), firstUndefined_append]
    exact Outcome_bind _ (fun w q => termLoop m (Int.xor v w) q) _ _ _ _ hu
      (fun w => ht (Int.xor v w))
  | term u t _ hdt ihu iht =>
    intro toks pre suf vars n v pos fin htoks hpos hfin hf hc hn
    obtain ⟨m, rfl⟩ : ∃ m, n = m + 1 := ⟨n - 1, by simp [Nonterminal.slack] at hn; omega⟩
    have hu := ihu toks pre (t ++ suf) vars m v pos (pos + u.length)
      (by simp [htoks]) hpos rfl
      (head_append_kind t suf "^" _ (termTail_head t hdt) (by decide)
        (fun x hx => by have := hf x hx; simp [Nonterminal.follow] at this ⊢; simp [this]))
      (fun x hx => hc x (by simp [hx]))
      (by simp [Nonterminal.slack] at hn ⊢; omega)
    have ht := fun w => iht toks (pre ++ u) suf vars m w (pos + u.length) fin
      (by simp [htoks]) (by simp [hpos]) (by simp at hfin ⊢; omega) hf
      (fun x hx => hc x (by simp [hx]))
      (by simp [Nonterminal.slack] at hn ⊢; omega)
    simp only [Nonterminal.run] at hu ht ⊢
    rw [parseTerm, firstUndefined_append]
    exact Outcome_bind _ (fun w q => termLoop m w q) _ _ _ _ hu (fun w => ht w)
  | expressionNil =>
    intro toks pre suf vars n v pos fin htoks hpos hfin hf hc hn
    obtain ⟨m, rfl⟩ : ∃ m, n = m + 1 := ⟨n - 1, by simp [Nonterminal.slack] at hn; omega⟩
    simp only [List.length_nil, Nat.add_zero] at hfin
    rw [hfin]
    simp only [Nonterminal.run]
    rw [expressionLoop, atKind_end toks pre suf pos vars "|" (by simp [htoks]) hpos
      (fun t ht => by have := hf t ht; simp [Nonterminal.follow] at this; simp [this])]
    exact ⟨v, by simp⟩
  | expressionCons o u t ho _ hdt ihu iht =>
    intro toks pre suf vars n v pos fin htoks hpos hfin hf hc hn
    obtain ⟨m, rfl⟩ : ∃ m, n = m + 1 := ⟨n - 1, by simp at hn; omega⟩
    have hu := ihu toks (pre ++ [o]) (t ++ suf) vars m v (pos + 1) (pos + 1 + u.length)
      (by simp [htoks]) (by simp [hpos]) rfl
      (head_append_kind t suf "|" _ (expressionTail_head t hdt) (by decide)
        (fun x hx => by have := hf x hx; simp [Nonterminal.follow] at this ⊢; simp [this]))
      (fun x hx => hc x (by simp [hx]))
      (by simp [Nonterminal.slack] at hn ⊢; omega)
    have ht := fun w => iht toks (pre ++ o :: u) suf vars m w (pos + 1 + u.length) fin
      (by simp [htoks]) (by simp [hpos]; omega) (by simp at hfin ⊢; omega) hf
      (fun x hx => hc x (by simp [hx]))
      (by simp [Nonterminal.slack] at hn ⊢; omega)
    simp only [Nonterminal.run] at hu ht ⊢
    rw [expressionLoop, atKind_at toks pre (u ++ (t ++ suf)) o pos vars _ (by simp [htoks]) hpos, ho]
    simp only [beq_self_eq_true, if_true, Parser.advance]
    rw [firstUndefined_cons_other vars o _ (by rw [ho]; decide), firstUndefined_append]
    exact Outcome_bind _ (fun w q => expressionLoop m (Int.lor v w) q) _ _ _ _ hu
      (fun w => ht (Int.lor v w))
  | expression u t _ hdt ihu iht =>
    intro toks pre suf vars n v pos fin htoks hpos hfin hf hc hn
    obtain ⟨m, rfl⟩ : ∃ m, n = m + 1 := ⟨n - 1, by simp [Nonterminal.slack] at hn; omega⟩
    have hu := ihu toks pre (t ++ suf) vars m v pos (pos + u.length)
      (by simp [htoks]) hpos rfl
      (head_append_kind t suf "|" _ (expressionTail_head t hdt) (by decide)
        (fun x hx => by have := hf x hx; simp [Nonterminal.follow] at this ⊢; simp [this]))
      (fun x hx => hc x (by simp [hx]))
      (by simp [Nonterminal.slack] at hn ⊢; omega)
    have ht := fun w => iht toks (pre ++ u) suf vars m w (pos + u.length) fin
      (by simp [htoks]) (by simp [hpos]) (by simp at hfin ⊢; omega) hf
      (fun x hx => hc x (by simp [hx]))
      (by simp [Nonterminal.slack] at hn ⊢; omega)
    simp only [Nonterminal.run] at hu ht ⊢
    rw [parseExpression, firstUndefined_append]
    exact Outcome_bind _ (fun w q => expressionLoop m w q) _ _ _ _ hu (fun w => ht w)

theorem TokRes.cons_ok (t : Token) (r : TokRes) (ts : List Token) (h : r.cons t = .ok ts) :
    ∃ ts1, r = .ok ts1 ∧ ts = t :: ts1 := by
  cases r with
  | ok ts1 =>
    simp only [TokRes.cons, TokRes.ok.injEq] at h
    exact ⟨ts1, rfl, h.symm⟩
  | panic e => simp [TokRes.cons] at h
  | timeout => simp [TokRes.cons] at h

theorem operatorToken_wellFormed (c : Char) (t : Token) (h : operatorToken c = .ok t) :
    t.wellFormed = true := by
  unfold operatorToken at h
  repeat' split at h
  all_goals first
    | (simp only [Except.ok.injEq] at h; subst h; decide)
    | cases h

/-- Every token that `tokenize` returns is well formed. -/
theorem tokenize_wellFormed : ∀ (n : Nat) (l : List Char), l.length ≤ n →
    ∀ ts, tokenize ⟨l⟩ = .ok ts → ∀ t ∈ ts, t.wellFormed = true := by
  intro n
  induction n with
  | zero =>
    intro l hl ts hts
    have : l = [] := List.length_eq_zero.mp (Nat.le_zero.mp hl)
    subst this
    rw [tokenize_nil] at hts
    simp only [TokRes.ok.injEq] at hts
    subst hts
    simp
  | succ n ih =>
    intro l hl ts hts
    cases l with
    | nil =>
      rw [tokenize_nil] at hts
      simp only [TokRes.ok.injEq] at hts
      subst hts
      simp
    | cons c cs =>
      simp only [List.length_cons, Nat.add_le_add_iff_right] at hl
      rw [tokenize_cons] at hts
      split at hts
      · exact ih cs hl ts hts
      · split at hts
        · rename_i hlet
          obtain ⟨ts1, h1, rfl⟩ := TokRes.cons_ok _ _ _ hts
          intro t ht
          rcases List.mem_cons.mp ht with rfl | ht
          · simp [Token.wellFormed, isVariableText, hlet]
          · exact ih _ (Nat.le_trans (length_dropWhile_le _ cs) hl) ts1 h1 t ht
        · split at hts
          · rename_i hdig
            obtain ⟨ts1, h1, rfl⟩ := TokRes.cons_ok _ _ _ hts
            intro t ht
            rcases List.mem_cons.mp ht with rfl | ht
            · simp [Token.wellFormed, isConstantText, hdig]
            · exact ih _ (Nat.le_trans (length_dropWhile_le _ cs) hl) ts1 h1 t ht
          · split at hts
            · rename_i t0 hop
              obtain ⟨ts1, h1, rfl⟩ := TokRes.cons_ok _ _ _ hts
              intro t ht
              rcases List.mem_cons.mp ht with rfl | ht
              · exact operatorToken_wellFormed c _ hop
              · exact ih cs hl ts1 h1 t ht
            · cases hts

theorem wellFormed_const (t : Token) (h : t.wellFormed = true) (hk : t.Kind = "const") :
    isConstantText t.Value = true := by
  simp only [Token.wellFormed, hk, Bool.or_eq_true, Bool.and_eq_true, beq_iff_eq] at h
  rcases h with (h | h) | h
  · exact absurd h.1 (by decide)
  · exact h.2
  · exact absurd h.2 (by decide)

theorem firstUndefined_empty (e : List Token) :
    firstUndefined Env.empty e = e.find? (fun t => t.Kind == "var") := by
  have : isUndefinedRef Env.empty = fun t => t.Kind == "var" := by
    funext t
    simp [isUndefinedRef, Env.empty]
  rw [firstUndefined, this]

/-- C6: a session started from the empty Environment whose first line is a
syntactically valid assignment (its tokens are a Variable, `=`, and a phrase that
the grammar derives from `expression`) with in-range constants and at least one
variable reference in the expression panics with `Undefined variable` carrying
the name of the leftmost referenced variable; only the header and the line have
been written, no value, and the Environment is still empty. -/
theorem undefined_variable_first_line (line : String) (rest : List String)
    (tv teq x : Token) (e : List Token)
    (htok : tokenize line = .ok (tv :: teq :: e))
    (hv : tv.Kind = "var") (heq : teq.Kind = "=") (hd : Derives .expression e)
    (hfit : ∀ t ∈ e, t.Kind = "const" → fitsInt t.Value = true)
    (hx : e.find? (fun t => t.Kind == "var") = some x) :
    CalcAllAndPrint (line :: rest) =
      { out := [.text "The read expressions are:", .text line], vars := Env.empty,
        status := .panicked (.undefinedVariable x.Value) } := by
  have hwf := tokenize_wellFormed line.data.length line.data (Nat.le_refl _) _ htok
  have hc : ∀ t ∈ e, t.Kind = "const" → ∃ w, Atoi t.Value = .ok w := by
    intro t ht hk
    have h1 := wellFormed_const t (hwf t (by simp [ht])) hk
    exact ⟨_, Atoi_constant t.Value h1 (hfit t ht hk)⟩
  have ho := derives_outcome hd (tv :: teq :: e) [tv, teq] [] Env.empty
    (4 * (tv :: teq :: e).length + 4) 0 2 (2 + e.length) (by simp) rfl rfl (by simp) hc
    (by simp [Nonterminal.slack]; omega)
  rw [firstUndefined_empty, hx] at ho
  obtain ⟨q, hq⟩ := ho
  simp only [Nonterminal.run] at hq
  have hfr := (parse_frames (4 * (tv :: teq :: e).length + 4)).2.2.2.2.2.2
    ⟨tv :: teq :: e, 2, Env.empty⟩
  rw [hq] at hfr
  obtain ⟨_, hqv, _⟩ := hfr q rfl
  simp only at hqv
  have hp : parseAll (4 * (tv :: teq :: e).length + 4) ⟨tv :: teq :: e, 0, Env.empty⟩ =
      .panic (.undefinedVariable x.Value) q := by
    simp only [parseAll, parseAssignment, Parser.expect, List.getElem?_cons_zero, hv,
      beq_self_eq_true, if_true, Res.bind, Parser.advance, Nat.zero_add,
      List.getElem?_cons_succ, heq, Nat.reduceAdd, hq]
  rw [CalcAllAndPrint, calcLoop]
  simp only [htok, Parser.Parse, Parser.fuel, NewParser, hp, Res.bind, Session.after, hqv,
    List.singleton_append]

theorem undefined_variable_first_line_witness :
    CalcAllAndPrint ["a=a", "$"] =
      { out := [.text "The read expressions are:", .text "a=a"], vars := Env.empty,
        status := .panicked (.undefinedVariable "a") } ∧
    CalcAllAndPrint ["b = 1 | c & d"] =
      { out := [.text "The read expressions are:", .text "b = 1 | c & d"], vars := Env.empty,
        status := .panicked (.undefinedVariable "c") } :=
  ⟨undefined_variable_first_line "a=a" ["$"] ⟨"var", "a"⟩ ⟨"=", "="⟩ ⟨"var", "a"⟩
      [⟨"var", "a"⟩] (by decide) rfl rfl
      (Derives.expression [⟨"var", "a"⟩] []
        (Derives.term [⟨"var", "a"⟩] []
          (Derives.factor [⟨"var", "a"⟩] [] (Derives.var _ rfl) Derives.factorNil)
          Derives.termNil)
        Derives.expressionNil)
      (by decide) (by decide),
   undefined_variable_first_line "b = 1 | c & d" [] ⟨"var", "b"⟩ ⟨"=", "="⟩ ⟨"var", "c"⟩
      [⟨"const", "1"⟩, ⟨"|", "|"⟩, ⟨"var", "c"⟩, ⟨"&", "&"⟩, ⟨"var", "d"⟩] (by decide) rfl rfl
      (Derives.expression [⟨"const", "1"⟩] [⟨"|", "|"⟩, ⟨"var", "c"⟩, ⟨"&", "&"⟩, ⟨"var", "d"⟩]
        (Derives.term [⟨"const", "1"⟩] []
          (Derives.factor [⟨"const", "1"⟩] [] (Derives.const _ rfl) Derives.factorNil)
          Derives.termNil)
        (Derives.expressionCons ⟨"|", "|"⟩ [⟨"var", "c"⟩, ⟨"&", "&"⟩, ⟨"var", "d"⟩] [] rfl
          (Derives.term [⟨"var", "c"⟩, ⟨"&", "&"⟩, ⟨"var", "d"⟩] []
            (Derives.factor [⟨"var", "c"⟩] [⟨"&", "&"⟩, ⟨"var", "d"⟩] (Derives.var _ rfl)
              (Derives.factorCons ⟨"&", "&"⟩ [⟨"var", "d"⟩] [] rfl (Derives.var _ rfl)
                Derives.factorNil))
            Derives.termNil)
          Derives.expressionNil))
      (by decide) (by decide)⟩

/-! ## The fuel of `Parse` and `tokenize` always suffices -/

theorem tokenize_total (s : String) : tokenize s ≠ .timeout := by
  obtain ⟨l⟩ := s
  obtain ⟨h1, h2⟩ := tokenize_outcome l.length l (Nat.le_refl _)
  cases hf : firstInvalid l with
  | none =>
    obtain ⟨ts, hts⟩ := h1 hf
    rw [hts]; intro h; cases h
  | some c =>
    rw [h2 c hf]; intro h; cases h

theorem bind_ok {α β : Type} (r : Res α) (f : α → Parser → Res β) (b : β) (q : Parser)
    (h : r.bind f = .ok b q) : ∃ a m, r = .ok a m ∧ f a m = .ok b q := by
  cases r with
  | ok a m => exact ⟨a, m, rfl, h⟩
  | panic e m => simp [Res.bind] at h
  | timeout => simp [Res.bind] at h

theorem bind_ne_timeout {α β : Type} (r : Res α) (f : α → Parser → Res β)
    (hr : r ≠ .timeout) (hf : ∀ a m, r = .ok a m → f a m ≠ .timeout) :
    r.bind f ≠ .timeout := by
  cases r with
  | ok a m => exact hf a m rfl
  | panic e m => simp [Res.bind]
  | timeout => exact absurd rfl hr

theorem atKind_lt (p : Parser) (kind : String) (h : p.atKind kind = true) :
    p.pos < p.tokens.length := by
  by_contra hlt
  rw [atKind_at_end p kind (Nat.le_of_not_lt hlt)] at h
  cases h

/-- After a normal return the tokens are the same and the cursor has not moved
back. -/
theorem ok_frame {α : Type} (r : Res α) (p : Parser) (a : α) (q : Parser)
    (hfr : r.Frames p) (h : r = .ok a q) : q.tokens = p.tokens ∧ p.pos ≤ q.pos := by
  subst h
  obtain ⟨h1, _, h3⟩ := hfr q rfl
  exact ⟨h1, h3⟩

theorem parseUnary_progress (fuel : Nat) (p : Parser) (v : Int) (q : Parser)
    (h : parseUnary fuel p = .ok v q) : p.pos < q.pos := by
  cases fuel with
  | zero => simp [parseUnary] at h
  | succ n =>
    rw [parseUnary] at h
    split at h
    · obtain ⟨a, m, h1, h2⟩ := bind_ok _ _ _ _ h
      have := (ok_frame _ _ _ _ ((parse_frames n).1 _) h1).2
      simp only [Res.ok.injEq] at h2
      rw [← h2.2]
      exact this
    · split at h
      · split at h
        · simp only [Res.ok.injEq] at h
          rw [← h.2]; exact Nat.lt_succ_self _
        · cases h
      · split at h
        · split at h
          · simp only [Res.ok.injEq] at h
            rw [← h.2]; exact Nat.lt_succ_self _
          · cases h
        · split at h
          · obtain ⟨a, m, h1, h2⟩ := bind_ok _ _ _ _ h
            have hm := (ok_frame _ _ _ _ ((parse_frames n).2.2.2.2.2.2 _) h1).2
            obtain ⟨a1, m1, h3, h4⟩ := bind_ok _ _ _ _ h2
            have hm1 := (ok_frame _ _ _ _ (Frames_expect m ")") h3).2
            simp only [Res.ok.injEq] at h4
            rw [← h4.2]
            exact Nat.lt_of_lt_of_le (Nat.lt_of_lt_of_le (Nat.lt_succ_self _) hm) hm1
          · cases h

theorem parseFactor_progress (fuel : Nat) (p : Parser) (v : Int) (q : Parser)
    (h : parseFactor fuel p = .ok v q) : p.pos < q.pos := by
  cases fuel with
  | zero => simp [parseFactor] at h
  | succ n =>
    rw [parseFactor] at h
    obtain ⟨a, m, h1, h2⟩ := bind_ok _ _ _ _ h
    exact Nat.lt_of_lt_of_le (parseUnary_progress n p a m h1)
      (ok_frame _ _ _ _ ((parse_frames n).2.1 a m) h2).2

theorem parseTerm_progress (fuel : Nat) (p : Parser) (v : Int) (q : Parser)
    (h : parseTerm fuel p = .ok v q) : p.pos < q.pos := by
  cases fuel with
  | zero => simp [parseTerm] at h
  | succ n =>
    rw [parseTerm] at h
    obtain ⟨a, m, h1, h2⟩ := bind_ok _ _ _ _ h
    exact Nat.lt_of_lt_of_le (parseFactor_progress n p a m h1)
      (ok_frame _ _ _ _ ((parse_frames n).2.2.2.1 a m) h2).2

theorem parseExpression_progress (fuel : Nat) (p : Parser) (v : Int) (q : Parser)
    (h : parseExpression fuel p = .ok v q) : p.pos < q.pos := by
  cases fuel with
  | zero => simp [parseExpression] at h
  | succ n =>
    rw [parseExpression] at h
    obtain ⟨a, m, h1, h2⟩ := bind_ok _ _ _ _ h
    exact Nat.lt_of_lt_of_le (parseTerm_progress n p a m h1)
      (ok_frame _ _ _ _ ((parse_frames n).2.2.2.2.2.1 a m) h2).2

/-- With four units of fuel per remaining token (and the slack of the
procedure) no procedure of the expression grammar runs out of fuel. -/
theorem parse_no_timeout : ∀ fuel : Nat,
    (∀ p, 4 * p.remaining + 1 ≤ fuel → parseUnary fuel p ≠ .timeout) ∧
    (∀ v p, 4 * p.remaining + 1 ≤ fuel → factorLoop fuel v p ≠ .timeout) ∧
    (∀ p, 4 * p.remaining + 2 ≤ fuel → parseFactor fuel p ≠ .timeout) ∧
    (∀ v p, 4 * p.remaining + 1 ≤ fuel → termLoop fuel v p ≠ .timeout) ∧
    (∀ p, 4 * p.remaining + 3 ≤ fuel → parseTerm fuel p ≠ .timeout) ∧
    (∀ v p, 4 * p.remaining + 1 ≤ fuel → expressionLoop fuel v p ≠ .timeout) ∧
    (∀ p, 4 * p.remaining + 4 ≤ fuel → parseExpression fuel p ≠ .timeout) := by
  intro fuel
  induction fuel with
  | zero =>
    refine ⟨?_, ?_, ?_, ?_, ?_, ?_, ?_⟩ <;> intros <;> omega
  | succ n ih =>
    obtain ⟨iU, iFL, iF, iTL, iT, iEL, iE⟩ := ih
    have hadv : ∀ (p : Parser) (kind : String), p.atKind kind = true →
        p.advance.remaining + 1 = p.remaining := by
      intro p kind hk
      have := atKind_lt p kind hk
      simp only [Parser.remaining, Parser.advance]
      omega
    have hrem : ∀ (p q : Parser), q.tokens = p.tokens → p.pos < q.pos →
        q.remaining + 1 ≤ p.remaining ∨ (q.remaining = 0 ∧ p.remaining = 0) := by
      intro p q ht hp
      simp only [Parser.remaining, ht]
      omega
    refine ⟨?_, ?_, ?_, ?_, ?_, ?_, ?_⟩
    · intro p hn
      rw [parseUnary]
      split
      · rename_i hk
        have := hadv p _ hk
        exact bind_ne_timeout _ _ (iU _ (by omega)) (fun a m _ => by simp)
      · split
        · split <;> simp
        · split
          · split <;> simp
          · split
            · rename_i hk
              have := hadv p _ hk
              refine bind_ne_timeout _ _ (iE _ (by omega)) (fun a m _ => ?_)
              unfold Parser.expect
              split
              · split <;> simp [Res.bind]
              · simp [Res.bind]
            · simp
    · intro v p hn
      rw [factorLoop]
      split
      · rename_i hk
        have := hadv p _ hk
        refine bind_ne_timeout _ _ (iU _ (by omega)) (fun a m hm => ?_)
        have hf := ok_frame _ _ _ _ ((parse_frames n).1 _) hm
        have := hrem p.advance m hf.1 (parseUnary_progress _ _ _ _ hm)
        exact iFL _ m (by omega)
      · simp
    · intro p hn
      rw [parseFactor]
      refine bind_ne_timeout _ _ (iU _ (by omega)) (fun a m hm => ?_)
      have hf := ok_frame _ _ _ _ ((parse_frames n).1 _) hm
      have := hrem p m hf.1 (parseUnary_progress _ _ _ _ hm)
      exact iFL _ m (by omega)
    · intro v p hn
      rw [termLoop]
      split
      · rename_i hk
        have := hadv p _ hk
        refine bind_ne_timeout _ _ (iF _ (by omega)) (fun a m hm => ?_)
        have hf := ok_frame _ _ _ _ ((parse_frames n).2.2.1 _) hm
        have := hrem p.advance m hf.1 (parseFactor_progress _ _ _ _ hm)
        exact iTL _ m (by omega)
      · simp
    · intro p hn
      rw [parseTerm]
      refine bind_ne_timeout _ _ (iF _ (by omega)) (fun a m hm => ?_)
      have hf := ok_frame _ _ _ _ ((parse_frames n).2.2.1 _) hm
      have := hrem p m hf.1 (parseFactor_progress _ _ _ _ hm)
      exact iTL _ m (by omega)
    · intro v p hn
      rw [expressionLoop]
      split
      · rename_i hk
        have := hadv p _ hk
        refine bind_ne_timeout _ _ (iT _ (by omega)) (fun a m hm => ?_)
        have hf := ok_frame _ _ _ _ ((parse_frames n).2.2.2.2.1 _) hm
        have := hrem p.advance m hf.1 (parseTerm_progress _ _ _ _ hm)
        exact iEL _ m (by omega)
      · simp
    · intro p hn
      rw [parseExpression]
      refine bind_ne_timeout _ _ (iT _ (by omega)) (fun a m hm => ?_)
      have hf := ok_frame _ _ _ _ ((parse_frames n).2.2.2.2.1 _) hm
      have := hrem p m hf.1 (parseTerm_progress _ _ _ _ hm)
      exact iEL _ m (by omega)

theorem expect_ne_timeout (p : Parser) (kind : String) : p.expect kind ≠ .timeout := by
  unfold Parser.expect
  split
  · split <;> simp
  · simp

theorem expect_ok (p : Parser) (kind : String) (t : Token) (q : Parser)
    (h : p.expect kind = .ok t q) :
    q = p.advance ∧ p.tokens[p.pos]? = some t ∧ t.Kind = kind := by
  unfold Parser.expect at h
  split at h
  · rename_i t0 h0
    split at h
    · rename_i hk
      simp only [Res.ok.injEq] at h
      obtain ⟨rfl, rfl⟩ := h
      exact ⟨rfl, h0, by simpa using hk⟩
    · cases h
  · cases h

theorem getElem_some_lt (l : List Token) (i : Nat) (t : Token) (h : l[i]? = some t) :
    i < l.length := by
  by_contra hlt
  rw [List.getElem?_eq_none (Nat.le_of_not_lt hlt)] at h
  cases h

/-- A successful `parseAssignment` keeps the tokens and moves the cursor past at
least three of them. -/
theorem parseAssignment_ok (fuel : Nat) (p : Parser) (name : String) (q : Parser)
    (h : parseAssignment fuel p = .ok name q) :
    q.tokens = p.tokens ∧ p.pos + 3 ≤ q.pos := by
  unfold parseAssignment at h
  obtain ⟨t1, p1, h1, ha⟩ := bind_ok _ _ _ _ h
  obtain ⟨t2, p2, h2, hb⟩ := bind_ok _ _ _ _ ha
  obtain ⟨value, p3, h3, hc⟩ := bind_ok _ _ _ _ hb
  obtain ⟨rfl, _, _⟩ := expect_ok _ _ _ _ h1
  obtain ⟨rfl, _, _⟩ := expect_ok _ _ _ _ h2
  have hf := ok_frame _ _ _ _ ((parse_frames fuel).2.2.2.2.2.2 _) h3
  have hp := parseExpression_progress _ _ _ _ h3
  injection hc with _ hq
  rw [← hq]
  simp only [Parser.advance] at hf hp
  exact ⟨hf.1, by show p.pos + 3 ≤ p3.pos; omega⟩

theorem parseAssignment_no_timeout (fuel : Nat) (p : Parser)
    (hn : 4 * p.remaining ≤ fuel + 4) : parseAssignment fuel p ≠ .timeout := by
  unfold parseAssignment
  refine bind_ne_timeout _ _ (expect_ne_timeout _ _) (fun t1 p1 h1 => ?_)
  refine bind_ne_timeout _ _ (expect_ne_timeout _ _) (fun t2 p2 h2 => ?_)
  obtain ⟨rfl, g1, _⟩ := expect_ok _ _ _ _ h1
  obtain ⟨rfl, g2, _⟩ := expect_ok _ _ _ _ h2
  have l2 := getElem_some_lt _ _ _ g2
  refine bind_ne_timeout _ _ ((parse_no_timeout fuel).2.2.2.2.2.2 _ ?_) (fun v p3 _ => by simp)
  simp only [Parser.remaining, Parser.advance] at hn l2 ⊢
  omega

theorem parseLoop_no_timeout : ∀ (fuel : Nat) (result : String) (p : Parser),
    4 * p.remaining + 1 ≤ fuel → parseLoop fuel result p ≠ .timeout := by
  intro fuel
  induction fuel with
  | zero => intro result p hn; omega
  | succ n ih =>
    intro result p hn
    rw [parseLoop]
    split
    · refine bind_ne_timeout _ _ (parseAssignment_no_timeout n p (by omega)) (fun r q hq => ?_)
      obtain ⟨h1, h2⟩ := parseAssignment_ok _ _ _ _ hq
      apply ih
      simp only [Parser.remaining, h1] at hn ⊢
      omega
    · simp

theorem parseAll_no_timeout (fuel : Nat) (p : Parser) (hn : 4 * p.remaining + 1 ≤ fuel) :
    parseAll fuel p ≠ .timeout := by
  unfold parseAll
  refine bind_ne_timeout _ _ (parseAssignment_no_timeout fuel p (by omega)) (fun r q hq => ?_)
  obtain ⟨h1, h2⟩ := parseAssignment_ok _ _ _ _ hq
  apply parseLoop_no_timeout
  simp only [Parser.remaining, h1] at hn ⊢
  omega

/-- The fuel that `Parse` supplies is always enough. -/
theorem Parse_no_timeout (p : Parser) (shouldPrint : Bool) : p.Parse shouldPrint ≠ .timeout := by
  unfold Parser.Parse
  refine bind_ne_timeout _ _ (parseAll_no_timeout _ p ?_) (fun r q _ => by split <;> simp)
  simp only [Parser.fuel, Parser.remaining]
  omega

/-- A session never ends for lack of fuel. -/
theorem calcLoop_no_timeout (lines : List String) :
    ∀ vars, (calcLoop vars lines).status ≠ .timeout := by
  induction lines with
  | nil => intro vars; simp [calcLoop]
  | cons line rest ih =>
    intro vars
    rw [calcLoop]
    have ht := tokenize_total line
    split
    · simp
    · rename_i h; exact absurd h ht
    · rename_i tokens _
      have hp := Parse_no_timeout (NewParser tokens vars) (decide (rest = []))
      split
      · simp
      · rename_i h; exact absurd h hp
      · simp only [Session.after]
        exact ih _

theorem CalcAllAndPrint_no_timeout (exprs : List String) :
    (CalcAllAndPrint exprs).status ≠ .timeout := by
  simp only [CalcAllAndPrint, Session.after]
  exact calcLoop_no_timeout exprs _

/-! ## Parenthesised operands (C11) and failed assignments (C18) -/

theorem atKind_true (p : Parser) (kind : String) (h : p.atKind kind = true) :
    ∃ t, p.tokens[p.pos]? = some t ∧ t.Kind = kind := by
  unfold Parser.atKind at h
  split at h
  · rename_i t ht
    exact ⟨t, ht, by simpa using h⟩
  · cases h

theorem atKind_unique (p : Parser) (kind other : String) (h : p.atKind kind = true)
    (hne : kind ≠ other) : p.atKind other = false := by
  obtain ⟨t, ht, hk⟩ := atKind_true p kind h
  rw [atKind_of_get p t other ht, hk]
  simpa using hne

theorem expect_eq (p : Parser) (kind : String) :
    p.expect kind =
      if p.atKind kind then
        match p.tokens[p.pos]? with
        | some t => .ok t p.advance
        | none => .panic (.expected kind) p
      else .panic (.expected kind) p := by
  unfold Parser.expect Parser.atKind
  cases p.tokens[p.pos]? with
  | none => simp
  | some t => simp

/-- C11: when `parseUnary` is at a `(` token and the inner `parseExpression`
returns `value` in state `q`, then `parseUnary` panics with `Expected )` if the
token at the cursor of `q` is missing or is not `)`, and otherwise returns
`value` with the cursor just past that `)`. -/
theorem parseUnary_paren (fuel : Nat) (p : Parser) (value : Int) (q : Parser)
    (hopen : p.atKind "(" = true)
    (hinner : parseExpression fuel p.advance = .ok value q) :
    ((∀ t, q.tokens[q.pos]? = some t → t.Kind ≠ ")") →
      parseUnary (fuel + 1) p = .panic (.expected ")") q) ∧
    (∀ t, q.tokens[q.pos]? = some t → t.Kind = ")" →
      parseUnary (fuel + 1) p = .ok value ⟨q.tokens, q.pos + 1, q.vars⟩) := by
  have h1 := atKind_unique p "(" "~" hopen (by decide)
  have h2 := atKind_unique p "(" "var" hopen (by decide)
  have h3 := atKind_unique p "(" "const" hopen (by decide)
  have hu : parseUnary (fuel + 1) p =
      (q.expect ")").bind fun _ q1 => .ok value q1 := by
    rw [parseUnary]
    simp [h1, h2, h3, hopen, hinner, Res.bind]
  rw [hu]
  constructor
  · intro h
    cases h0 : q.tokens[q.pos]? with
    | none => simp [Parser.expect, h0, Res.bind]
    | some t => simp [Parser.expect, h0, Res.bind, h t h0]
  · intro t h0 hk
    simp [Parser.expect, h0, hk, Res.bind, Parser.advance]

theorem parseUnary_paren_witness :
    parseUnary 9 ⟨[⟨"(", "("⟩, ⟨"const", "7"⟩], 0, Env.empty⟩ =
      .panic (.expected ")") ⟨[⟨"(", "("⟩, ⟨"const", "7"⟩], 2, Env.empty⟩ ∧
    parseUnary 9 ⟨[⟨"(", "("⟩, ⟨"const", "7"⟩, ⟨"=", "="⟩], 0, Env.empty⟩ =
      .panic (.expected ")") ⟨[⟨"(", "("⟩, ⟨"const", "7"⟩, ⟨"=", "="⟩], 2, Env.empty⟩ ∧
    parseUnary 9 ⟨[⟨"(", "("⟩, ⟨"const", "7"⟩, ⟨")", ")"⟩], 0, Env.empty⟩ =
      .ok 7 ⟨[⟨"(", "("⟩, ⟨"const", "7"⟩, ⟨")", ")"⟩], 3, Env.empty⟩ :=
  ⟨(parseUnary_paren 8 ⟨[⟨"(", "("⟩, ⟨"const", "7"⟩], 0, Env.empty⟩ 7
      ⟨[⟨"(", "("⟩, ⟨"const", "7"⟩], 2, Env.empty⟩ rfl rfl).1 (by simp),
   (parseUnary_paren 8 ⟨[⟨"(", "("⟩, ⟨"const", "7"⟩, ⟨"=", "="⟩], 0, Env.empty⟩ 7
      ⟨[⟨"(", "("⟩, ⟨"const", "7"⟩, ⟨"=", "="⟩], 2, Env.empty⟩ rfl rfl).1
      (by intro t ht; simp at ht; subst ht; decide),
   (parseUnary_paren 8 ⟨[⟨"(", "("⟩, ⟨"const", "7"⟩, ⟨")", ")"⟩], 0, Env.empty⟩ 7
      ⟨[⟨"(", "("⟩, ⟨"const", "7"⟩, ⟨")", ")"⟩], 2, Env.empty⟩ rfl rfl).2 ⟨")", ")"⟩ rfl rfl⟩

theorem bind_panic {α β : Type} (r : Res α) (f : α → Parser → Res β) (e : Panic) (q : Parser)
    (h : r.bind f = .panic e q) :
    r = .panic e q ∨ ∃ a m, r = .ok a m ∧ f a m = .panic e q := by
  cases r with
  | ok a m => exact Or.inr ⟨a, m, rfl, h⟩
  | panic e1 m => exact Or.inl (by simpa [Res.bind] using h)
  | timeout => simp [Res.bind] at h

theorem expect_panic (p : Parser) (kind : String) (e : Panic) (q : Parser)
    (h : p.expect kind = .panic e q) : q = p ∧ e = .expected kind := by
  unfold Parser.expect at h
  split at h
  · split at h
    · cases h
    · simp only [Res.panic.injEq] at h
      exact ⟨h.2.symm, h.1.symm⟩
  · simp only [Res.panic.injEq] at h
    exact ⟨h.2.symm, h.1.symm⟩

/-- A panic of `parseAssignment` comes from one of its two `expect` calls or from
the expression; in each case the tokens and the Environment are untouched. -/
theorem parseAssignment_panic (fuel : Nat) (p : Parser) (e : Panic) (q : Parser)
    (h : parseAssignment fuel p = .panic e q) :
    q.vars = p.vars ∧ q.tokens = p.tokens ∧ p.pos ≤ q.pos := by
  unfold parseAssignment at h
  rcases bind_panic _ _ _ _ h with h1 | ⟨t1, p1, h1, ha⟩
  · obtain ⟨rfl, _⟩ := expect_panic _ _ _ _ h1
    exact ⟨rfl, rfl, Nat.le_refl _⟩
  · obtain ⟨rfl, _, _⟩ := expect_ok _ _ _ _ h1
    rcases bind_panic _ _ _ _ ha with h2 | ⟨t2, p2, h2, hb⟩
    · obtain ⟨rfl, _⟩ := expect_panic _ _ _ _ h2
      exact ⟨rfl, rfl, Nat.le_succ _⟩
    · obtain ⟨rfl, _, _⟩ := expect_ok _ _ _ _ h2
      rcases bind_panic _ _ _ _ hb with h3 | ⟨v, p3, h3, hc⟩
      · have hfr := (parse_frames fuel).2.2.2.2.2.2 p.advance.advance
        rw [h3] at hfr
        obtain ⟨g1, g2, g3⟩ := hfr q rfl
        exact ⟨g2, g1, Nat.le_trans (Nat.le_add_right _ 2) g3⟩
      · cases hc

/-- C18: whenever `parseAssignment` panics (on a missing Variable or `=`, an
undefined variable, a constant that does not parse, or a syntax error in the
expression), the Environment at that moment is exactly the one before the call:
the target variable is neither created nor overwritten. -/
theorem parseAssignment_failure_keeps_environment (fuel : Nat) (p : Parser) (e : Panic)
    (q : Parser) (h : parseAssignment fuel p = .panic e q) :
    q.vars = p.vars ∧ ∀ name, q.vars name = p.vars name := by
  have h1 := (parseAssignment_panic fuel p e q h).1
  exact ⟨h1, fun name => by rw [h1]⟩

theorem parseAssignment_failure_keeps_environment_witness :
    parseAssignment 24
        ⟨[⟨"var", "a"⟩, ⟨"=", "="⟩, ⟨"const", "1"⟩, ⟨"|", "|"⟩, ⟨"var", "b"⟩], 0,
          Env.empty.set "a" 7⟩ =
      .panic (.undefinedVariable "b")
        ⟨[⟨"var", "a"⟩, ⟨"=", "="⟩, ⟨"const", "1"⟩, ⟨"|", "|"⟩, ⟨"var", "b"⟩], 5,
          Env.empty.set "a" 7⟩ ∧
    (⟨[⟨"var", "a"⟩, ⟨"=", "="⟩, ⟨"const", "1"⟩, ⟨"|", "|"⟩, ⟨"var", "b"⟩], 5,
        Env.empty.set "a" 7⟩ : Parser).vars "a" = some 7 :=
  ⟨rfl,
   ((parseAssignment_failure_keeps_environment 24
      ⟨[⟨"var", "a"⟩, ⟨"=", "="⟩, ⟨"const", "1"⟩, ⟨"|", "|"⟩, ⟨"var", "b"⟩], 0,
        Env.empty.set "a" 7⟩
      (.undefinedVariable "b")
      ⟨[⟨"var", "a"⟩, ⟨"=", "="⟩, ⟨"const", "1"⟩, ⟨"|", "|"⟩, ⟨"var", "b"⟩], 5,
        Env.empty.set "a" 7⟩
      rfl).2 "a").trans (Env.set_same Env.empty "a" 7)⟩

/-! ## Maximal runs (C15), blank lines (C19) and the text of the tokens (C20) -/

theorem TokRes.cons_panic (t : Token) (r : TokRes) (e : Panic) :
    r.cons t = .panic e ↔ r = .panic e := by
  cases r <;> simp [TokRes.cons]

/-- C15: the tokenizer takes maximal runs.  For a text `w` that is a letter
followed by letters and digits and a rest `s` that is empty or begins with a
character that is neither, `tokenize (w ++ s)` is the `var` token holding exactly
`w` followed by the tokens of `s`, and it panics exactly when `tokenize s` does;
for a non-empty run of digits `d` and a rest `s` that is empty or does not begin
with a digit, `tokenize (d ++ s)` is the `const` token holding exactly `d`
followed by the tokens of `s`. -/
theorem tokenize_maximal_runs (w d s : String) :
    (isVariableText w = true → (∀ c ∈ s.data.head?, isLetterOrDigit c = false) →
      (∀ ts, tokenize s = .ok ts → tokenize (w ++ s) = .ok (⟨"var", w⟩ :: ts)) ∧
      (∀ e, tokenize (w ++ s) = .panic e ↔ tokenize s = .panic e)) ∧
    (isConstantText d = true → (∀ c ∈ s.data.head?, isDigit c = false) →
      (∀ ts, tokenize s = .ok ts → tokenize (d ++ s) = .ok (⟨"const", d⟩ :: ts)) ∧
      (∀ e, tokenize (d ++ s) = .panic e ↔ tokenize s = .panic e)) := by
  constructor
  · intro hw hs
    have h : tokenize (w ++ s) = (tokenize s).cons ⟨"var", w⟩ := by
      rw [tokenize_data (w ++ s) (w.data ++ s.data) (String.data_append w s)]
      exact tokenize_variable w s.data hw hs
    rw [h]
    exact ⟨fun ts hts => by rw [hts]; rfl, fun e => TokRes.cons_panic _ _ e⟩
  · intro hd hs
    have h : tokenize (d ++ s) = (tokenize s).cons ⟨"const", d⟩ := by
      rw [tokenize_data (d ++ s) (d.data ++ s.data) (String.data_append d s)]
      exact tokenize_constant d s.data hd hs
    rw [h]
    exact ⟨fun ts hts => by rw [hts]; rfl, fun e => TokRes.cons_panic _ _ e⟩

theorem tokenize_maximal_runs_witness :
    tokenize ("x1y" ++ "=12 3") =
      .ok [⟨"var", "x1y"⟩, ⟨"=", "="⟩, ⟨"const", "12"⟩, ⟨"const", "3"⟩] ∧
    tokenize ("12" ++ " 3") = .ok [⟨"const", "12"⟩, ⟨"const", "3"⟩] :=
  ⟨((tokenize_maximal_runs "x1y" "" "=12 3").1 (by decide) (by decide)).1 _ (by decide),
   ((tokenize_maximal_runs "" "12" " 3").2 (by decide) (by decide)).1 _ (by decide)⟩

theorem tokenize_blank (l : List Char) (h : l.all isBlank = true) : tokenize ⟨l⟩ = .ok [] := by
  induction l with
  | nil => rfl
  | cons c cs ih =>
    simp only [List.all_cons, Bool.and_eq_true] at h
    rw [tokenize_cons, if_pos h.1]
    exact ih h.2

theorem Parse_no_tokens (vars : Env) (shouldPrint : Bool) :
    (NewParser [] vars).Parse shouldPrint = .panic (.expected "var") (NewParser [] vars) := by
  simp [Parser.Parse, parseAll, parseAssignment, Parser.expect, NewParser, Res.bind]

/-- A session that ends normally has no blank line. -/
theorem calcLoop_finished_no_blank (lines : List String) :
    ∀ vars, (calcLoop vars lines).status = .finished →
      ∀ line ∈ lines, line.data.all isBlank = false := by
  induction lines with
  | nil => intro vars _ line hl; cases hl
  | cons l rest ih =>
    intro vars hfin line hl
    rw [calcLoop] at hfin
    split at hfin
    · simp at hfin
    · simp at hfin
    · rename_i tokens htok
      split at hfin
      · simp at hfin
      · simp at hfin
      · rename_i printed q hp
        rcases List.mem_cons.mp hl with rfl | hmem
        · cases hb : line.data.all isBlank with
          | false => rfl
          | true =>
            have h0 := tokenize_blank line.data hb
            have h1 : tokenize line = tokenize ⟨line.data⟩ := rfl
            rw [h1, h0] at htok
            simp only [TokRes.ok.injEq] at htok
            subst htok
            rw [Parse_no_tokens] at hp
            cases hp
        · exact ih q.vars (by simpa [Session.after] using hfin) line hmem

/-- C19: for a line that is empty or holds only spaces and tabs, `tokenize`
returns no tokens and `Parse` then panics with `Expected var`, the Environment
unchanged, because it calls `parseAssignment` before testing whether a token
remains; so a session with a blank line anywhere does not end normally: it ends
in a panic. -/
theorem blank_line_aborts (line : String) (hblank : line.data.all isBlank = true) :
    tokenize line = .ok [] ∧
    (∀ vars shouldPrint,
      (NewParser [] vars).Parse shouldPrint = .panic (.expected "var") ⟨[], 0, vars⟩) ∧
    (∀ vars rest, calcLoop vars (line :: rest) =
      { out := [.text line], vars := vars, status := .panicked (.expected "var") }) ∧
    (∀ lines, line ∈ lines → ∃ e, (CalcAllAndPrint lines).status = .panicked e) := by
  have h0 : tokenize line = .ok [] := tokenize_blank line.data hblank
  refine ⟨h0, fun vars b => Parse_no_tokens vars b, ?_, ?_⟩
  · intro vars rest
    rw [calcLoop]
    simp only [h0, Parse_no_tokens]
    rfl
  · intro lines hmem
    cases hst : (CalcAllAndPrint lines).status with
    | panicked e => exact ⟨e, rfl⟩
    | timeout => exact absurd hst (CalcAllAndPrint_no_timeout lines)
    | finished =>
      have hfin : (calcLoop Env.empty lines).status = .finished := by
        simpa [CalcAllAndPrint, Session.after] using hst
      have := calcLoop_finished_no_blank lines Env.empty hfin line hmem
      rw [hblank] at this
      cases this

theorem blank_line_aborts_witness :
    tokenize " \t " = .ok [] ∧
    (CalcAllAndPrint ["a=1", " \t ", "b=2"]).status = .panicked (.expected "var") ∧
    (CalcAllAndPrint ["a=1", " \t ", "b=2"]).out =
      [.text "The read expressions are:", .text "a=1", .text " \t "] :=
  ⟨(blank_line_aborts " \t " (by decide)).1, by decide, by decide⟩

theorem operatorToken_text (c : Char) (t : Token) (h : operatorToken c = .ok t) :
    t.Value.data = [c] := by
  unfold operatorToken at h
  repeat' split at h
  all_goals first
    | (rename_i hc; simp only [Except.ok.injEq] at h; subst h; subst hc; rfl)
    | cases h

theorem filter_takeWhile_self (f g : Char → Bool) (l : List Char)
    (h : ∀ c, f c = true → g c = true) : (l.takeWhile f).filter g = l.takeWhile f := by
  rw [List.filter_eq_self]
  intro a ha
  exact h a (List.mem_takeWhile_imp ha)

theorem filter_split (f g : Char → Bool) (l : List Char)
    (h : ∀ c, f c = true → g c = true) :
    l.filter g = l.takeWhile f ++ (l.dropWhile f).filter g := by
  conv_lhs => rw [← List.takeWhile_append_dropWhile f l]
  rw [List.filter_append, filter_takeWhile_self f g l h]

theorem not_blank_of_letterOrDigit (c : Char) (h : isLetterOrDigit c = true) :
    (!isBlank c) = true := by
  cases hb : isBlank c with
  | false => rfl
  | true =>
    simp only [isLetterOrDigit, Bool.or_eq_true] at h
    rcases h with h | h
    · rw [isBlank_not_digit hb] at h; cases h
    · rw [isBlank_not_letter hb] at h; cases h

theorem not_blank_of_digit (c : Char) (h : isDigit c = true) : (!isBlank c) = true := by
  rw [isDigit_not_blank h]; rfl

/-- The texts of the tokens of a line, in order, are the line without its
spaces and tabs; each token holds at least one character. -/
theorem tokenize_text : ∀ (n : Nat) (l : List Char), l.length ≤ n →
    ∀ ts, tokenize ⟨l⟩ = .ok ts →
      (ts.map (fun t => t.Value.data)).flatten = l.filter (fun c => !isBlank c) ∧
      ts.length ≤ l.length := by
  intro n
  induction n with
  | zero =>
    intro l hl ts hts
    have : l = [] := List.length_eq_zero.mp (Nat.le_zero.mp hl)
    subst this
    rw [tokenize_nil] at hts
    simp only [TokRes.ok.injEq] at hts
    subst hts
    simp
  | succ n ih =>
    intro l hl ts hts
    cases l with
    | nil =>
      rw [tokenize_nil] at hts
      simp only [TokRes.ok.injEq] at hts
      subst hts
      simp
    | cons c cs =>
      simp only [List.length_cons, Nat.add_le_add_iff_right] at hl
      rw [tokenize_cons] at hts
      split at hts
      · rename_i hb
        obtain ⟨i1, i2⟩ := ih cs hl ts hts
        refine ⟨?_, Nat.le_succ_of_le i2⟩
        rw [i1]
        simp [List.filter_cons, hb]
      · rename_i hb
        have hnb : List.filter (fun c => !isBlank c) (c :: cs) =
            c :: List.filter (fun c => !isBlank c) cs := by
          simp [List.filter_cons, hb]
        split at hts
        · rename_i hlet
          obtain ⟨ts1, h1, rfl⟩ := TokRes.cons_ok _ _ _ hts
          have hd := length_dropWhile_le isLetterOrDigit cs
          obtain ⟨i1, i2⟩ := ih _ (Nat.le_trans hd hl) ts1 h1
          refine ⟨?_, by simp only [List.length_cons]; omega⟩
          rw [hnb,
            filter_split isLetterOrDigit _ cs not_blank_of_letterOrDigit]
          simp only [List.map_cons, List.flatten_cons, i1, List.cons_append]
        · split at hts
          · rename_i hdig
            obtain ⟨ts1, h1, rfl⟩ := TokRes.cons_ok _ _ _ hts
            have hd := length_dropWhile_le isDigit cs
            obtain ⟨i1, i2⟩ := ih _ (Nat.le_trans hd hl) ts1 h1
            refine ⟨?_, by simp only [List.length_cons]; omega⟩
            rw [hnb, filter_split isDigit _ cs not_blank_of_digit]
            simp only [List.map_cons, List.flatten_cons, i1, List.cons_append]
          · split at hts
            · rename_i t0 hop
              obtain ⟨ts1, h1, rfl⟩ := TokRes.cons_ok _ _ _ hts
              obtain ⟨i1, i2⟩ := ih cs hl ts1 h1
              refine ⟨?_, by simp only [List.length_cons]; omega⟩
              rw [hnb]
              simp only [List.map_cons, List.flatten_cons, i1, operatorToken_text c _ hop,
                List.singleton_append]
            · cases hts

/-- C20: for every line on which `tokenize` succeeds, the texts (`Value`) of the
returned tokens, concatenated in order, are exactly the line with its spaces and
tabs removed: nothing is dropped, duplicated or reordered; hence there are at
most as many tokens as the line has characters. -/
theorem tokenize_preserves_text (s : String) (ts : List Token) (h : tokenize s = .ok ts) :
    (ts.map (fun t => t.Value.data)).flatten = s.data.filter (fun c => !isBlank c) ∧
    ts.length ≤ s.data.length :=
  tokenize_text s.data.length s.data (Nat.le_refl _) ts h

theorem tokenize_preserves_text_witness :
    ([(⟨"var", "ab1"⟩ : Token), ⟨"=", "="⟩, ⟨"~", "~"⟩, ⟨"(", "("⟩, ⟨"const", "12"⟩,
        ⟨"|", "|"⟩, ⟨"var", "c"⟩, ⟨")", ")"⟩].map (fun t => t.Value.data)).flatten =
      " ab1 =\t~(12 | c ) ".data.filter (fun c => !isBlank c) ∧
    [(⟨"var", "ab1"⟩ : Token), ⟨"=", "="⟩, ⟨"~", "~"⟩, ⟨"(", "("⟩, ⟨"const", "12"⟩,
        ⟨"|", "|"⟩, ⟨"var", "c"⟩, ⟨")", ")"⟩].length ≤ " ab1 =\t~(12 | c ) ".data.length :=
  tokenize_preserves_text " ab1 =\t~(12 | c ) " _ (by decide)

/-! ## Sessions line by line (C12, C13, C14) -/

/-- One iteration of the loop of `CalcAllAndPrint`, by the outcome of the line. -/
theorem calcLoop_step (vars : Env) (line : String) (rest : List String) :
    calcLoop vars (line :: rest) =
      match lineResult vars line with
      | .ok name q =>
        (calcLoop q.vars rest).after
          (.text line :: if rest = [] then [.value ((q.vars name).getD 0)] else [])
      | .panic e q => { out := [.text line], vars := q.vars, status := .panicked e }
      | .timeout => { out := [.text line], vars := vars, status := .timeout } := by
  rw [calcLoop, lineResult]
  cases tokenize line with
  | panic e => rfl
  | timeout => rfl
  | ok tokens =>
    simp only [Parser.Parse]
    cases parseAll (NewParser tokens vars).fuel (NewParser tokens vars) with
    | panic e q => rfl
    | timeout => rfl
    | ok name q =>
      by_cases hr : rest = []
      · simp [Res.bind, hr]
      · simp [Res.bind, hr]

/-- A session stops at its first failing line: the lines before it and the line
itself have been echoed, nothing else is written, and the lines after it play no
part. -/
theorem calcLoop_abort (pre : List String) (bad : String) (rest : List String) (e : Panic)
    (q : Parser) : ∀ (vars0 vars : Env), envAfter vars0 pre = some vars →
    lineResult vars bad = .panic e q →
    calcLoop vars0 (pre ++ bad :: rest) =
      { out := (pre ++ [bad]).map .text, vars := q.vars, status := .panicked e } := by
  induction pre with
  | nil =>
    intro vars0 vars h1 h2
    simp only [envAfter, Option.some.injEq] at h1
    subst h1
    rw [List.nil_append, calcLoop_step, h2]
    rfl
  | cons l pre ih =>
    intro vars0 vars h1 h2
    rw [envAfter] at h1
    rw [List.cons_append, calcLoop_step]
    cases hl : lineResult vars0 l with
    | panic e1 q1 => rw [hl] at h1; cases h1
    | timeout => rw [hl] at h1; cases h1
    | ok name q1 =>
      rw [hl] at h1
      simp only at h1 ⊢
      rw [ih q1.vars vars h1 h2]
      simp [Session.after]

/-- A session that panics has a first failing line. -/
theorem calcLoop_panicked (lines : List String) : ∀ (vars0 : Env) (e : Panic),
    (calcLoop vars0 lines).status = .panicked e →
    ∃ pre bad rest vars q, lines = pre ++ bad :: rest ∧ envAfter vars0 pre = some vars ∧
      lineResult vars bad = .panic e q := by
  induction lines with
  | nil => intro vars0 e h; simp [calcLoop] at h
  | cons l rest ih =>
    intro vars0 e h
    rw [calcLoop_step] at h
    cases hl : lineResult vars0 l with
    | panic e1 q1 =>
      rw [hl] at h
      simp only [Status.panicked.injEq] at h
      subst h
      exact ⟨[], l, rest, vars0, q1, rfl, rfl, hl⟩
    | timeout => rw [hl] at h; simp at h
    | ok name q1 =>
      rw [hl] at h
      simp only [Session.after] at h
      obtain ⟨pre, bad, rest1, vars, q, h1, h2, h3⟩ := ih q1.vars e h
      refine ⟨l :: pre, bad, rest1, vars, q, by rw [h1]; rfl, ?_, h3⟩
      rw [envAfter, hl]
      exact h2

/-- C14: a session in which some line fails ends with the panic of its earliest
failing line: when the lines `pre` are processed successfully and the line `bad`
then panics (in `tokenize` or in `Parse`), the session ends with that panic, has
written only the header, the lines `pre` and the line `bad` (no value), and is
the same session whatever lines follow `bad`; and every session that panics is
of this form. -/
theorem session_aborts_at_first_failure :
    (∀ (pre : List String) (bad : String) (rest : List String) (vars : Env) (e : Panic)
        (q : Parser),
      envAfter Env.empty pre = some vars → lineResult vars bad = .panic e q →
      CalcAllAndPrint (pre ++ bad :: rest) =
          { out := .text "The read expressions are:" :: (pre ++ [bad]).map .text,
            vars := q.vars, status := .panicked e } ∧
        ∀ rest1, CalcAllAndPrint (pre ++ bad :: rest1) = CalcAllAndPrint (pre ++ bad :: rest)) ∧
    (∀ (lines : List String) (e : Panic), (CalcAllAndPrint lines).status = .panicked e →
      ∃ pre bad rest vars q, lines = pre ++ bad :: rest ∧
        envAfter Env.empty pre = some vars ∧ lineResult vars bad = .panic e q) := by
  have hA : ∀ (pre : List String) (bad : String) (rest : List String) (vars : Env)
      (e : Panic) (q : Parser),
      envAfter Env.empty pre = some vars → lineResult vars bad = .panic e q →
      CalcAllAndPrint (pre ++ bad :: rest) =
          { out := .text "The read expressions are:" :: (pre ++ [bad]).map .text,
            vars := q.vars, status := .panicked e } := by
    intro pre bad rest vars e q h1 h2
    rw [CalcAllAndPrint, calcLoop_abort pre bad rest e q Env.empty vars h1 h2]
    rfl
  refine ⟨fun pre bad rest vars e q h1 h2 => ⟨hA pre bad rest vars e q h1 h2, fun rest1 => ?_⟩,
    fun lines e h => ?_⟩
  · rw [hA pre bad rest vars e q h1 h2, hA pre bad rest1 vars e q h1 h2]
  · exact calcLoop_panicked lines Env.empty e (by simpa [CalcAllAndPrint, Session.after] using h)

theorem session_aborts_at_first_failure_witness :
    CalcAllAndPrint ["a=1", "b=a|c", "$$", "d=1"] =
      { out := [.text "The read expressions are:", .text "a=1", .text "b=a|c"],
        vars := Env.empty.set "a" 1, status := .panicked (.undefinedVariable "c") } ∧
    CalcAllAndPrint ["a=1", "b=a|c"] = CalcAllAndPrint ["a=1", "b=a|c", "$$", "d=1"] :=
  have h := session_aborts_at_first_failure.1 ["a=1"] "b=a|c" ["$$", "d=1"]
    (Env.empty.set "a" 1) (.undefinedVariable "c")
    ⟨[⟨"var", "b"⟩, ⟨"=", "="⟩, ⟨"var", "a"⟩, ⟨"|", "|"⟩, ⟨"var", "c"⟩], 5, Env.empty.set "a" 1⟩
    rfl rfl
  ⟨h.1, h.2 []⟩

/-- What a successful `parseAssignment` did: it read a Variable token and `=`,
evaluated the expression after them, and stored the value under the name. -/
theorem parseAssignment_inv (fuel : Nat) (p : Parser) (name : String) (q : Parser)
    (h : parseAssignment fuel p = .ok name q) :
    ∃ (tv : Token) (value : Int) (q3 : Parser),
      p.tokens[p.pos]? = some tv ∧ tv.Kind = "var" ∧ name = tv.Value ∧
      parseExpression fuel p.advance.advance = .ok value q3 ∧
      q = { q3 with vars := q3.vars.set name value } := by
  unfold parseAssignment at h
  obtain ⟨t1, p1, h1, ha⟩ := bind_ok _ _ _ _ h
  obtain ⟨t2, p2, h2, hb⟩ := bind_ok _ _ _ _ ha
  obtain ⟨value, p3, h3, hc⟩ := bind_ok _ _ _ _ hb
  obtain ⟨rfl, g1, k1⟩ := expect_ok _ _ _ _ h1
  obtain ⟨rfl, _, _⟩ := expect_ok _ _ _ _ h2
  injection hc with hn hq
  exact ⟨t1, value, p3, g1, k1, hn.symm, h3, by rw [← hq, hn]⟩

/-- The name that the loop of `Parse` leaves in `result` is the one it started
with, when no token remained, and otherwise the name returned by the last
`parseAssignment` it ran, which ended with no token remaining. -/
theorem parseLoop_last : ∀ (fuel : Nat) (result : String) (p : Parser) (name : String)
    (q : Parser), parseLoop fuel result p = .ok name q →
    (name = result ∧ q = p ∧ p.tokens.length ≤ p.pos) ∨
    (∃ n p1, parseAssignment n p1 = .ok name q ∧ p1.tokens = p.tokens ∧
      q.tokens.length ≤ q.pos) := by
  intro fuel
  induction fuel with
  | zero => intro result p name q h; simp [parseLoop] at h
  | succ n ih =>
    intro result p name q h
    rw [parseLoop] at h
    split at h
    · obtain ⟨r, m, h1, h2⟩ := bind_ok _ _ _ _ h
      have hm := (parseAssignment_ok n p r m h1).1
      rcases ih r m name q h2 with ⟨rfl, rfl, hend⟩ | ⟨n1, p1, g1, g2, g3⟩
      · exact Or.inr ⟨n, p, h1, rfl, hend⟩
      · exact Or.inr ⟨n1, p1, g1, g2.trans hm, g3⟩
    · rename_i hlt
      injection h with hn hq
      exact Or.inl ⟨hn.symm, hq.symm, Nat.le_of_not_lt hlt⟩

theorem parseAll_last (fuel : Nat) (p : Parser) (name : String) (q : Parser)
    (h : parseAll fuel p = .ok name q) :
    ∃ n p1, parseAssignment n p1 = .ok name q ∧ p1.tokens = p.tokens ∧
      q.tokens.length ≤ q.pos := by
  unfold parseAll at h
  obtain ⟨r, m, h1, h2⟩ := bind_ok _ _ _ _ h
  have hm := (parseAssignment_ok fuel p r m h1).1
  rcases parseLoop_last fuel r m name q h2 with ⟨rfl, rfl, hend⟩ | ⟨n1, p1, g1, g2, g3⟩
  · exact ⟨fuel, p, h1, rfl, hend⟩
  · exact ⟨n1, p1, g1, g2.trans hm, g3⟩

/-- A session whose last line is processed: either an earlier line stopped it, or
every line before the last was processed and the last line decides. -/
theorem calcLoop_finished (pre : List String) (last : String) : ∀ (vars0 : Env),
    (calcLoop vars0 (pre ++ [last])).status = .finished →
    ∃ vars name q, envAfter vars0 pre = some vars ∧ lineResult vars last = .ok name q ∧
      calcLoop vars0 (pre ++ [last]) =
        { out := (pre ++ [last]).map .text ++ [.value ((q.vars name).getD 0)],
          vars := q.vars, status := .finished } := by
  induction pre with
  | nil =>
    intro vars0 h
    rw [List.nil_append, calcLoop_step] at h ⊢
    cases hl : lineResult vars0 last with
    | panic e1 q1 => rw [hl] at h; simp at h
    | timeout => rw [hl] at h; simp at h
    | ok name q1 =>
      exact ⟨vars0, name, q1, rfl, hl, by simp [hl, calcLoop, Session.after]⟩
  | cons l pre ih =>
    intro vars0 h
    rw [List.cons_append, calcLoop_step] at h ⊢
    cases hl : lineResult vars0 l with
    | panic e1 q1 => rw [hl] at h; simp at h
    | timeout => rw [hl] at h; simp at h
    | ok name1 q1 =>
      rw [hl] at h
      simp only [Session.after] at h
      obtain ⟨vars, name, q, h1, h2, h3⟩ := ih q1.vars h
      refine ⟨vars, name, q, ?_, h2, ?_⟩
      · rw [envAfter, hl]; exact h1
      · simp only [h3]
        simp [Session.after]

/-- C13: in a non-empty session in which every line is processed successfully,
the output is the header, the echo of every line and then exactly one value,
after the last line; that value is bound in the final Environment to the variable
assigned by the last assignment run on the last line (the one after which no
token of that line remains), and it is the value of that assignment's
expression. -/
theorem session_reports_last_assignment (pre : List String) (last : String)
    (hfin : (CalcAllAndPrint (pre ++ [last])).status = .finished) :
    ∃ (name : String) (value : Int) (fuel : Nat) (p q3 q : Parser),
      (CalcAllAndPrint (pre ++ [last])).out =
        .text "The read expressions are:" :: (pre ++ [last]).map .text ++ [.value value] ∧
      (CalcAllAndPrint (pre ++ [last])).vars name = some value ∧
      tokenize last = .ok p.tokens ∧
      parseAssignment fuel p = .ok name q ∧
      q.vars = (CalcAllAndPrint (pre ++ [last])).vars ∧
      q.tokens.length ≤ q.pos ∧
      parseExpression fuel p.advance.advance = .ok value q3 := by
  have hfin1 : (calcLoop Env.empty (pre ++ [last])).status = .finished := by
    simpa [CalcAllAndPrint, Session.after] using hfin
  obtain ⟨vars, name, q, h1, h2, h3⟩ := calcLoop_finished pre last Env.empty hfin1
  unfold lineResult at h2
  cases htok : tokenize last with
  | panic e => rw [htok] at h2; cases h2
  | timeout => rw [htok] at h2; cases h2
  | ok tokens =>
    rw [htok] at h2
    simp only at h2
    obtain ⟨n, p1, g1, g2, g3⟩ := parseAll_last _ _ _ _ h2
    obtain ⟨tv, value, q3, _, _, _, g5, g6⟩ := parseAssignment_inv n p1 name q g1
    have hval : q.vars name = some value := by rw [g6]; simp
    refine ⟨name, value, n, p1, q3, q, ?_, ?_, ?_, g1, ?_, g3, g5⟩
    · rw [CalcAllAndPrint, h3, hval]
      simp [Session.after]
    · rw [CalcAllAndPrint, h3]
      exact hval
    · rw [g2]; rfl
    · rw [CalcAllAndPrint, h3]; rfl

theorem session_reports_last_assignment_witness :
    (CalcAllAndPrint (["a=5"] ++ ["b=a&3 c=~b"])).out =
      [.text "The read expressions are:", .text "a=5", .text "b=a&3 c=~b", .value (-2)] ∧
    ∃ (name : String) (value : Int) (fuel : Nat) (p q3 q : Parser),
      (CalcAllAndPrint (["a=5"] ++ ["b=a&3 c=~b"])).out =
        .text "The read expressions are:" :: (["a=5"] ++ ["b=a&3 c=~b"]).map .text ++
          [.value value] ∧
      (CalcAllAndPrint (["a=5"] ++ ["b=a&3 c=~b"])).vars name = some value ∧
      tokenize "b=a&3 c=~b" = .ok p.tokens ∧
      parseAssignment fuel p = .ok name q ∧
      q.vars = (CalcAllAndPrint (["a=5"] ++ ["b=a&3 c=~b"])).vars ∧
      q.tokens.length ≤ q.pos ∧
      parseExpression fuel p.advance.advance = .ok value q3 :=
  ⟨by decide, session_reports_last_assignment ["a=5"] "b=a&3 c=~b" (by decide)⟩

/-! ## More fuel does not change a run -/

theorem bind_mono {α β : Type} (r r1 : Res α) (f f1 : α → Parser → Res β)
    (h : r.bind f ≠ .timeout) (hr : r ≠ .timeout → r1 = r)
    (hf : ∀ a m, r = .ok a m → f a m ≠ .timeout → f1 a m = f a m) :
    r1.bind f1 = r.bind f := by
  cases r with
  | ok a m =>
    rw [hr (by simp)]
    exact hf a m rfl h
  | panic e m =>
    rw [hr (by simp)]
    rfl
  | timeout => exact absurd rfl h

/-- A run of a procedure of the expression grammar that did not run out of fuel
is the same with one more unit of fuel. -/
theorem parse_mono : ∀ fuel : Nat,
    (∀ p, parseUnary fuel p ≠ .timeout → parseUnary (fuel + 1) p = parseUnary fuel p) ∧
    (∀ v p, factorLoop fuel v p ≠ .timeout → factorLoop (fuel + 1) v p = factorLoop fuel v p) ∧
    (∀ p, parseFactor fuel p ≠ .timeout → parseFactor (fuel + 1) p = parseFactor fuel p) ∧
    (∀ v p, termLoop fuel v p ≠ .timeout → termLoop (fuel + 1) v p = termLoop fuel v p) ∧
    (∀ p, parseTerm fuel p ≠ .timeout → parseTerm (fuel + 1) p = parseTerm fuel p) ∧
    (∀ v p, expressionLoop fuel v p ≠ .timeout →
      expressionLoop (fuel + 1) v p = expressionLoop fuel v p) ∧
    (∀ p, parseExpression fuel p ≠ .timeout →
      parseExpression (fuel + 1) p = parseExpression fuel p) := by
  intro fuel
  induction fuel with
  | zero =>
    refine ⟨?_, ?_, ?_, ?_, ?_, ?_, ?_⟩ <;> intros <;>
      simp [parseUnary, factorLoop, parseFactor, termLoop, parseTerm, expressionLoop,
        parseExpression] at *
  | succ n ih =>
    obtain ⟨iU, iFL, iF, iTL, iT, iEL, iE⟩ := ih
    refine ⟨?_, ?_, ?_, ?_, ?_, ?_, ?_⟩
    · intro p hne
      conv_lhs => rw [parseUnary]
      conv_rhs => rw [parseUnary]
      rw [parseUnary] at hne
      split
      · rename_i hk
        rw [if_pos hk] at hne
        exact bind_mono _ _ _ _ hne (iU _) (fun _ _ _ _ => rfl)
      · rename_i hk1
        rw [if_neg hk1] at hne
        split
        · rfl
        · rename_i hk2
          rw [if_neg hk2] at hne
          split
          · rfl
          · rename_i hk3
            rw [if_neg hk3] at hne
            split
            · rename_i hk4
              rw [if_pos hk4] at hne
              exact bind_mono _ _ _ _ hne (iE _) (fun _ _ _ _ => rfl)
            · rfl
    · intro v p hne
      conv_lhs => rw [factorLoop]
      conv_rhs => rw [factorLoop]
      rw [factorLoop] at hne
      split
      · rename_i hk
        rw [if_pos hk] at hne
        exact bind_mono _ _ _ _ hne (iU _) (fun a m _ h => iFL _ m h)
      · rfl
    · intro p hne
      conv_lhs => rw [parseFactor]
      conv_rhs => rw [parseFactor]
      rw [parseFactor] at hne
      exact bind_mono _ _ _ _ hne (iU _) (fun a m _ h => iFL _ m h)
    · intro v p hne
      conv_lhs => rw [termLoop]
      conv_rhs => rw [termLoop]
      rw [termLoop] at hne
      split
      · rename_i hk
        rw [if_pos hk] at hne
        exact bind_mono _ _ _ _ hne (iF _) (fun a m _ h => iTL _ m h)
      · rfl
    · intro p hne
      conv_lhs => rw [parseTerm]
      conv_rhs => rw [parseTerm]
      rw [parseTerm] at hne
      exact bind_mono _ _ _ _ hne (iF _) (fun a m _ h => iTL _ m h)
    · intro v p hne
      conv_lhs => rw [expressionLoop]
      conv_rhs => rw [expressionLoop]
      rw [expressionLoop] at hne
      split
      · rename_i hk
        rw [if_pos hk] at hne
        exact bind_mono _ _ _ _ hne (iT _) (fun a m _ h => iEL _ m h)
      · rfl
    · intro p hne
      conv_lhs => rw [parseExpression]
      conv_rhs => rw [parseExpression]
      rw [parseExpression] at hne
      exact bind_mono _ _ _ _ hne (iT _) (fun a m _ h => iEL _ m h)

theorem parseAssignment_mono (fuel : Nat) (p : Parser)
    (hne : parseAssignment fuel p ≠ .timeout) :
    parseAssignment (fuel + 1) p = parseAssignment fuel p := by
  unfold parseAssignment at hne ⊢
  refine bind_mono _ _ _ _ hne (fun _ => rfl) (fun t1 p1 _ h1 => ?_)
  refine bind_mono _ _ _ _ h1 (fun _ => rfl) (fun t2 p2 _ h2 => ?_)
  exact bind_mono _ _ _ _ h2 ((parse_mono fuel).2.2.2.2.2.2 p2) (fun _ _ _ _ => rfl)

theorem parseLoop_mono : ∀ (fuel : Nat) (result : String) (p : Parser),
    parseLoop fuel result p ≠ .timeout →
    parseLoop (fuel + 1) result p = parseLoop fuel result p := by
  intro fuel
  induction fuel with
  | zero => intro result p h; simp [parseLoop] at h
  | succ n ih =>
    intro result p hne
    conv_lhs => rw [parseLoop]
    conv_rhs => rw [parseLoop]
    rw [parseLoop] at hne
    split
    · rename_i hk
      rw [if_pos hk] at hne
      exact bind_mono _ _ _ _ hne (parseAssignment_mono n p) (fun r m _ h => ih r m h)
    · rfl

theorem parseAll_mono (fuel : Nat) (p : Parser) (hne : parseAll fuel p ≠ .timeout) :
    parseAll (fuel + 1) p = parseAll fuel p := by
  unfold parseAll at hne ⊢
  exact bind_mono _ _ _ _ hne (parseAssignment_mono fuel p)
    (fun r m _ h => parseLoop_mono fuel r m h)

/-- A run that did not run out of fuel is the same with any larger fuel. -/
theorem mono_le {α : Type} (f : Nat → Res α)
    (hstep : ∀ n, f n ≠ .timeout → f (n + 1) = f n) (n : Nat) (hne : f n ≠ .timeout) :
    ∀ m, n ≤ m → f m = f n := by
  intro m hm
  induction m with
  | zero =>
    have : n = 0 := Nat.le_zero.mp hm
    subst this; rfl
  | succ m ih =>
    rcases Nat.eq_or_lt_of_le hm with h | h
    · rw [h]
    · have hle : n ≤ m := Nat.le_of_lt_succ h
      have hm1 := ih hle
      rw [hstep m (by rw [hm1]; exact hne), hm1]

/-! ## Tokens left after the first assignment (C12) -/

theorem parseLoop_step (fuel : Nat) (result : String) (p : Parser)
    (h : p.pos < p.tokens.length) :
    parseLoop (fuel + 1) result p = (parseAssignment fuel p).bind fun r q => parseLoop fuel r q := by
  rw [parseLoop, if_pos h]

theorem parseLoop_done (fuel : Nat) (result : String) (p : Parser)
    (h : p.tokens.length ≤ p.pos) : parseLoop (fuel + 1) result p = .ok result p := by
  rw [parseLoop, if_neg (Nat.not_lt.mpr h)]

theorem parseAssignment_at (n m : Nat) (p : Parser) (name : String) (q : Parser)
    (h : parseAssignment n p = .ok name q) (hm : 4 * p.remaining ≤ m + 4) :
    parseAssignment m p = .ok name q := by
  have hne := parseAssignment_no_timeout m p hm
  rcases Nat.le_total m n with hle | hle
  · have := mono_le (fun k => parseAssignment k p) (fun k => parseAssignment_mono k p) m hne n hle
    simp only at this
    rw [← this, h]
  · have := mono_le (fun k => parseAssignment k p) (fun k => parseAssignment_mono k p) n
      (by simp only [h]; intro hc; cases hc) m hle
    simp only at this
    rw [this, h]

/-- The claim C12 fails on the line `a=1 b=2`: after the expression of the first
assignment three tokens are left, and `Parse` succeeds and reports 2. -/
theorem trailing_tokens_counterexample :
    tokenize "a=1 b=2" =
      .ok [⟨"var", "a"⟩, ⟨"=", "="⟩, ⟨"const", "1"⟩, ⟨"var", "b"⟩, ⟨"=", "="⟩, ⟨"const", "2"⟩] ∧
    parseAssignment 28
        (NewParser [⟨"var", "a"⟩, ⟨"=", "="⟩, ⟨"const", "1"⟩, ⟨"var", "b"⟩, ⟨"=", "="⟩,
          ⟨"const", "2"⟩] Env.empty) =
      .ok "a" ⟨[⟨"var", "a"⟩, ⟨"=", "="⟩, ⟨"const", "1"⟩, ⟨"var", "b"⟩, ⟨"=", "="⟩,
          ⟨"const", "2"⟩], 3, Env.empty.set "a" 1⟩ ∧
    (NewParser [⟨"var", "a"⟩, ⟨"=", "="⟩, ⟨"const", "1"⟩, ⟨"var", "b"⟩, ⟨"=", "="⟩,
          ⟨"const", "2"⟩] Env.empty).Parse true =
      .ok [.value 2] ⟨[⟨"var", "a"⟩, ⟨"=", "="⟩, ⟨"const", "1"⟩, ⟨"var", "b"⟩, ⟨"=", "="⟩,
          ⟨"const", "2"⟩], 6, (Env.empty.set "a" 1).set "b" 2⟩ ∧
    (CalcAllAndPrint ["a=1 b=2"]).status = .finished :=
  ⟨by decide, rfl, rfl, by decide⟩

/-- C12 (amended): a line may hold several assignments.  When tokens are left
after the expression of the first assignment, `Parse` runs `parseAssignment`
again from the first of them: it panics with `Expected var` when that token is
not a Variable, with `Expected =` when it is a Variable not followed by `=`, and
when that second assignment succeeds and leaves no token, `Parse` succeeds and
reports the variable it assigned. -/
theorem trailing_tokens_are_further_assignments (tokens : List Token) (vars : Env)
    (shouldPrint : Bool) (name : String) (q : Parser)
    (hfirst : parseAssignment (NewParser tokens vars).fuel (NewParser tokens vars) = .ok name q)
    (hleft : q.pos < q.tokens.length) :
    ((∀ t, q.tokens[q.pos]? = some t → t.Kind ≠ "var") →
      (NewParser tokens vars).Parse shouldPrint = .panic (.expected "var") q) ∧
    (∀ tv, q.tokens[q.pos]? = some tv → tv.Kind = "var" →
      (∀ t, q.tokens[q.pos + 1]? = some t → t.Kind ≠ "=") →
      (NewParser tokens vars).Parse shouldPrint = .panic (.expected "=") q.advance) ∧
    (∀ n name2 q2, parseAssignment n q = .ok name2 q2 → q2.tokens.length ≤ q2.pos →
      (NewParser tokens vars).Parse shouldPrint =
        .ok (if shouldPrint then [.value ((q2.vars name2).getD 0)] else []) q2) := by
  have hq := (parseAssignment_ok _ _ _ _ hfirst).1
  have hall : parseAll (NewParser tokens vars).fuel (NewParser tokens vars) =
      (parseAssignment (4 * tokens.length + 3) q).bind
        fun r m => parseLoop (4 * tokens.length + 3) r m := by
    rw [parseAll, hfirst]
    simp only [Res.bind, Parser.fuel, NewParser]
    exact parseLoop_step _ name q hleft
  refine ⟨?_, ?_, ?_⟩
  · intro h
    have hp : parseAssignment (4 * tokens.length + 3) q = .panic (.expected "var") q := by
      cases h0 : q.tokens[q.pos]? with
      | none => simp [parseAssignment, Parser.expect, h0, Res.bind]
      | some t => simp [parseAssignment, Parser.expect, h0, Res.bind, h t h0]
    rw [Parser.Parse, hall, hp]
    rfl
  · intro tv h0 hk h
    have hp : parseAssignment (4 * tokens.length + 3) q = .panic (.expected "=") q.advance := by
      cases h1 : q.tokens[q.pos + 1]? with
      | none => simp [parseAssignment, Parser.expect, h0, hk, Res.bind, Parser.advance, h1]
      | some t =>
        simp [parseAssignment, Parser.expect, h0, hk, Res.bind, Parser.advance, h1, h t h1]
    rw [Parser.Parse, hall, hp]
    rfl
  · intro n name2 q2 h2 hend
    have hrem : 4 * q.remaining ≤ 4 * tokens.length + 3 + 4 := by
      simp only [Parser.remaining, hq, NewParser]
      omega
    have hp := parseAssignment_at n (4 * tokens.length + 3) q name2 q2 h2 hrem
    rw [Parser.Parse, hall, hp]
    simp only [Res.bind]
    rw [parseLoop_done _ name2 q2 hend]
    cases shouldPrint <;> rfl

theorem trailing_tokens_are_further_assignments_witness :
    (NewParser [⟨"var", "a"⟩, ⟨"=", "="⟩, ⟨"const", "1"⟩, ⟨")", ")"⟩] Env.empty).Parse true =
      .panic (.expected "var")
        ⟨[⟨"var", "a"⟩, ⟨"=", "="⟩, ⟨"const", "1"⟩, ⟨")", ")"⟩], 3, Env.empty.set "a" 1⟩ ∧
    (NewParser [⟨"var", "a"⟩, ⟨"=", "="⟩, ⟨"const", "1"⟩, ⟨"var", "b"⟩] Env.empty).Parse true =
      .panic (.expected "=")
        ⟨[⟨"var", "a"⟩, ⟨"=", "="⟩, ⟨"const", "1"⟩, ⟨"var", "b"⟩], 4, Env.empty.set "a" 1⟩ ∧
    (NewParser [⟨"var", "a"⟩, ⟨"=", "="⟩, ⟨"const", "1"⟩, ⟨"var", "b"⟩, ⟨"=", "="⟩,
        ⟨"const", "2"⟩] Env.empty).Parse true =
      .ok [.value 2] ⟨[⟨"var", "a"⟩, ⟨"=", "="⟩, ⟨"const", "1"⟩, ⟨"var", "b"⟩, ⟨"=", "="⟩,
        ⟨"const", "2"⟩], 6, (Env.empty.set "a" 1).set "b" 2⟩ :=
  ⟨(trailing_tokens_are_further_assignments
      [⟨"var", "a"⟩, ⟨"=", "="⟩, ⟨"const", "1"⟩, ⟨")", ")"⟩] Env.empty true "a"
      ⟨[⟨"var", "a"⟩, ⟨"=", "="⟩, ⟨"const", "1"⟩, ⟨")", ")"⟩], 3, Env.empty.set "a" 1⟩
      rfl (by decide)).1 (by intro t ht; simp at ht; subst ht; decide),
   (trailing_tokens_are_further_assignments
      [⟨"var", "a"⟩, ⟨"=", "="⟩, ⟨"const", "1"⟩, ⟨"var", "b"⟩] Env.empty true "a"
      ⟨[⟨"var", "a"⟩, ⟨"=", "="⟩, ⟨"const", "1"⟩, ⟨"var", "b"⟩], 3, Env.empty.set "a" 1⟩
      rfl (by decide)).2.1 ⟨"var", "b"⟩ rfl rfl (by simp),
   (trailing_tokens_are_further_assignments
      [⟨"var", "a"⟩, ⟨"=", "="⟩, ⟨"const", "1"⟩, ⟨"var", "b"⟩, ⟨"=", "="⟩, ⟨"const", "2"⟩]
      Env.empty true "a"
      ⟨[⟨"var", "a"⟩, ⟨"=", "="⟩, ⟨"const", "1"⟩, ⟨"var", "b"⟩, ⟨"=", "="⟩, ⟨"const", "2"⟩], 3,
        Env.empty.set "a" 1⟩
      rfl (by decide)).2.2 8 "b"
      ⟨[⟨"var", "a"⟩, ⟨"=", "="⟩, ⟨"const", "1"⟩, ⟨"var", "b"⟩, ⟨"=", "="⟩, ⟨"const", "2"⟩], 6,
        (Env.empty.set "a" 1).set "b" 2⟩
      rfl (by decide)⟩

/-! ## A line inside a longer token stream (C16) -/

theorem Embeds_get (pre ex : List Token) (p P : Parser) (h : Embeds pre ex p P)
    (hlt : p.pos < p.tokens.length) : P.tokens[P.pos]? = p.tokens[p.pos]? := by
  obtain ⟨h1, h2, _, _⟩ := h
  rw [h1, h2, List.getElem?_append_right (Nat.le_add_right _ _), Nat.add_sub_cancel_left,
    List.getElem?_append_left hlt]

theorem Embeds_atKind (pre ex : List Token) (p P : Parser) (h : Embeds pre ex p P)
    (hlt : p.pos < p.tokens.length) (kind : String) : P.atKind kind = p.atKind kind := by
  simp only [Parser.atKind, Embeds_get pre ex p P h hlt]

theorem Embeds_atKind_op (pre ex : List Token) (p P : Parser) (h : Embeds pre ex p P)
    (kind : String) (hex : ∀ t ∈ ex.head?, t.Kind ≠ kind) : P.atKind kind = p.atKind kind := by
  by_cases hlt : p.pos < p.tokens.length
  · exact Embeds_atKind pre ex p P h hlt kind
  · obtain ⟨h1, h2, _, h4⟩ := h
    have hpos : p.pos = p.tokens.length := Nat.le_antisymm h4 (Nat.le_of_not_lt hlt)
    rw [atKind_at_end p kind (Nat.le_of_not_lt hlt)]
    have hP : P = ⟨(pre ++ p.tokens) ++ ex, (pre ++ p.tokens).length, P.vars⟩ := by
      cases P
      simp only [Parser.mk.injEq] at h1 h2 ⊢
      exact ⟨by rw [h1, List.append_assoc], by rw [h2, hpos, List.length_append], trivial⟩
    rw [hP]
    exact atKind_follow _ ex _ kind hex

theorem Embeds_advance (pre ex : List Token) (p P : Parser) (h : Embeds pre ex p P)
    (hlt : p.pos < p.tokens.length) : Embeds pre ex p.advance P.advance := by
  obtain ⟨h1, h2, h3, _⟩ := h
  exact ⟨h1, by simp only [Parser.advance, h2]; omega, h3, hlt⟩

theorem Embeds_lastValue (pre ex : List Token) (p P : Parser) (h : Embeds pre ex p P)
    (hlt : p.pos < p.tokens.length) : P.advance.lastValue = p.advance.lastValue := by
  simp only [Parser.lastValue, Parser.advance, Nat.add_sub_cancel, Embeds_get pre ex p P h hlt]

theorem Embeds_expect (pre ex : List Token) (p P : Parser) (h : Embeds pre ex p P)
    (kind : String) (t : Token) (q : Parser) (he : p.expect kind = .ok t q) :
    P.expect kind = .ok t P.advance ∧ Embeds pre ex q P.advance := by
  obtain ⟨rfl, g1, g2⟩ := expect_ok _ _ _ _ he
  have hlt := getElem_some_lt _ _ _ g1
  refine ⟨?_, Embeds_advance pre ex p P h hlt⟩
  simp only [Parser.expect, Embeds_get pre ex p P h hlt, g1, g2, beq_self_eq_true, if_true]

/-- A successful run of a procedure of the expression grammar is repeated, with
the same fuel and the same value, inside any longer token sequence whose next
token (if any) is not a binary operator. -/
theorem parse_embeds (pre ex : List Token)
    (hex : ∀ t ∈ ex.head?, t.Kind ≠ "&" ∧ t.Kind ≠ "^" ∧ t.Kind ≠ "|") : ∀ fuel : Nat,
    (∀ p v q, parseUnary fuel p = .ok v q → ∀ P, Embeds pre ex p P →
      ∃ Q, parseUnary fuel P = .ok v Q ∧ Embeds pre ex q Q) ∧
    (∀ w p v q, factorLoop fuel w p = .ok v q → ∀ P, Embeds pre ex p P →
      ∃ Q, factorLoop fuel w P = .ok v Q ∧ Embeds pre ex q Q) ∧
    (∀ p v q, parseFactor fuel p = .ok v q → ∀ P, Embeds pre ex p P →
      ∃ Q, parseFactor fuel P = .ok v Q ∧ Embeds pre ex q Q) ∧
    (∀ w p v q, termLoop fuel w p = .ok v q → ∀ P, Embeds pre ex p P →
      ∃ Q, termLoop fuel w P = .ok v Q ∧ Embeds pre ex q Q) ∧
    (∀ p v q, parseTerm fuel p = .ok v q → ∀ P, Embeds pre ex p P →
      ∃ Q, parseTerm fuel P = .ok v Q ∧ Embeds pre ex q Q) ∧
    (∀ w p v q, expressionLoop fuel w p = .ok v q → ∀ P, Embeds pre ex p P →
      ∃ Q, expressionLoop fuel w P = .ok v Q ∧ Embeds pre ex q Q) ∧
    (∀ p v q, parseExpression fuel p = .ok v q → ∀ P, Embeds pre ex p P →
      ∃ Q, parseExpression fuel P = .ok v Q ∧ Embeds pre ex q Q) := by
  have hamp : ∀ t ∈ ex.head?, t.Kind ≠ "&" := fun t ht => (hex t ht).1
  have hxor : ∀ t ∈ ex.head?, t.Kind ≠ "^" := fun t ht => (hex t ht).2.1
  have hor : ∀ t ∈ ex.head?, t.Kind ≠ "|" := fun t ht => (hex t ht).2.2
  intro fuel
  induction fuel with
  | zero =>
    refine ⟨?_, ?_, ?_, ?_, ?_, ?_, ?_⟩ <;> intros <;>
      simp [parseUnary, factorLoop, parseFactor, termLoop, parseTerm, expressionLoop,
        parseExpression] at *
  | succ n ih =>
    obtain ⟨iU, iFL, iF, iTL, iT, iEL, iE⟩ := ih
    refine ⟨?_, ?_, ?_, ?_, ?_, ?_, ?_⟩
    · intro p v q h P hP
      by_cases hlt : p.pos < p.tokens.length
      · have hA := Embeds_atKind pre ex p P hP hlt
        have hL := Embeds_lastValue pre ex p P hP hlt
        have hAdv := Embeds_advance pre ex p P hP hlt
        have hV : P.advance.vars = p.advance.vars := hAdv.2.2.1
        rw [parseUnary] at h ⊢
        simp only [hA, hL, hV]
        split at h
        · rename_i hk1
          rw [if_pos hk1]
          obtain ⟨a, m, h1, h2⟩ := bind_ok _ _ _ _ h
          obtain ⟨M, g1, g2⟩ := iU _ _ _ h1 _ hAdv
          injection h2 with hv hq
          subst hv hq
          exact ⟨M, by rw [g1]; rfl, g2⟩
        · rename_i hk1
          rw [if_neg hk1]
          split at h
          · rename_i hk2
            rw [if_pos hk2]
            split at h
            · rename_i value heq
              injection h with hv hq
              subst hv hq
              exact ⟨P.advance, rfl, hAdv⟩
            · cases h
          · rename_i hk2
            rw [if_neg hk2]
            split at h
            · rename_i hk3
              rw [if_pos hk3]
              split at h
              · rename_i value heq
                injection h with hv hq
                subst hv hq
                exact ⟨P.advance, rfl, hAdv⟩
              · cases h
            · rename_i hk3
              rw [if_neg hk3]
              split at h
              · rename_i hk4
                rw [if_pos hk4]
                obtain ⟨a, m, h1, h2⟩ := bind_ok _ _ _ _ h
                obtain ⟨M, g1, g2⟩ := iE _ _ _ h1 _ hAdv
                obtain ⟨t, m1, h3, h4⟩ := bind_ok _ _ _ _ h2
                obtain ⟨k1, k2⟩ := Embeds_expect pre ex m M g2 ")" t m1 h3
                injection h4 with hv hq
                subst hv hq
                exact ⟨M.advance, by rw [g1]; simp only [Res.bind, k1], k2⟩
              · cases h
      · have hend := Nat.le_of_not_lt hlt
        rw [parseUnary] at h
        simp [atKind_at_end p _ hend] at h
    · intro w p v q h P hP
      rw [factorLoop] at h ⊢
      rw [Embeds_atKind_op pre ex p P hP "&" hamp]
      split at h
      · rename_i hk
        have hlt := atKind_lt p _ hk
        have hAdv := Embeds_advance pre ex p P hP hlt
        obtain ⟨a, m, h1, h2⟩ := bind_ok _ _ _ _ h
        obtain ⟨M, g1, g2⟩ := iU _ _ _ h1 _ hAdv
        obtain ⟨Q, k1, k2⟩ := iFL _ _ _ _ h2 _ g2
        exact ⟨Q, by rw [if_pos hk, g1]; exact k1, k2⟩
      · rename_i hk
        injection h with hv hq
        subst hv hq
        exact ⟨P, by rw [if_neg hk], hP⟩
    · intro p v q h P hP
      rw [parseFactor] at h ⊢
      obtain ⟨a, m, h1, h2⟩ := bind_ok _ _ _ _ h
      obtain ⟨M, g1, g2⟩ := iU _ _ _ h1 _ hP
      obtain ⟨Q, k1, k2⟩ := iFL _ _ _ _ h2 _ g2
      exact ⟨Q, by rw [g1]; exact k1, k2⟩
    · intro w p v q h P hP
      rw [termLoop] at h ⊢
      rw [Embeds_atKind_op pre ex p P hP "^" hxor]
      split at h
      · rename_i hk
        have hlt := atKind_lt p _ hk
        have hAdv := Embeds_advance pre ex p P hP hlt
        obtain ⟨a, m, h1, h2⟩ := bind_ok _ _ _ _ h
        obtain ⟨M, g1, g2⟩ := iF _ _ _ h1 _ hAdv
        obtain ⟨Q, k1, k2⟩ := iTL _ _ _ _ h2 _ g2
        exact ⟨Q, by rw [if_pos hk, g1]; exact k1, k2⟩
      · rename_i hk
        injection h with hv hq
        subst hv hq
        exact ⟨P, by rw [if_neg hk], hP⟩
    · intro p v q h P hP
      rw [parseTerm] at h ⊢
      obtain ⟨a, m, h1, h2⟩ := bind_ok _ _ _ _ h
      obtain ⟨M, g1, g2⟩ := iF _ _ _ h1 _ hP
      obtain ⟨Q, k1, k2⟩ := iTL _ _ _ _ h2 _ g2
      exact ⟨Q, by rw [g1]; exact k1, k2⟩
    · intro w p v q h P hP
      rw [expressionLoop] at h ⊢
      rw [Embeds_atKind_op pre ex p P hP "|" hor]
      split at h
      · rename_i hk
        have hlt := atKind_lt p _ hk
        have hAdv := Embeds_advance pre ex p P hP hlt
        obtain ⟨a, m, h1, h2⟩ := bind_ok _ _ _ _ h
        obtain ⟨M, g1, g2⟩ := iT _ _ _ h1 _ hAdv
        obtain ⟨Q, k1, k2⟩ := iEL _ _ _ _ h2 _ g2
        exact ⟨Q, by rw [if_pos hk, g1]; exact k1, k2⟩
      · rename_i hk
        injection h with hv hq
        subst hv hq
        exact ⟨P, by rw [if_neg hk], hP⟩
    · intro p v q h P hP
      rw [parseExpression] at h ⊢
      obtain ⟨a, m, h1, h2⟩ := bind_ok _ _ _ _ h
      obtain ⟨M, g1, g2⟩ := iT _ _ _ h1 _ hP
      obtain ⟨Q, k1, k2⟩ := iEL _ _ _ _ h2 _ g2
      exact ⟨Q, by rw [g1]; exact k1, k2⟩

theorem parseAssignment_embeds (pre ex : List Token)
    (hex : ∀ t ∈ ex.head?, t.Kind ≠ "&" ∧ t.Kind ≠ "^" ∧ t.Kind ≠ "|")
    (fuel : Nat) (p : Parser) (name : String) (q : Parser)
    (h : parseAssignment fuel p = .ok name q) (P : Parser) (hP : Embeds pre ex p P) :
    ∃ Q, parseAssignment fuel P = .ok name Q ∧ Embeds pre ex q Q := by
  unfold parseAssignment at h ⊢
  obtain ⟨t1, p1, h1, ha⟩ := bind_ok _ _ _ _ h
  obtain ⟨t2, p2, h2, hb⟩ := bind_ok _ _ _ _ ha
  obtain ⟨value, p3, h3, hc⟩ := bind_ok _ _ _ _ hb
  obtain ⟨k1, e1⟩ := Embeds_expect pre ex p P hP "var" t1 p1 h1
  obtain ⟨k2, e2⟩ := Embeds_expect pre ex p1 P.advance e1 "=" t2 p2 h2
  obtain ⟨Q3, k3, e3⟩ := (parse_embeds pre ex hex fuel).2.2.2.2.2.2 _ _ _ h3 _ e2
  injection hc with hn hq
  subst hn hq
  refine ⟨{ Q3 with vars := Q3.vars.set t1.Value value }, ?_, ?_⟩
  · simp only [k1, Res.bind, k2, k3]
  · obtain ⟨g1, g2, g3, g4⟩ := e3
    exact ⟨g1, g2, by simp only [g3], g4⟩

theorem Embeds_lt (pre ex : List Token) (p P : Parser) (h : Embeds pre ex p P)
    (hlt : p.pos < p.tokens.length) : P.pos < P.tokens.length := by
  obtain ⟨h1, h2, _, _⟩ := h
  rw [h1, h2]
  simp only [List.length_append]
  omega

theorem parseAssignment_fuel (n m : Nat) (p : Parser) (name : String) (q : Parser)
    (h : parseAssignment n p = .ok name q) (hm : n ≤ m) : parseAssignment m p = .ok name q := by
  have := mono_le (fun k => parseAssignment k p) (fun k => parseAssignment_mono k p) n
    (by simp only [h]; intro hc; cases hc) m hm
  simp only at this
  rw [this, h]

/-- The loop of `Parse` on a line, seen inside a longer token stream: the same
assignments are run, and the loop then stands at the end of the line, ready to go
on with what follows. -/
theorem parseLoop_embeds (pre ex : List Token)
    (hex : ∀ t ∈ ex.head?, t.Kind ≠ "&" ∧ t.Kind ≠ "^" ∧ t.Kind ≠ "|") :
    ∀ (fuel : Nat) (result : String) (p : Parser) (name : String) (q : Parser),
    parseLoop fuel result p = .ok name q → ∀ P, Embeds pre ex p P →
    ∃ Q k, Embeds pre ex q Q ∧ q.pos = q.tokens.length ∧
      ∀ M, fuel ≤ M → parseLoop (k + M) result P = parseLoop M name Q := by
  intro fuel
  induction fuel with
  | zero => intro result p name q h; simp [parseLoop] at h
  | succ n ih =>
    intro result p name q h P hP
    by_cases hlt : p.pos < p.tokens.length
    · rw [parseLoop_step n result p hlt] at h
      obtain ⟨r1, p1, h1, h2⟩ := bind_ok _ _ _ _ h
      obtain ⟨P1, g1, e1⟩ := parseAssignment_embeds pre ex hex n p r1 p1 h1 P hP
      obtain ⟨Q, k, e2, hend, hk⟩ := ih r1 p1 name q h2 P1 e1
      refine ⟨Q, k + 1, e2, hend, fun M hM => ?_⟩
      have hfuel : k + 1 + M = (k + M) + 1 := by omega
      rw [hfuel, parseLoop_step _ result P (Embeds_lt pre ex p P hP hlt),
        parseAssignment_fuel n (k + M) P r1 P1 g1 (by omega)]
      simp only [Res.bind]
      exact hk M (by omega)
    · have hend := Nat.le_of_not_lt hlt
      rw [parseLoop_done n result p hend] at h
      injection h with hn hq
      subst hn hq
      exact ⟨P, 0, hP, Nat.le_antisymm hP.2.2.2 hend, fun M _ => by rw [Nat.zero_add]⟩

theorem parseAll_embeds (pre ex : List Token)
    (hex : ∀ t ∈ ex.head?, t.Kind ≠ "&" ∧ t.Kind ≠ "^" ∧ t.Kind ≠ "|")
    (fuel : Nat) (p : Parser) (name : String) (q : Parser)
    (h : parseAll fuel p = .ok name q) (P : Parser) (hP : Embeds pre ex p P) :
    ∃ Q k, Embeds pre ex q Q ∧ q.pos = q.tokens.length ∧ q.tokens = p.tokens ∧
      ∀ M, fuel ≤ M → ∀ r, parseLoop (k + 1 + M) r P = parseLoop M name Q := by
  unfold parseAll at h
  obtain ⟨r1, p1, h1, h2⟩ := bind_ok _ _ _ _ h
  obtain ⟨tv, _, _, hget, _, _, _, _⟩ := parseAssignment_inv fuel p r1 p1 h1
  have hlt := getElem_some_lt _ _ _ hget
  obtain ⟨P1, g1, e1⟩ := parseAssignment_embeds pre ex hex fuel p r1 p1 h1 P hP
  obtain ⟨Q, k, e2, hend, hk⟩ := parseLoop_embeds pre ex hex fuel r1 p1 name q h2 P1 e1
  have htok : q.tokens = p.tokens := by
    obtain ⟨n1, p2, a1, a2, _⟩ := parseAll_last fuel p name q (by unfold parseAll; exact h)
    exact (parseAssignment_ok n1 p2 name q a1).1.trans a2
  refine ⟨Q, k, e2, hend, htok, fun M hM r => ?_⟩
  have hfuel : k + 1 + M = (k + M) + 1 := by omega
  rw [hfuel, parseLoop_step _ r P (Embeds_lt pre ex p P hP hlt),
    parseAssignment_fuel fuel (k + M) P r1 P1 g1 (by omega)]
  simp only [Res.bind]
  exact hk M hM

theorem lineResult_ok (vars : Env) (line : String) (name : String) (q : Parser)
    (h : lineResult vars line = .ok name q) :
    ∃ ts, tokenize line = .ok ts ∧ parseAll (4 * ts.length + 4) ⟨ts, 0, vars⟩ = .ok name q := by
  unfold lineResult at h
  cases htok : tokenize line with
  | panic e => rw [htok] at h; cases h
  | timeout => rw [htok] at h; cases h
  | ok ts =>
    rw [htok] at h
    exact ⟨ts, rfl, h⟩

theorem parseAll_head (fuel : Nat) (ts : List Token) (vars : Env) (name : String) (q : Parser)
    (h : parseAll fuel ⟨ts, 0, vars⟩ = .ok name q) :
    ts ≠ [] ∧ ∀ t ∈ ts.head?, t.Kind = "var" := by
  unfold parseAll at h
  obtain ⟨r1, p1, h1, _⟩ := bind_ok _ _ _ _ h
  obtain ⟨tv, _, _, hget, hk, _, _, _⟩ := parseAssignment_inv fuel _ r1 p1 h1
  cases ts with
  | nil => simp at hget
  | cons t rest =>
    simp only [List.getElem?_cons_zero, Option.some.injEq] at hget
    subst hget
    exact ⟨by simp, by simpa using hk⟩

theorem head_var_not_op (ts : List Token) (h : ∀ t ∈ ts.head?, t.Kind = "var") :
    ∀ t ∈ ts.head?, t.Kind ≠ "&" ∧ t.Kind ≠ "^" ∧ t.Kind ≠ "|" := by
  intro t ht
  rw [h t ht]
  decide

/-- A session whose lines are all processed successfully, replayed on the one
token stream made of the tokens of all its lines: started anywhere in a longer
sequence, the loop of `Parse` runs through the whole stream and ends with the
name and the Environment of the last line. -/
theorem session_stream (last : String) (name : String) (q : Parser) :
    ∀ (lines : List String) (vars0 vars : Env), envAfter vars0 lines = some vars →
    lineResult vars last = .ok name q →
    ∃ ts, sessionTokens (lines ++ [last]) = some ts ∧ ts ≠ [] ∧
      (∀ t ∈ ts.head?, t.Kind = "var") ∧
      ∀ pre : List Token, ∃ K n0, ∀ M, n0 ≤ M → ∀ r,
        parseLoop (K + 1 + M) r ⟨pre ++ ts, pre.length, vars0⟩ =
          .ok name ⟨pre ++ ts, (pre ++ ts).length, q.vars⟩ := by
  intro lines
  induction lines with
  | nil =>
    intro vars0 vars h1 h2
    simp only [envAfter, Option.some.injEq] at h1
    subst h1
    obtain ⟨ts, htok, hp⟩ := lineResult_ok _ _ _ _ h2
    obtain ⟨hne, hhead⟩ := parseAll_head _ ts _ _ _ hp
    refine ⟨ts, by simp [sessionTokens, htok], hne, hhead, fun pre => ?_⟩
    have hE : Embeds pre [] ⟨ts, 0, vars0⟩ ⟨pre ++ ts, pre.length, vars0⟩ :=
      ⟨by simp, rfl, rfl, Nat.zero_le _⟩
    obtain ⟨Q, k, e2, hend, htoks, hk⟩ :=
      parseAll_embeds pre [] (by simp) _ _ _ _ hp _ hE
    simp only at htoks
    have hQ : Q = ⟨pre ++ ts, (pre ++ ts).length, q.vars⟩ := by
      obtain ⟨g1, g2, g3, _⟩ := e2
      cases Q
      simp only [Parser.mk.injEq] at g1 g2 g3 ⊢
      exact ⟨by rw [g1, htoks]; simp, by rw [g2, hend, htoks]; simp, g3⟩
    refine ⟨k, 4 * ts.length + 4, fun M hM r => ?_⟩
    rw [hk M hM r, hQ]
    obtain ⟨M1, rfl⟩ : ∃ M1, M = M1 + 1 := ⟨M - 1, by omega⟩
    exact parseLoop_done _ _ _ (Nat.le_refl _)
  | cons l lines ih =>
    intro vars0 vars h1 h2
    rw [envAfter] at h1
    cases hl : lineResult vars0 l with
    | panic e1 q1 => rw [hl] at h1; cases h1
    | timeout => rw [hl] at h1; cases h1
    | ok name1 q1 =>
      rw [hl] at h1
      simp only at h1
      obtain ⟨ts1, htok, hp⟩ := lineResult_ok _ _ _ _ hl
      obtain ⟨hne1, hhead1⟩ := parseAll_head _ ts1 _ _ _ hp
      obtain ⟨tsR, hR, hneR, hheadR, hrun⟩ := ih q1.vars vars h1 h2
      refine ⟨ts1 ++ tsR, by simp [sessionTokens, htok, hR], by simp [hne1], ?_, fun pre => ?_⟩
      · cases ts1 with
        | nil => exact absurd rfl hne1
        | cons t rest => simpa using hhead1
      · have hE : Embeds pre tsR ⟨ts1, 0, vars0⟩ ⟨pre ++ (ts1 ++ tsR), pre.length, vars0⟩ :=
          ⟨rfl, rfl, rfl, Nat.zero_le _⟩
        obtain ⟨Q, k, e2, hend, htoks, hk⟩ :=
          parseAll_embeds pre tsR (head_var_not_op tsR hheadR) _ _ _ _ hp _ hE
        simp only at htoks
        have hQ : Q = ⟨(pre ++ ts1) ++ tsR, (pre ++ ts1).length, q1.vars⟩ := by
          obtain ⟨g1, g2, g3, _⟩ := e2
          cases Q
          simp only [Parser.mk.injEq] at g1 g2 g3 ⊢
          exact ⟨by rw [g1, htoks]; simp, by rw [g2, hend, htoks]; simp, g3⟩
        obtain ⟨K, n0, hK⟩ := hrun (pre ++ ts1)
        refine ⟨k + 1 + K, n0 + (4 * ts1.length + 4), fun M hM r => ?_⟩
        have hfuel : k + 1 + K + 1 + M = k + 1 + (K + 1 + M) := by omega
        rw [hfuel, hk (K + 1 + M) (by omega) r, hQ, hK M (by omega) name1]
        simp only [List.append_assoc]

/-- The claim C16 fails: the session `a=1` followed by an empty line panics when
processed line by line, while the assignment loop over the tokens of both lines
succeeds; and the session `a=1|`, `2` panics line by line, while the loop over
its token stream assigns 3 to `a`. -/
theorem one_stream_counterexample :
    (CalcAllAndPrint ["a=1", ""]).status = .panicked (.expected "var") ∧
    sessionTokens ["a=1", ""] = some [⟨"var", "a"⟩, ⟨"=", "="⟩, ⟨"const", "1"⟩] ∧
    parseAll 16 (NewParser [⟨"var", "a"⟩, ⟨"=", "="⟩, ⟨"const", "1"⟩] Env.empty) =
      .ok "a" ⟨[⟨"var", "a"⟩, ⟨"=", "="⟩, ⟨"const", "1"⟩], 3, Env.empty.set "a" 1⟩ ∧
    (CalcAllAndPrint ["a=1|", "2"]).status = .panicked .syntaxError ∧
    sessionTokens ["a=1|", "2"] =
      some [⟨"var", "a"⟩, ⟨"=", "="⟩, ⟨"const", "1"⟩, ⟨"|", "|"⟩, ⟨"const", "2"⟩] ∧
    parseAll 24
        (NewParser [⟨"var", "a"⟩, ⟨"=", "="⟩, ⟨"const", "1"⟩, ⟨"|", "|"⟩, ⟨"const", "2"⟩]
          Env.empty) =
      .ok "a" ⟨[⟨"var", "a"⟩, ⟨"=", "="⟩, ⟨"const", "1"⟩, ⟨"|", "|"⟩, ⟨"const", "2"⟩], 5,
        Env.empty.set "a" 3⟩ :=
  ⟨by decide, by decide, rfl, by decide, by decide, rfl⟩

/-- C16 (amended): every line is tokenized and parsed on its own and only the
Environment is carried from line to line; when a non-empty session is processed
successfully line by line, the assignment loop of `Parse` run once over the
concatenation of the token sequences of all its lines also succeeds, with the
same last assigned variable and the same final Environment. -/
theorem line_by_line_refines_one_stream (pre : List String) (last : String)
    (hfin : (CalcAllAndPrint (pre ++ [last])).status = .finished) :
    ∃ (vars : Env) (name : String) (q : Parser) (ts : List Token),
      envAfter Env.empty pre = some vars ∧ lineResult vars last = .ok name q ∧
      (CalcAllAndPrint (pre ++ [last])).vars = q.vars ∧
      sessionTokens (pre ++ [last]) = some ts ∧
      parseAll (NewParser ts Env.empty).fuel (NewParser ts Env.empty) =
        .ok name ⟨ts, ts.length, q.vars⟩ := by
  have hfin1 : (calcLoop Env.empty (pre ++ [last])).status = .finished := by
    simpa [CalcAllAndPrint, Session.after] using hfin
  obtain ⟨vars, name, q, h1, h2, h3⟩ := calcLoop_finished pre last Env.empty hfin1
  obtain ⟨ts, hts, hne, _, hrun⟩ := session_stream last name q pre Env.empty vars h1 h2
  obtain ⟨K, n0, hK⟩ := hrun []
  refine ⟨vars, name, q, ts, h1, h2, by rw [CalcAllAndPrint, h3]; rfl, hts, ?_⟩
  have hpos : (⟨ts, 0, Env.empty⟩ : Parser).pos < (⟨ts, 0, Env.empty⟩ : Parser).tokens.length :=
    List.length_pos.mpr hne
  have hbig : parseAll (K + (n0 + (4 * ts.length + 4))) ⟨ts, 0, Env.empty⟩ =
      .ok name ⟨ts, ts.length, q.vars⟩ := by
    have := hK (n0 + (4 * ts.length + 4)) (by omega) name
    simp only [List.nil_append, List.length_nil] at this
    have hfuel : K + 1 + (n0 + (4 * ts.length + 4)) = (K + (n0 + (4 * ts.length + 4))) + 1 := by
      omega
    rw [hfuel, parseLoop_step _ name _ hpos] at this
    exact this
  have hne0 : parseAll (4 * ts.length + 4) ⟨ts, 0, Env.empty⟩ ≠ .timeout :=
    parseAll_no_timeout _ _ (by simp only [Parser.remaining]; omega)
  have hmono := mono_le (fun k => parseAll k ⟨ts, 0, Env.empty⟩)
    (fun k => parseAll_mono k _) (4 * ts.length + 4) hne0
    (K + (n0 + (4 * ts.length + 4))) (by omega)
  simp only at hmono
  simp only [Parser.fuel, NewParser]
  rw [← hmono, hbig]

theorem line_by_line_refines_one_stream_witness :
    sessionTokens (["a=5"] ++ ["b=a&3 c=~b"]) =
      some [⟨"var", "a"⟩, ⟨"=", "="⟩, ⟨"const", "5"⟩, ⟨"var", "b"⟩, ⟨"=", "="⟩, ⟨"var", "a"⟩,
        ⟨"&", "&"⟩, ⟨"const", "3"⟩, ⟨"var", "c"⟩, ⟨"=", "="⟩, ⟨"~", "~"⟩, ⟨"var", "b"⟩] ∧
    ∃ (vars : Env) (name : String) (q : Parser) (ts : List Token),
      envAfter Env.empty ["a=5"] = some vars ∧ lineResult vars "b=a&3 c=~b" = .ok name q ∧
      (CalcAllAndPrint (["a=5"] ++ ["b=a&3 c=~b"])).vars = q.vars ∧
      sessionTokens (["a=5"] ++ ["b=a&3 c=~b"]) = some ts ∧
      parseAll (NewParser ts Env.empty).fuel (NewParser ts Env.empty) =
        .ok name ⟨ts, ts.length, q.vars⟩ :=
  ⟨by decide, line_by_line_refines_one_stream ["a=5"] "b=a&3 c=~b" (by decide)⟩

/-! ## The parser agrees with evaluating an expression tree (C17) -/

theorem Res.ok_bind {α β : Type} (a : α) (p : Parser) (f : α → Parser → Res β) :
    (Res.ok a p).bind f = f a p := rfl

theorem factorLoop_stop (n : Nat) (v : Int) (p : Parser) (h : p.atKind "&" = false) :
    factorLoop (n + 1) v p = .ok v p := by
  rw [factorLoop, h]; rfl

theorem termLoop_stop (n : Nat) (v : Int) (p : Parser) (h : p.atKind "^" = false) :
    termLoop (n + 1) v p = .ok v p := by
  rw [termLoop, h]; rfl

theorem expressionLoop_stop (n : Nat) (v : Int) (p : Parser) (h : p.atKind "|" = false) :
    expressionLoop (n + 1) v p = .ok v p := by
  rw [expressionLoop, h]; rfl

theorem eval_binary (oa ob : Option Int) (f : Int → Int → Int) (v : Int)
    (h : (oa.bind fun x => ob.map fun y => f x y) = some v) :
    ∃ x y, oa = some x ∧ ob = some y ∧ v = f x y := by
  cases oa with
  | none => simp at h
  | some x =>
    cases ob with
    | none => simp at h
    | some y =>
      simp only [Option.some_bind, Option.map_some', Option.some.injEq] at h
      exact ⟨x, y, rfl, rfl, h.symm⟩

/-- The rendering of a tree, wherever it sits in a token sequence, is read by
`parseUnary` as one operand whose value is the value of the tree. -/
theorem render_unary (vars : Env) (w : Bool) : ∀ (e : Expr) (v : Int), e.eval vars = some v →
    ∀ (toks pre suf : List Token) (n pos fin : Nat),
      toks = pre ++ ((e.render w) ++ suf) → pos = pre.length → fin = pos + (e.render w).length →
      4 * (e.render w).length ≤ n →
      parseUnary n ⟨toks, pos, vars⟩ = .ok v ⟨toks, fin, vars⟩ := by
  intro e
  induction e with
  | const text =>
    intro v hv toks pre suf n pos fin htoks hpos hfin hn
    simp only [Expr.eval] at hv
    split at hv
    · rename_i hlit
      simp only [Option.some.injEq] at hv
      subst hv
      obtain ⟨m, rfl⟩ : ∃ m, n = m + 1 := ⟨n - 1, by simp [Expr.render] at hn; omega⟩
      have hg : toks[pos]? = some ⟨"const", text⟩ := by
        subst htoks hpos
        simp only [Expr.render, List.cons_append, List.nil_append, getElem_at_length]
      simp only [Expr.render, List.length_singleton] at hfin
      subst hfin
      exact parseUnary_const m _ text _ hg (Atoi_literal text hlit)
    · cases hv
  | var name =>
    intro v hv toks pre suf n pos fin htoks hpos hfin hn
    simp only [Expr.eval] at hv
    obtain ⟨m, rfl⟩ : ∃ m, n = m + 1 := ⟨n - 1, by simp [Expr.render] at hn; omega⟩
    have hA := fun kind => atKind_at toks pre suf ⟨"var", name⟩ pos vars kind
      (by simp [htoks, Expr.render]) hpos
    have hL := lastValue_at toks pre suf ⟨"var", name⟩ pos vars
      (by simp [htoks, Expr.render]) hpos
    simp only [Expr.render, List.length_singleton] at hfin
    subst hfin
    rw [parseUnary, hA, hA]
    simp +decide [Parser.advance, hL, hv]
  | not e ih =>
    intro v hv toks pre suf n pos fin htoks hpos hfin hn
    simp only [Expr.eval] at hv
    cases hx : e.eval vars with
    | none => rw [hx] at hv; cases hv
    | some x =>
      rw [hx] at hv
      simp only [Option.map_some', Option.some.injEq] at hv
      subst hv
      cases w with
      | false =>
        obtain ⟨m, rfl⟩ : ∃ m, n = m + 1 := ⟨n - 1, by simp [Expr.render] at hn; omega⟩
        have hi := ih x hx toks (pre ++ [⟨"~", "~"⟩]) suf m (pos + 1) fin
          (by simp [htoks, Expr.render]) (by simp [hpos])
          (by simp [Expr.render] at hfin; omega) (by simp [Expr.render] at hn; omega)
        have hA := fun kind =>
          atKind_at toks pre ((e.render false) ++ suf) ⟨"~", "~"⟩ pos vars kind
            (by simp [htoks, Expr.render]) hpos
        rw [parseUnary, hA]
        simp +decide [Parser.advance, hi, Res.bind]
      | true =>
        simp only [Expr.render, if_true, List.length_cons, List.length_append,
          List.length_nil] at hn hfin
        obtain ⟨k, rfl⟩ : ∃ k, n = k + 6 := ⟨n - 6, by omega⟩
        have hi := ih x hx toks (pre ++ [⟨"(", "("⟩, ⟨"~", "~"⟩]) (⟨")", ")"⟩ :: suf) (k + 1)
          (pos + 1 + 1) (fin - 1) (by simp [htoks, Expr.render]) (by simp [hpos])
          (by omega) (by omega)
        have hA0 := fun kind => atKind_at toks pre
          (⟨"~", "~"⟩ :: ((e.render true) ++ ⟨")", ")"⟩ :: suf)) ⟨"(", "("⟩ pos vars kind
          (by simp [htoks, Expr.render]) hpos
        have hA1 := fun kind => atKind_at toks (pre ++ [⟨"(", "("⟩])
          ((e.render true) ++ ⟨")", ")"⟩ :: suf) ⟨"~", "~"⟩ (pos + 1) vars kind
          (by simp [htoks, Expr.render]) (by simp [hpos])
        have hA2 := fun kind => atKind_at toks
          (pre ++ ⟨"(", "("⟩ :: ⟨"~", "~"⟩ :: (e.render true)) suf ⟨")", ")"⟩ (fin - 1) vars
          kind (by simp [htoks, Expr.render]) (by simp [hpos]; omega)
        have hE := expect_at toks (pre ++ ⟨"(", "("⟩ :: ⟨"~", "~"⟩ :: (e.render true)) suf
          ⟨")", ")"⟩ (fin - 1) vars ")" (by simp [htoks, Expr.render]) (by simp [hpos]; omega)
          rfl
        have hfin1 : fin - 1 + 1 = fin := by omega
        rw [hfin1] at hE
        have hU : parseUnary (k + 2) ⟨toks, pos + 1, vars⟩ =
            .ok (Int.not x) ⟨toks, fin - 1, vars⟩ := by
          rw [parseUnary, hA1]
          simp +decide [Parser.advance, hi, Res.bind]
        rw [parseUnary, hA0, hA0, hA0, hA0]
        simp +decide only [Parser.advance, if_true, if_false, parseExpression, parseTerm,
          parseFactor, factorLoop, termLoop, expressionLoop, hU, hA2, hE, Res.ok_bind]
  | and a b iha ihb =>
    intro v hv toks pre suf n pos fin htoks hpos hfin hn
    simp only [Expr.eval] at hv
    obtain ⟨x, y, hx, hy, rfl⟩ := eval_binary _ _ _ _ hv
    simp only [Expr.render, List.length_cons, List.length_append, List.length_nil] at hn hfin
    obtain ⟨k, rfl⟩ : ∃ k, n = k + 6 := ⟨n - 6, by omega⟩
    have h1 := iha x hx toks (pre ++ [⟨"(", "("⟩])
      (⟨"&", "&"⟩ :: ((b.render w) ++ ⟨")", ")"⟩ :: suf)) (k + 2) (pos + 1)
      (pos + 1 + (a.render w).length) (by simp [htoks, Expr.render]) (by simp [hpos]) rfl (by omega)
    have h2 := ihb y hy toks (pre ++ ⟨"(", "("⟩ :: ((a.render w) ++ [⟨"&", "&"⟩]))
      (⟨")", ")"⟩ :: suf) (k + 1) (pos + 1 + (a.render w).length + 1) (fin - 1)
      (by simp [htoks, Expr.render]) (by simp [hpos]; omega) (by omega) (by omega)
    have hA0 := fun kind => atKind_at toks pre
      ((a.render w) ++ ⟨"&", "&"⟩ :: ((b.render w) ++ ⟨")", ")"⟩ :: suf)) ⟨"(", "("⟩ pos vars kind
      (by simp [htoks, Expr.render]) hpos
    have hA1 := fun kind => atKind_at toks (pre ++ ⟨"(", "("⟩ :: (a.render w))
      ((b.render w) ++ ⟨")", ")"⟩ :: suf) ⟨"&", "&"⟩ (pos + 1 + (a.render w).length) vars kind
      (by simp [htoks, Expr.render]) (by simp [hpos]; omega)
    have hA2 := fun kind => atKind_at toks
      (pre ++ ⟨"(", "("⟩ :: ((a.render w) ++ ⟨"&", "&"⟩ :: (b.render w))) suf ⟨")", ")"⟩ (fin - 1) vars
      kind (by simp [htoks, Expr.render]) (by simp [hpos]; omega)
    have hE := expect_at toks (pre ++ ⟨"(", "("⟩ :: ((a.render w) ++ ⟨"&", "&"⟩ :: (b.render w))) suf
      ⟨")", ")"⟩ (fin - 1) vars ")" (by simp [htoks, Expr.render]) (by simp [hpos]; omega) rfl
    have hfin1 : fin - 1 + 1 = fin := by omega
    rw [hfin1] at hE
    rw [parseUnary, hA0, hA0, hA0, hA0]
    simp +decide only [Parser.advance, if_true, if_false, parseExpression, parseTerm,
      parseFactor, factorLoop, termLoop, expressionLoop, h1, h2, hA1, hA2, hE, Res.ok_bind]
  | xor a b iha ihb =>
    intro v hv toks pre suf n pos fin htoks hpos hfin hn
    simp only [Expr.eval] at hv
    obtain ⟨x, y, hx, hy, rfl⟩ := eval_binary _ _ _ _ hv
    simp only [Expr.render, List.length_cons, List.length_append, List.length_nil] at hn hfin
    obtain ⟨k, rfl⟩ : ∃ k, n = k + 6 := ⟨n - 6, by omega⟩
    have h1 := iha x hx toks (pre ++ [⟨"(", "("⟩])
      (⟨"^", "^"⟩ :: ((b.render w) ++ ⟨")", ")"⟩ :: suf)) (k + 2) (pos + 1)
      (pos + 1 + (a.render w).length) (by simp [htoks, Expr.render]) (by simp [hpos]) rfl (by omega)
    have h2 := ihb y hy toks (pre ++ ⟨"(", "("⟩ :: ((a.render w) ++ [⟨"^", "^"⟩]))
      (⟨")", ")"⟩ :: suf) (k + 1) (pos + 1 + (a.render w).length + 1) (fin - 1)
      (by simp [htoks, Expr.render]) (by simp [hpos]; omega) (by omega) (by omega)
    have hA0 := fun kind => atKind_at toks pre
      ((a.render w) ++ ⟨"^", "^"⟩ :: ((b.render w) ++ ⟨")", ")"⟩ :: suf)) ⟨"(", "("⟩ pos vars kind
      (by simp [htoks, Expr.render]) hpos
    have hA1 := fun kind => atKind_at toks (pre ++ ⟨"(", "("⟩ :: (a.render w))
      ((b.render w) ++ ⟨")", ")"⟩ :: suf) ⟨"^", "^"⟩ (pos + 1 + (a.render w).length) vars kind
      (by simp [htoks, Expr.render]) (by simp [hpos]; omega)
    have hA2 := fun kind => atKind_at toks
      (pre ++ ⟨"(", "("⟩ :: ((a.render w) ++ ⟨"^", "^"⟩ :: (b.render w))) suf ⟨")", ")"⟩ (fin - 1) vars
      kind (by simp [htoks, Expr.render]) (by simp [hpos]; omega)
    have hE := expect_at toks (pre ++ ⟨"(", "("⟩ :: ((a.render w) ++ ⟨"^", "^"⟩ :: (b.render w))) suf
      ⟨")", ")"⟩ (fin - 1) vars ")" (by simp [htoks, Expr.render]) (by simp [hpos]; omega) rfl
    have hfin1 : fin - 1 + 1 = fin := by omega
    rw [hfin1] at hE
    rw [parseUnary, hA0, hA0, hA0, hA0]
    simp +decide only [Parser.advance, if_true, if_false, parseExpression, parseTerm,
      parseFactor, factorLoop, termLoop, expressionLoop, h1, h2, hA1, hA2, hE, Res.ok_bind]
  | or a b iha ihb =>
    intro v hv toks pre suf n pos fin htoks hpos hfin hn
    simp only [Expr.eval] at hv
    obtain ⟨x, y, hx, hy, rfl⟩ := eval_binary _ _ _ _ hv
    simp only [Expr.render, List.length_cons, List.length_append, List.length_nil] at hn hfin
    obtain ⟨k, rfl⟩ : ∃ k, n = k + 6 := ⟨n - 6, by omega⟩
    have h1 := iha x hx toks (pre ++ [⟨"(", "("⟩])
      (⟨"|", "|"⟩ :: ((b.render w) ++ ⟨")", ")"⟩ :: suf)) (k + 2) (pos + 1)
      (pos + 1 + (a.render w).length) (by simp [htoks, Expr.render]) (by simp [hpos]) rfl (by omega)
    have h2 := ihb y hy toks (pre ++ ⟨"(", "("⟩ :: ((a.render w) ++ [⟨"|", "|"⟩]))
      (⟨")", ")"⟩ :: suf) (k + 1) (pos + 1 + (a.render w).length + 1) (fin - 1)
      (by simp [htoks, Expr.render]) (by simp [hpos]; omega) (by omega) (by omega)
    have hA0 := fun kind => atKind_at toks pre
      ((a.render w) ++ ⟨"|", "|"⟩ :: ((b.render w) ++ ⟨")", ")"⟩ :: suf)) ⟨"(", "("⟩ pos vars kind
      (by simp [htoks, Expr.render]) hpos
    have hA1 := fun kind => atKind_at toks (pre ++ ⟨"(", "("⟩ :: (a.render w))
      ((b.render w) ++ ⟨")", ")"⟩ :: suf) ⟨"|", "|"⟩ (pos + 1 + (a.render w).length) vars kind
      (by simp [htoks, Expr.render]) (by simp [hpos]; omega)
    have hA2 := fun kind => atKind_at toks
      (pre ++ ⟨"(", "("⟩ :: ((a.render w) ++ ⟨"|", "|"⟩ :: (b.render w))) suf ⟨")", ")"⟩ (fin - 1) vars
      kind (by simp [htoks, Expr.render]) (by simp [hpos]; omega)
    have hE := expect_at toks (pre ++ ⟨"(", "("⟩ :: ((a.render w) ++ ⟨"|", "|"⟩ :: (b.render w))) suf
      ⟨")", ")"⟩ (fin - 1) vars ")" (by simp [htoks, Expr.render]) (by simp [hpos]; omega) rfl
    have hfin1 : fin - 1 + 1 = fin := by omega
    rw [hfin1] at hE
    rw [parseUnary, hA0, hA0, hA0, hA0]
    simp +decide only [Parser.advance, if_true, if_false, parseExpression, parseTerm,
      parseFactor, factorLoop, termLoop, expressionLoop, h1, h2, hA1, hA2, hE, Res.ok_bind]

/-- C17: the one-pass parser agrees with evaluating an explicit tree.  For every
tree of constants that fit the integer width, variables bound in the
Environment, NOT, AND, XOR and OR (so that the tree has a value `v`),
`parseExpression` run from position 0 on the tokens of the fully parenthesised
rendering of the tree (NOT written bare or in parentheses of its own), with the
fuel of `Parse` or more, returns `v`, with the
cursor past the last token and the Environment unchanged. -/
theorem parser_agrees_with_tree (vars : Env) (w : Bool) (e : Expr) (v : Int)
    (hv : e.eval vars = some v) (n : Nat) (hn : 4 * (e.render w).length + 4 ≤ n) :
    parseExpression n ⟨(e.render w), 0, vars⟩ = .ok v ⟨(e.render w), (e.render w).length, vars⟩ := by
  obtain ⟨k, rfl⟩ : ∃ k, n = k + 4 := ⟨n - 4, by omega⟩
  have hu := render_unary vars w e v hv (e.render w) [] [] (k + 1) 0 (e.render w).length
    (by simp) rfl (by simp) (by omega)
  exact parseExpression_of_unary k _ _ v hu (atKind_at_end _ _ (Nat.le_refl _))
    (atKind_at_end _ _ (Nat.le_refl _)) (atKind_at_end _ _ (Nat.le_refl _))

theorem parser_agrees_with_tree_witness :
    (Expr.xor (.var "b") (.and (.const "3") (.not (.not (.var "c"))))).render true =
      [⟨"(", "("⟩, ⟨"var", "b"⟩, ⟨"^", "^"⟩, ⟨"(", "("⟩, ⟨"const", "3"⟩, ⟨"&", "&"⟩,
        ⟨"(", "("⟩, ⟨"~", "~"⟩, ⟨"(", "("⟩, ⟨"~", "~"⟩, ⟨"var", "c"⟩, ⟨")", ")"⟩, ⟨")", ")"⟩,
        ⟨")", ")"⟩, ⟨")", ")"⟩] ∧
    parseExpression 64
        ⟨(Expr.xor (.var "b") (.and (.const "3") (.not (.not (.var "c"))))).render true, 0,
          (Env.empty.set "b" 2).set "c" 5⟩ =
      .ok 3
        ⟨(Expr.xor (.var "b") (.and (.const "3") (.not (.not (.var "c"))))).render true, 15,
          (Env.empty.set "b" 2).set "c" 5⟩ ∧
    parseExpression 48
        ⟨(Expr.xor (.var "b") (.and (.const "3") (.not (.not (.var "c"))))).render false, 0,
          (Env.empty.set "b" 2).set "c" 5⟩ =
      .ok 3
        ⟨(Expr.xor (.var "b") (.and (.const "3") (.not (.not (.var "c"))))).render false, 11,
          (Env.empty.set "b" 2).set "c" 5⟩ :=
  ⟨by decide,
   parser_agrees_with_tree ((Env.empty.set "b" 2).set "c" 5) true
    (.xor (.var "b") (.and (.const "3") (.not (.not (.var "c"))))) 3 (by decide) 64 (by decide),
   parser_agrees_with_tree ((Env.empty.set "b" 2).set "c" 5) false
    (.xor (.var "b") (.and (.const "3") (.not (.not (.var "c"))))) 3 (by decide) 48 (by decide)⟩

end BinaryOps
